import Mathlib

/-!
Verification development for the rust-compress library.

Each Rust module that the checked properties concern is shallowly embedded
here as executable Lean definitions: machine integers become `Nat` with
explicit reductions modulo a power of two wherever the Rust code can wrap
or truncate, arrays become lists or explicit update functions, and partial
operations (panics, failed assertions) become `Option`/`Except` results.
The theorems at the end of the file settle the stated properties of those
definitions.
-/

namespace RustCompress

/-! ## checksum/adler.rs -/

/-- Modulus used by the Adler-32 checksum (the prime 65521). -/
def MOD_ADLER : Nat := 65521

/-- Adler-32 state: two accumulators, as in `State32` of `checksum/adler.rs`. -/
structure State32 where
  a : Nat
  b : Nat
  deriving DecidableEq, Repr

/-- The fresh state produced by `State32::new`. -/
def State32.new : State32 := { a := 1, b := 0 }

/-- One step of `State32::feed`: fold a single byte into the state. -/
def State32.feedByte (s : State32) (byte : Nat) : State32 :=
  let a2 := (s.a + byte) % MOD_ADLER
  { a := a2, b := (a2 + s.b) % MOD_ADLER }

/-- `State32::feed`: fold a buffer of bytes into the state, in order. -/
def State32.feed (s : State32) (buf : List Nat) : State32 :=
  buf.foldl State32.feedByte s

/-- `State32::result`: the checksum word `(b << 16) | a`. -/
def State32.result (s : State32) : Nat :=
  (s.b <<< 16) ||| s.a

/-- Checksum of a whole buffer from a fresh state. -/
def adler32 (buf : List Nat) : Nat :=
  (State32.new.feed buf).result

/-! ## flate.rs -/

/-- Maximum Huffman code length (`MAXBITS` in `flate.rs`). -/
def MAXBITS : Nat := 15

/-- `MAXCODES = MAXLCODES + MAXDCODES = 286 + 30` in `flate.rs`. -/
def MAXCODES : Nat := 316

/-- The error kinds of the `flate.rs` decoder (`enum Error`). -/
inductive FlateError where
  | huffmanTreeTooLarge
  | invalidBlockCode
  | invalidHuffmanHeaderSymbol
  | invalidHuffmanTree
  | invalidHuffmanTreeHeader
  | invalidHuffmanCode
  | invalidStaticSize
  | notEnoughBits
  deriving DecidableEq, Repr

/-- Decoding Huffman tree (`struct HuffmanTree`): per-length counts and the
symbols in canonical order. -/
structure HuffmanTree where
  count : List Nat
  symbol : List Nat
  deriving DecidableEq, Repr

instance : DecidableEq (Except FlateError HuffmanTree) :=
  fun a b =>
    match a, b with
    | .ok x, .ok y =>
      if h : x = y then isTrue (by rw [h]) else isFalse (by intro hh; cases hh; exact h rfl)
    | .error x, .error y =>
      if h : x = y then isTrue (by rw [h]) else isFalse (by intro hh; cases hh; exact h rfl)
    | .ok _, .error _ => isFalse (by intro hh; cases hh)
    | .error _, .ok _ => isFalse (by intro hh; cases hh)

/-- The left-capacity loop of `HuffmanTree::construct`: starting from
`left = 1`, double and subtract each per-length count; report `false` as soon
as `left` goes negative (the Kraft-inequality check). -/
def kraftLeftOk : Int → List Nat → Bool
  | _, [] => true
  | left, c :: rest =>
    let l2 := left * 2 - (c : Int)
    if l2 < 0 then false else kraftLeftOk l2 rest

/-- `HuffmanTree::construct`. `none` models a Rust panic (a code length that
indexes outside the 16-entry `count` array); `some (.error e)` the early
returns; `some (.ok t)` the constructed tree. -/
def HuffmanTree.construct (lens : List Nat) : Option (Except FlateError HuffmanTree) :=
  if lens.any (fun l => MAXBITS < l) then none
  else
    let count := lens.foldl (fun c l => c.set l (c.getD l 0 + 1)) (List.replicate (MAXBITS + 1) 0)
    if count.getD 0 0 = lens.length then
      some (.ok { count := count, symbol := List.replicate MAXCODES 0 })
    else if kraftLeftOk 1 (count.drop 1) then
      let offs := (List.range (MAXBITS - 1)).foldl
        (fun (o : List Nat) i => o.set (i + 2) (o.getD (i + 1) 0 + count.getD (i + 1) 0))
        (List.replicate (MAXBITS + 1) 0)
      let placed := lens.enum.foldl
        (fun (st : List Nat × List Nat) (p : Nat × Nat) =>
          if p.2 ≠ 0 then
            (st.1.set p.2 (st.1.getD p.2 0 + 1), st.2.set (st.1.getD p.2 0) p.1)
          else st)
        (offs, List.replicate MAXCODES 0)
      some (.ok { count := count, symbol := placed.2 })
    else
      some (.error .invalidHuffmanTree)

/-- Kraft-inequality violation over a length array, as the checked property
states it: the terms `2^(MAXBITS - len)` of the nonzero lengths sum to more
than `2^MAXBITS`. -/
def kraftViolated (lens : List Nat) : Prop :=
  2 ^ MAXBITS < (((lens.filter (fun l => l ≠ 0)).map (fun l => 2 ^ (MAXBITS - l))).sum)

instance (lens : List Nat) : Decidable (kraftViolated lens) := by
  unfold kraftViolated; infer_instance

/-- `EXTRALENS` of `Decoder::codes`: base lengths for symbols 257-285. -/
def EXTRALENS : List Nat :=
  [3, 4, 5, 6, 7, 8, 9, 10] ++ [11, 13, 15, 17, 19, 23, 27, 31] ++
    [35, 43, 51, 59, 67, 83, 99, 115] ++ [131, 163, 195, 227, 258]

/-- `EXTRABITS` of `Decoder::codes`: extra bits for symbols 257-285. -/
def EXTRABITS : List Nat :=
  [0, 0, 0, 0, 0, 0, 0, 0] ++ [1, 1, 1, 1, 2, 2, 2, 2] ++
    [3, 3, 3, 3, 4, 4, 4, 4] ++ [5, 5, 5, 5, 0]

/-- The guard of `Decoder::codes` in front of the fixed length tables, for a
decoded literal/length symbol `sym` with `257 ≤ sym < 290`: compute
`n = sym - 257` and reject only when `n > EXTRALENS.len()`; otherwise the
code indexes `EXTRALENS[n]` and `EXTRABITS[n]`. `none` is the error return,
`some n` the table index actually used. -/
def lengthExtraIndex (sym : Nat) : Option Nat :=
  let n := sym - 257
  if EXTRALENS.length < n then none else some n

/-! ## zlib.rs -/

/-- Error outcomes of the zlib decoder, one per distinct `io::Error` the
source constructs, plus the pass-through cases. -/
inductive ZlibError where
  | unsupportedStreamFormat
  | unsupportedWindowSize
  | unsupportedDictionary
  | invalidHeaderChecksum
  | invalidChecksum
  | deflateError
  | truncated
  deriving DecidableEq, Repr

/-- `Decoder::validate_header` of `zlib.rs`: the four checks on the two
header bytes, in source order. -/
def validateHeader (cmf flg : Nat) : Except ZlibError Unit :=
  if cmf &&& 0xf ≠ 0x8 then .error .unsupportedStreamFormat
  else if cmf &&& 0xf0 ≠ 0x70 then .error .unsupportedWindowSize
  else if flg &&& 0x20 ≠ 0 then .error .unsupportedDictionary
  else if (cmf * 256 + flg) % 31 ≠ 0 then .error .invalidHeaderChecksum
  else .ok ()

/-- Big-endian 32-bit word from four stream bytes (`read_u32::<BigEndian>`). -/
def beU32 (b0 b1 b2 b3 : Nat) : Nat :=
  ((b0 * 256 + b1) * 256 + b2) * 256 + b3

/-- The zlib `Decoder` read loop, run to completion.  The wrapped DEFLATE
decoder is abstracted as `inflate`, which consumes the stream after the
2-byte header and either fails or returns the decompressed bytes together
with the bytes it leaves unconsumed.  Mirrors `Decoder::read`: validate the
header, pass all decompressed bytes through Adler-32, and at DEFLATE EOF
read the 4-byte big-endian trailer and compare it with the hash. -/
def zlibDecode (inflate : List Nat → Option (List Nat × List Nat)) :
    List Nat → Except ZlibError (List Nat)
  | cmf :: flg :: body =>
    match validateHeader cmf flg with
    | .error e => .error e
    | .ok () =>
      match inflate body with
      | none => .error .deflateError
      | some (out, rest) =>
        match rest with
        | t0 :: t1 :: t2 :: t3 :: _ =>
          if beU32 t0 t1 t2 t3 ≠ adler32 out then .error .invalidChecksum
          else .ok out
        | _ => .error .truncated
  | _ => .error .truncated

/-! ## lz4.rs (frame encoder) -/

/-- Little-endian byte encoding of a `u32` value (`write_u32::<LittleEndian>`). -/
def leU32 (v : Nat) : List Nat :=
  [v % 256, v / 256 % 256, v / 65536 % 256, v / 16777216 % 256]

/-- Block-size limit of the LZ4 frame `Encoder` (256 KiB). -/
def lz4Limit : Nat := 262144

/-- `Encoder::compress` of `lz4.rs`: "compression isn't actually implemented
just yet" - it returns `false`, i.e. never produces a compressed block. -/
def lz4Compress (_buf : List Nat) : Option (List Nat) := none

/-- `Encoder::encode_block`: emit a compressed block when `compress`
succeeds, otherwise the buffered bytes as a raw block whose 32-bit length
field carries the high bit. -/
def lz4EncodeBlockBytes (buf : List Nat) : List Nat :=
  match lz4Compress buf with
  | some tmp => leU32 (tmp.length % 2 ^ 32) ++ tmp
  | none => leU32 ((buf.length % 2 ^ 32) ||| 0x80000000) ++ buf

/-- The frame header written on the first `Encoder::write`. -/
def lz4Header : List Nat :=
  leU32 0x184D2204 ++ [0b01100000, 0b01010000, 0]

/-- The buffering loop of `Encoder::write`: append input to `buf` up to the
block limit, emitting a block each time the buffer fills exactly.  Returns
the new buffer and the emitted bytes; fuel makes the recursion structural
(one unit per loop iteration is enough, see `lz4WriteLoop_spec`). -/
def lz4WriteLoop : Nat → List Nat → List Nat → List Nat × List Nat
  | 0, buf, _ => (buf, [])
  | fuel + 1, buf, input =>
    if input.isEmpty then (buf, [])
    else
      let amt := min (lz4Limit - buf.length) input.length
      let buf2 := buf ++ input.take amt
      if buf2.length = lz4Limit then
        let r := lz4WriteLoop fuel [] (input.drop amt)
        (r.1, lz4EncodeBlockBytes buf2 ++ r.2)
      else
        lz4WriteLoop fuel buf2 (input.drop amt)

/-- `Encoder::flush`: emit the pending buffer (if any) as one final block. -/
def lz4Flush (buf : List Nat) : List Nat :=
  if buf.length > 0 then lz4EncodeBlockBytes buf else []

/-! ## entropy/ari/table.rs -/

/-- The frequency-table model (`Model` of `entropy/ari/table.rs`).  `table`
holds the 16-bit `Frequency` entries; `total` is their 32-bit sum. -/
structure FreqModel where
  total : Nat
  table : List Nat
  cut_threshold : Nat
  cut_shift : Nat
  deriving DecidableEq, Repr

/-- `Model::downscale`: halve every entry rounding up
(`(f + roundup) >> cut_shift` on 16-bit entries) and recompute `total`. -/
def FreqModel.downscale (m : FreqModel) : FreqModel :=
  let roundup := 2 ^ m.cut_shift - 1
  let table2 := m.table.map (fun f => ((f + roundup) % 65536) >>> m.cut_shift)
  { m with total := table2.sum, table := table2 }

/-- `Model::update`: add `(total >> add_log) + add_const` to the chosen entry
(as a truncated 16-bit value) and to `total`, downscaling when `total`
reaches `cut_threshold`.  `none` models the panics: the `add` magnitude
assertion, an out-of-range `value`, and the post-downscale assertion. -/
def FreqModel.update (m : FreqModel) (value add_log add_const : Nat) : Option FreqModel :=
  let add := (m.total >>> add_log) + add_const
  if ¬ add < 2 * m.cut_threshold then none
  else if value < m.table.length then
    let entry := (m.table.getD value 0 + add % 65536) % 65536
    let m2 : FreqModel :=
      { m with table := m.table.set value entry, total := m.total + add }
    if m.cut_threshold ≤ m2.total then
      let m3 := m2.downscale
      if m3.total < m3.cut_threshold then some m3 else none
    else some m2
  else none

/-- The state `Model::new_custom` builds for `new_flat` before its downscale
loop: all entries 1, `total` their count, `cut_shift = 1`. -/
def FreqModel.newRaw (num_values threshold : Nat) : FreqModel :=
  { total := num_values
    table := List.replicate num_values 1
    cut_threshold := threshold
    cut_shift := 1 }

/-- The `while ft.total >= threshold { ft.downscale() }` loop of
`Model::new_custom`, with fuel; `none` models non-termination. -/
def downscaleWhile : Nat → FreqModel → Option FreqModel
  | 0, _ => none
  | fuel + 1, m =>
    if m.cut_threshold ≤ m.total then downscaleWhile fuel m.downscale
    else some m

/-- `Model::new_flat`: the all-ones table, downscaled below the threshold.
The fuel `num_values + 1` dominates any terminating run of the loop, whose
`total` strictly decreases until it either drops below the threshold or the
loop repeats a state forever. -/
def FreqModel.new_flat (num_values threshold : Nat) : Option FreqModel :=
  downscaleWhile (num_values + 1) (FreqModel.newRaw num_values threshold)

/-- Run a sequence of `update` calls, each a `(value, add_log, add_const)`
triple, failing if any single call fails. -/
def FreqModel.runUpdates (m : FreqModel) : List (Nat × Nat × Nat) → Option FreqModel
  | [] => some m
  | op :: ops => do
    let m2 ← m.update op.1 op.2.1 op.2.2
    m2.runUpdates ops

/-! ## entropy/ari/mod.rs (range encoder) -/

/-- `RangeEncoder` of `entropy/ari/mod.rs`: the pair `low`/`hai` of 32-bit
interval borders plus the renormalization threshold. -/
structure RangeEncoder where
  low : Nat
  hai : Nat
  threshold : Nat
  deriving DecidableEq, Repr

/-- `RangeEncoder::new`: the full interval `[0, 2^32)` (with `hai = -1u32`). -/
def RangeEncoder.new (max_range : Nat) : RangeEncoder :=
  { low := 0, hai := 4294967295, threshold := max_range }

/-- The renormalization loop of `RangeEncoder::process`.  `count` is the
write position in the caller's `BORDER_BYTES = 4`-byte output buffer; the
loop breaks when the top bytes differ and the interval exceeds `threshold`,
otherwise it performs the threshold cut when the top bytes differ, then
emits `lo >> 24` and shifts both borders left by 8 bits.  A write at
position 4 overruns the 4-byte buffer - a Rust panic, modelled as `none`. -/
def processGo (threshold : Nat) : Nat → Nat → Nat → Nat → Option (List Nat × Nat × Nat)
  | 0, _, _, _ => none
  | fuel + 1, count, lo, hi =>
    if (lo ^^^ hi) &&& 0xFF000000 ≠ 0 ∧ threshold < hi - lo then
      some ([], lo, hi)
    else
      let cut :=
        if (lo ^^^ hi) &&& 0xFF000000 ≠ 0 then
          let lim := hi &&& 0xFF000000
          if lim - lo ≤ hi - lim then (lim, hi) else (lo, lim - 1)
        else (lo, hi)
      if count = 4 then none
      else
        (processGo threshold fuel (count + 1) ((cut.1 <<< 8) % 2 ^ 32) ((cut.2 <<< 8) % 2 ^ 32)).map
          (fun r => ((cut.1 >>> 24) :: r.1, r.2))

/-- `RangeEncoder::process`: narrow the current range to the sub-interval
`[from/total, to/total)` and renormalize, returning the emitted code bytes
and the new state; `none` models a panic (the output-buffer overrun of the
degenerate threshold cut). -/
def RangeEncoder.process (re : RangeEncoder) (total f t : Nat) :
    Option (List Nat × RangeEncoder) :=
  let range := (re.hai - re.low) / total
  let lo := (re.low + range * f) % 2 ^ 32
  let hi := (re.low + range * t) % 2 ^ 32
  (processGo re.threshold 8 0 lo hi).map
    (fun r => (r.1, { re with low := r.2.1, hai := r.2.2 }))

/-! ## bwt/mod.rs -/

/-- A BWT symbol: one byte. -/
abbrev Sym := Fin 256

/-- A byte value squeezed into a symbol. -/
def byteSym (x : Nat) : Sym := ⟨x % 256, Nat.mod_lt _ (by decide)⟩

/-- Strict lexicographic order of the suffixes of `s` starting at `a` and
`b` - the comparison `input[a..].cmp(&input[b..])` used by
`compute_suffixes` (Rust slice order: a proper prefix is smaller). -/
def suffLT (s : List Sym) (a b : Nat) : Prop :=
  List.Lex (· < ·) (s.drop a) (s.drop b)

instance (s : List Sym) (a b : Nat) : Decidable (suffLT s a b) := by
  unfold suffLT; exact List.Lex.decidableRel _ _ _

/-- The Boolean sort comparator corresponding to `sort_by` with the suffix
comparison: `a` may precede `b` unless suffix `b` is strictly smaller. -/
def suffLeB (s : List Sym) (a b : Nat) : Bool :=
  ! decide (suffLT s b a)

/-- `compute_suffixes`: the radix pass groups the positions `0..n` by their
starting symbol in index order, and each symbol group is then sorted with
the full tail comparison; the suffix array is the concatenation of the
groups in symbol order. -/
def computeSuffixes (s : List Sym) : List Nat :=
  (List.finRange 256).flatMap
    (fun b => ((List.range s.length).filter (fun i => s.getD i 0 = b)).mergeSort (suffLeB s))

/-- The last input symbol, emitted by the transform iterator at the origin
row (`*self.input.last().unwrap()`). -/
def lastSym (s : List Sym) : Sym := s.getD (s.length - 1) 0

/-- The BWT output column produced by `TransformIterator`: for each suffix
array entry `p`, the symbol `input[p-1]`, or the last input symbol at the
row where `p = 0`. -/
def bwtOutput (s : List Sym) : List Sym :=
  (computeSuffixes s).map (fun p => if p = 0 then lastSym s else s.getD (p - 1) 0)

/-- The origin recorded by `TransformIterator`: the row index at which the
suffix array entry is `0`. -/
def bwtOrigin (s : List Sym) : Nat := (computeSuffixes s).indexOf 0

/-- `encode_simple`: the `(output, origin)` pair of the forward transform. -/
def bwtEncodeSimple (s : List Sym) : List Sym × Nat := (bwtOutput s, bwtOrigin s)

/-- `Radix::gather` from a zeroed table: the symbol frequency table of the
input, built by the source's increment loop. -/
def radixGather (s : List Sym) : Nat → Nat :=
  s.foldl (fun f b => fun c => if c = b.val then f c + 1 else f c) (fun _ => 0)

/-- `Radix::accumulate`: replace each of the 257 entries by the sum of the
entries before it (the running-offset loop of the source). -/
def radixAccumulate (f : Nat → Nat) : Nat → Nat :=
  ((List.range 257).foldl
    (fun (p : (Nat → Nat) × Nat) i => (fun c => if c = i then p.2 else p.1 c, p.2 + f i))
    (f, 0)).1

/-- One `radix.place` step of `compute_inversion_table`: take the next free
offset for the symbol of row `iv.1`, bump it, and write the jump value
`iv.2` into the table at that offset.  State: (offset table, jump table). -/
def bwtPlaceStep (L : List Sym) (p : (Nat → Nat) × (Nat → Nat)) (iv : Nat × Nat) :
    (Nat → Nat) × (Nat → Nat) :=
  let b := (L.getD iv.1 0).val
  let pos := p.1 b
  (fun c => if c = b then pos + 1 else p.1 c, fun q => if q = pos then iv.2 else p.2 q)

/-- The row/value processing order of `compute_inversion_table`: the origin
row first with jump value `0`, then every other row `i` in increasing order
with jump value `i + 1`. -/
def bwtProcList (n origin : Nat) : List (Nat × Nat) :=
  (origin, 0) :: ((List.range n).filter (fun j => j ≠ origin)).map (fun j => (j, j + 1))

/-- `compute_inversion_table`.  The source first indexes `input[origin]`,
which for `origin ≥ input.len()` is an out-of-bounds access - a panic,
modelled as `none`; otherwise the jump table is filled by the place loop. -/
def computeInversionTable (L : List Sym) (origin : Nat) : Option (Nat → Nat) :=
  if origin < L.length then
    some ((bwtProcList L.length origin).foldl (bwtPlaceStep L)
      (radixAccumulate (radixGather L), fun _ => 0)).2
  else none

/-- One `InverseIterator::next` step from cursor `cur`: jump to
`table[cur] - 1` (a wrapping subtraction - value `0` wraps to the
`usize::MAX` end marker, modelled as `none`) and emit the input symbol at
the new cursor, or at `origin` when the end marker was produced. -/
def inverseStep (L : List Sym) (table : Nat → Nat) (origin : Nat) (cur : Nat) :
    Sym × Option Nat :=
  let t := table cur
  let cur2 : Option Nat := if t = 0 then none else some (t - 1)
  (L.getD (cur2.getD origin) 0, cur2)

/-- `take (k)` elements of the inverse iterator, starting from cursor `cur`
(`none` is the exhausted iterator). -/
def inverseTake (L : List Sym) (table : Nat → Nat) (origin : Nat) :
    Nat → Option Nat → List Sym
  | 0, _ => []
  | _ + 1, none => []
  | k + 1, some cur =>
    let r := inverseStep L table origin cur
    r.1 :: inverseTake L table origin k r.2

/-- `decode_simple`: build the inversion table and take `input.len()`
symbols of the inverse iterator started at the origin.  `none` models the
panic inside `compute_inversion_table`. -/
def bwtDecodeSimple (L : List Sym) (origin : Nat) : Option (List Sym) :=
  (computeInversionTable L origin).map
    (fun table => inverseTake L table origin L.length (some origin))

/-- Outcome of decoding one block of the BWT block stream. -/
inductive BwtBlockOutcome where
  | ok (out : List Sym)
  | truncated
  | oobAbort
  deriving DecidableEq, Repr

/-- Four little-endian stream bytes as a block-header word
(`read_u32::<LittleEndian>`), with the remaining stream. -/
def read4le : List Nat → Option (Nat × List Nat)
  | a :: b :: c :: d :: rest => some (a + 256 * (b + 256 * (c + 256 * d)), rest)
  | _ => none

/-- `Decoder::decode_block` of `bwt/mod.rs` (the `extra_memory` path): read
the 4-byte block length, the block body, and the 4-byte origin field, then
run the inverse transform.  `truncated` covers the short-read errors;
`oobAbort` is the out-of-bounds panic of `compute_inversion_table`, which is
reached whenever the stream's origin field is at least the block length.
The source collects the inverse iterator until exhaustion; on the
well-formed streams considered here that is `block length` symbols. -/
def bwtDecodeBlock (stream : List Nat) : BwtBlockOutcome :=
  match read4le stream with
  | none => .truncated
  | some (n, rest) =>
    if n ≤ rest.length then
      let data := (rest.take n).map byteSym
      match read4le (rest.drop n) with
      | none => .truncated
      | some (origin, _) =>
        match bwtDecodeSimple data origin with
        | some out => .ok out
        | none => .oobAbort
    else .truncated

/-! ## bwt/mtf.rs -/

/-- The MTF state: the rank-ordered symbol list (`symbols`, 256 entries). -/
structure MTF where
  symbols : List Sym
  deriving DecidableEq, Repr

/-- `MTF::new`: the zeroed table. -/
def MTF.new : MTF := ⟨List.replicate 256 0⟩

/-- The swap loop of `MTF::encode`: locate the first occurrence of `sym`,
remove it, and report its rank; `none` models the `rank < len` assertion
firing when the symbol is absent. -/
def mtfPull (sym : Sym) : List Sym → Option (Nat × List Sym)
  | [] => none
  | x :: rest =>
    if x = sym then some (0, rest)
    else (mtfPull sym rest).map (fun r => (r.1 + 1, x :: r.2))

/-- `MTF::encode`: move `sym` to the front, returning its previous rank. -/
def MTF.encode (m : MTF) (sym : Sym) : Option (Nat × MTF) :=
  (mtfPull sym m.symbols).map (fun r => (r.1, ⟨sym :: r.2⟩))

/-! ## bwt/dc.rs -/

/-- Scan state of `dc::encode`: the distance slots (initialized to the
filler `n`), the per-symbol last-occurrence and initial-occurrence tables
(initialized to `n` = "never"), the MTF scratch list, and the count of
unique symbols seen. -/
structure DcEncodeState where
  dist : List Nat
  last : Nat → Nat
  init : Nat → Nat
  mtf : MTF
  uniq : Nat

/-- One iteration of the `dc::encode` scan loop at position `i` with symbol
`sym`.  A first occurrence is appended to the MTF order at the next free
rank and its position recorded in `init`; a repeated occurrence is MTF
encoded and, when its rank is positive, writes the distance
`i - base - rank - 1` into the slot reserved at its previous occurrence
`base` (the `i >= base+rank+1` assertion is `none` on failure). -/
def dcEncodeStep (n : Nat) (st : DcEncodeState) (iv : Nat × Sym) : Option DcEncodeState :=
  let i := iv.1
  let sym := iv.2
  let base := st.last sym.val
  let last2 := fun c => if c = sym.val then i else st.last c
  if base = n then
    let mtfSet : MTF := ⟨st.mtf.symbols.set st.uniq sym⟩
    (mtfSet.encode sym).map (fun r =>
      { st with
        last := last2
        init := fun c => if c = sym.val then i else st.init c
        mtf := r.2
        uniq := st.uniq + 1 })
  else
    (st.mtf.encode sym).bind (fun r =>
      if r.1 > 0 then
        if base + r.1 + 1 ≤ i then
          some { st with dist := st.dist.set base (i - base - r.1 - 1), last := last2, mtf := r.2 }
        else none
      else
        some { st with last := last2, mtf := r.2 })

/-- The closing sweep of `dc::encode`: for each unique symbol in final MTF
rank order, write the distance `n - base - rank - 1` to the sentinel into
the slot of its last occurrence (`none` when the assertion fails). -/
def dcSweep (n : Nat) (st : DcEncodeState) : Option (List Nat) :=
  ((st.mtf.symbols.take st.uniq).enum.foldl
    (fun (acc : Option (List Nat)) (rs : Nat × Sym) =>
      acc.bind (fun dist =>
        let base := st.last rs.2.val
        if base + rs.1 + 1 ≤ n then some (dist.set base (n - base - rs.1 - 1)) else none))
    (some st.dist))

/-- `dc::encode` over a whole input block: the scan loop followed by the
sweep, returning the filled distance slots and the final state. -/
def dcEncode (input : List Sym) : Option (List Nat × DcEncodeState) :=
  let n := input.length
  (input.enum.foldl (fun acc iv => acc.bind (fun st => dcEncodeStep n st (iv.1, iv.2)))
      (some { dist := List.replicate n n
              last := fun _ => n
              init := fun _ => n
              mtf := MTF.new
              uniq := 0 })).bind
    (fun st => (dcSweep n st).map (fun dist => (dist, st)))

/-- `dc::encode_simple`: the 256 initial positions followed by the distance
values of the encode iterator, which yields exactly the non-filler slots in
position order. -/
def dcEncodeSimple (input : List Sym) : Option (List Nat) :=
  (dcEncode input).map (fun r =>
    (List.range 256).map r.2.init ++ r.1.filter (fun d => d ≠ input.length))

/-- The initial sort of `dc::decode`: insert a live symbol into the list
ordered by next-occurrence position (the downward shift loop of the source,
which places a symbol after every symbol with a position not beyond its
own). -/
def dcInsertSorted (next : Nat → Nat) (d : Nat) (sym : Sym) : List Sym → List Sym
  | [] => [sym]
  | x :: rest =>
    if next x.val ≤ d then x :: dcInsertSorted next d sym rest
    else sym :: x :: rest

/-- The re-insertion walk of the `dc::decode` main loop: starting at rank 1,
shift symbols down one rank as long as `future + rank` exceeds their next
positions, then place `sym` at the vacated rank with next position
`future + rank - 1`.  Returns the re-arranged ranks `1..` together with the
next position assigned to `sym`. -/
def dcReinsert (next : Nat → Nat) (future : Nat) (sym : Sym) : Nat → List Sym → List Sym × Nat
  | rank, [] => ([sym], future + rank - 1)
  | rank, x :: rest =>
    if next x.val < future + rank then
      let r := dcReinsert next future sym (rank + 1) rest
      (x :: r.1, r.2)
    else
      (sym :: x :: rest, future + rank - 1)

/-- The main loop of `dc::decode`: fill the output up to the next stop with
the front symbol, consume one distance, project the symbol's future
occurrence and re-insert it.  `none` models all failure modes: the
exhausted distance source, the `future <= n` assertion, the out-of-bounds
output fill, and the final sanity assertions on `next` and the fill count.
One distance is consumed per iteration, so the fuel
`distances.length + 1` covers every run that does not fail. -/
def dcMainGo (n : Nat) : Nat → List Sym → (Nat → Nat) → Nat → List Nat → Option (List Sym)
  | 0, _, _, _, _ => none
  | fuel + 1, live, next, i, dists =>
    if i < n then
      match live with
      | [] => none
      | sym :: tail =>
        let stop := next ((tail.headD sym).val)
        if stop ≤ n then
          let seg := List.replicate (stop - i) sym
          match dists with
          | [] => none
          | d :: drest =>
            let future := stop + d
            if future ≤ n then
              let r := dcReinsert next future sym 1 tail
              let next2 := fun c => if c = sym.val then r.2 else next c
              (dcMainGo n fuel r.1 next2 (max stop i) drest).map (fun out => seg ++ out)
            else none
        else none
    else
      if i = n ∧ (List.range 256).all (fun s => ¬ (next s < n ∨ n + live.length ≤ next s)) then
        some []
      else none

/-- `dc::decode`: sort the live symbols by initial position; with at most
one live symbol fill the whole output with the front symbol, otherwise run
the main loop. -/
def dcDecode (next0 : Nat → Nat) (n : Nat) (dists : List Nat) : Option (List Sym) :=
  let live0 := (List.finRange 256).foldl
    (fun acc s => if next0 s.val < n then dcInsertSorted next0 (next0 s.val) s acc else acc) []
  if live0.length ≤ 1 then some (List.replicate n (live0.headD 0))
  else dcMainGo n (dists.length + 1) live0 next0 0 dists

/-- `dc::decode_simple`: the first 256 entries of the distance stream are
the initial positions (indexing panics when fewer are present), the rest
feed the distance closure; `none` models both error returns and panics
(`decode_simple` unwraps the result). -/
def dcDecodeSimple (n : Nat) (distances : List Nat) : Option (List Sym) :=
  if 256 ≤ distances.length then
    dcDecode (fun s => distances.getD s 0) n (distances.drop 256)
  else none

/-- Bounded linear scan: the first index at or after `i` satisfying `p`,
or `i + fuel` when none is found within the fuel window. -/
def findFromGo (p : Nat → Bool) : Nat → Nat → Nat
  | i, 0 => i
  | i, fuel + 1 => if p i then i else findFromGo p (i + 1) fuel

/-- The first occurrence of symbol `c` in `s` at or after position `i`
(`s.length` when there is none). -/
def nextOcc (s : List Sym) (c : Sym) (i : Nat) : Nat :=
  findFromGo (fun j => decide (s.getD j 0 = c)) i (s.length - i)

/-- The first position at or after `i` holding a symbol other than `c`
(`s.length` when the rest of the block is all `c`): the end of the run of
`c` through position `i`. -/
def nextNon (s : List Sym) (c : Sym) (i : Nat) : Nat :=
  findFromGo (fun j => decide (s.getD j 0 ≠ c)) i (s.length - i)

/-- The last occurrence of `c` strictly before position `i` (`s.length` when
there is none). -/
def lastOccGo (s : List Sym) (c : Sym) : Nat → Nat
  | 0 => s.length
  | j + 1 => if s.getD j 0 = c then j else lastOccGo s c j

/-- The last occurrence of `c` in the whole block (`s.length` when absent). -/
def lastOcc (s : List Sym) (c : Sym) : Nat := lastOccGo s c s.length

/-- The number of occurring symbols whose last occurrence precedes that of
`c`. -/
def rankAsc (s : List Sym) (c : Sym) : Nat :=
  (List.finRange 256).countP (fun d => decide (lastOcc s d < lastOcc s c))

/-- The virtual next position of symbol `c` seen from position `i`: its next
occurrence while it still occurs, and the slot `length + rankAsc` past the
end once exhausted - the value the decoder's `next` table tracks. -/
def vNext (s : List Sym) (c : Sym) (i : Nat) : Nat :=
  if nextOcc s c i < s.length then nextOcc s c i else s.length + rankAsc s c

/-- The number of distinct symbols occurring in the block. -/
def alphaCnt (s : List Sym) : Nat :=
  (List.finRange 256).countP (fun d => decide (lastOcc s d < s.length))

/-- The number of distinct symbols occurring in positions `[a, b)`. -/
def distinctIn (s : List Sym) (a b : Nat) : Nat :=
  (List.finRange 256).countP (fun d => decide (nextOcc s d a < b))

/-- The number of symbols whose virtual next position at `i` precedes that
of `c`. -/
def smallerCnt (s : List Sym) (c : Sym) (i : Nat) : Nat :=
  (List.finRange 256).countP (fun d => decide (vNext s d i < vNext s c i))

/-- The distance values of the runs of `s` from position `i` on: for the run
of symbol `c` ending at `stop`, the gap from `stop` to the virtual next
position of `c` minus the number of symbols re-seen in between. -/
def runDistsGo (s : List Sym) : Nat → Nat → List Nat
  | 0, _ => []
  | fuel + 1, i =>
    if i < s.length then
      (vNext s (s.getD i 0) (nextNon s (s.getD i 0) i) - nextNon s (s.getD i 0) i -
        smallerCnt s (s.getD i 0) (nextNon s (s.getD i 0) i)) ::
        runDistsGo s fuel (nextNon s (s.getD i 0) i)
    else []

/-- The run distances of the whole suffix starting at `i`. -/
def runDists (s : List Sym) (i : Nat) : List Nat := runDistsGo s (s.length - i) i

/-- The final content of distance slot `b` after `dc::encode`: filler
`s.length` inside a run, the distance to the next occurrence at a run end,
and the sweep distance past the block end at the last run of a symbol. -/
def slotFinal (s : List Sym) (b : Nat) : Nat :=
  if nextOcc s (s.getD b 0) (b + 1) < s.length then
    if b + 1 < nextOcc s (s.getD b 0) (b + 1) then
      nextOcc s (s.getD b 0) (b + 1) - b - 1 -
        distinctIn s (b + 1) (nextOcc s (s.getD b 0) (b + 1))
    else s.length
  else s.length - b - 1 - distinctIn s (b + 1) s.length

/-- The distinct symbols of the prefix `s.take i` in most-recently-seen
order: the semantic content of the encoder's MTF list. -/
def recency (s : List Sym) : Nat → List Sym
  | 0 => []
  | i + 1 => (s.getD i 0) :: (recency s i).erase (s.getD i 0)

/-- The first occurrence of `c` within the prefix `s.take i`, with the
filler `s.length` when `c` has not appeared yet. -/
def initPos (s : List Sym) (c : Sym) (i : Nat) : Nat :=
  if nextOcc s c 0 < i then nextOcc s c 0 else s.length

/-- The running value of the Kraft left-capacity loop, without the early
negativity exit: fold `left := left*2 - c` over the per-length counts. -/
def finalLeft (left : Int) (cs : List Nat) : Int :=
  cs.foldl (fun (L : Int) (c : Nat) => L * 2 - (c : Int)) left

/-- The weight each per-length count contributes to the final capacity:
`wsum [c_1, ..., c_k] = Σ c_j · 2^(k-j)`. -/
def wsum : List Nat → Int
  | [] => 0
  | c :: cs => (c : Int) * 2 ^ cs.length + wsum cs

/-- The cyclic predecessor map of a block of length `n`: the position whose
suffix the BWT output symbol of a row starts (`p - 1`, with `0` wrapping to
`n - 1`). -/
def cyc (n p : Nat) : Nat := (p + n - 1) % n

/-- The row index of the suffix starting at `p` in the suffix-sorted order:
the number of positions whose suffixes are strictly smaller. -/
def rankOf (s : List Sym) (p : Nat) : Nat :=
  (List.range s.length).countP (fun q => decide (suffLT s q p))

/-- The radix symbol of row `i` of a column `L`, as used by the place loop. -/
def chrRow (L : List Sym) (i : Nat) : Nat := (L.getD i 0).val

/-- Number of rows of symbol `b` in a processing list. -/
def cntChr (L : List Sym) (b : Nat) (P : List (Nat × Nat)) : Nat :=
  P.countP (fun iv => decide (chrRow L iv.1 = b))

/-- Invariant of the frequency-table model with cut threshold `t`:
`cut_shift` is 1, `total` is the sum of the table, every entry is positive,
and `total` is below the threshold. -/
def FreqInv (t : Nat) (m : FreqModel) : Prop :=
  m.cut_threshold = t ∧ m.cut_shift = 1 ∧ m.total = m.table.sum ∧
    (∀ f ∈ m.table, 1 ≤ f) ∧ m.total < t

/-- The content of distance slot `b` after the scan loop of `dc::encode` has
processed the prefix of length `i`: the distance to the next occurrence once
that occurrence has been scanned (and is a strict gap), the filler
`s.length` otherwise. -/
def slotScan (s : List Sym) (i b : Nat) : Nat :=
  if nextOcc s (s.getD b 0) (b + 1) < i ∧ b + 1 < nextOcc s (s.getD b 0) (b + 1) then
    nextOcc s (s.getD b 0) (b + 1) - b - 1 -
      distinctIn s (b + 1) (nextOcc s (s.getD b 0) (b + 1))
  else s.length

/-- Invariant of the `dc::encode` scan state after processing the prefix of
length `i`: the unique count and MTF order mirror the recency list, the
`last`/`init` tables mirror `lastOccGo`/`initPos`, and the distance slots
hold `slotScan`. -/
def dcEncInv (s : List Sym) (i : Nat) (st : DcEncodeState) : Prop :=
  st.uniq = (recency s i).length ∧
  (∃ pad, st.mtf.symbols = recency s i ++ pad ∧ (recency s i).length + pad.length = 256) ∧
  (∀ c : Sym, st.last c.val = lastOccGo s c i) ∧
  (∀ c : Sym, st.init c.val = initPos s c i) ∧
  st.dist.length = s.length ∧
  (∀ b, b < s.length → st.dist.getD b 0 = slotScan s i b)

/-- The initial live list built by `dc::decode`: the symbols with an initial
position inside the block, insertion-sorted by that position. -/
def dcLive0 (next0 : Nat → Nat) (n : Nat) : List Sym :=
  (List.finRange 256).foldl
    (fun acc s => if next0 s.val < n then dcInsertSorted next0 (next0 s.val) s acc else acc) []

/-! # Theorems -/

theorem lor_two_pow_31 (len : Nat) (h : len < 2 ^ 31) : len ||| 2 ^ 31 = 2 ^ 31 + len := by
  apply Nat.eq_of_testBit_eq
  intro i
  rcases Nat.lt_trichotomy i 31 with hi | rfl | hi
  · rw [Nat.testBit_lor, Nat.testBit_two_pow_of_ne (by omega), Nat.testBit_two_pow_add_gt hi]
    simp
  · rw [Nat.testBit_lor, Nat.testBit_two_pow_self, Nat.testBit_two_pow_add_eq,
      Nat.testBit_lt_two_pow h]
    simp
  · have h2 : (2 : Nat) ^ 32 ≤ 2 ^ i := Nat.pow_le_pow_right (by omega) (by omega)
    rw [Nat.testBit_lor, Nat.testBit_two_pow_of_ne (by omega),
      @Nat.testBit_lt_two_pow len i (by omega),
      Nat.testBit_lt_two_pow (by omega)]
    rfl

/-- C8: the Adler-32 state starts with `a = 1`, `b = 0`; `feed` applies, for
each byte in order, `a ← (a + byte) mod 65521` then `b ← (b + a) mod 65521`;
`result` returns `(b << 16) | a`; and the reference checksums of the empty
input, of a single byte 97, and of bytes 97 98 99 are 1, 0x00620062 and
0x024d0127. -/
theorem adler32_spec :
    State32.new.a = 1 ∧ State32.new.b = 0 ∧
    (∀ (s : State32) (byte : Nat),
      (State32.feedByte s byte).a = (s.a + byte) % 65521 ∧
      (State32.feedByte s byte).b = ((s.a + byte) % 65521 + s.b) % 65521) ∧
    (∀ (s : State32) (buf : List Nat), s.feed buf = buf.foldl State32.feedByte s) ∧
    (∀ s : State32, s.result = (s.b <<< 16) ||| s.a) ∧
    adler32 [] = 1 ∧ adler32 [97] = 0x00620062 ∧ adler32 [97, 98, 99] = 0x024d0127 := by
  refine ⟨rfl, rfl, fun s byte => ⟨rfl, rfl⟩, fun s buf => rfl, fun s => rfl, ?_, ?_, ?_⟩ <;> decide

/-- C9 (failing input): in `Decoder::codes`, the decoded length symbol 286
passes the guard (`286 - 257 = 29` is not greater than `EXTRALENS.len()`),
yet index 29 is out of bounds for the 29-entry tables `EXTRALENS` and
`EXTRABITS`, whose largest index is 28 - an index panic, not an error;
symbol 287 is rejected by the guard. -/
theorem flate_codes_extralens_oob :
    lengthExtraIndex 286 = some 29 ∧ EXTRALENS.length = 29 ∧
    EXTRALENS[29]? = none ∧ EXTRABITS[29]? = none ∧
    lengthExtraIndex 287 = none := by
  decide

/-- C1 (failing input): from a fresh `RangeEncoder` with the default
threshold `2^14`, encode three values whose model sub-intervals are
`[0,1)` of total 16384, `[2047,2050)` of total 8191, and `[8191,8192)` of
total 16384 - denominators within the threshold, sub-intervals non-empty.
The first call emits one byte, the second none, and the third narrows to
the one-point interval `[0xFFFFFF, 0x1000000)`, whose threshold cut
degenerates to `lo = hi`: the loop then emits unboundedly and overruns the
4-byte output buffer of `Encoder::encode` - a panic instead of the
byte-for-byte match with the decoder that the contract promises. -/
theorem ari_range_encoder_buffer_overrun :
    (RangeEncoder.new 16384).process 16384 0 1 =
      some ([0], { low := 0, hai := 67108608, threshold := 16384 }) ∧
    ({ low := 0, hai := 67108608, threshold := 16384 } : RangeEncoder).process 8191 2047 2050 =
      some ([], { low := 16769024, hai := 16793600, threshold := 16384 }) ∧
    ({ low := 16769024, hai := 16793600, threshold := 16384 } : RangeEncoder).process
      16384 8191 8192 = none := by
  refine ⟨?_, ?_, ?_⟩ <;> decide

/-- C4 (counterexample): the length array `[1,1,1]` violates Kraft's
inequality, and `HuffmanTree::construct` rejects it - but with the
invalid-Huffman-tree error, not the Huffman-tree-too-large error the claim
names. -/
theorem huffman_kraft_error_kind_cex :
    kraftViolated [1, 1, 1] ∧
    HuffmanTree.construct [1, 1, 1] = some (.error .invalidHuffmanTree) ∧
    HuffmanTree.construct [1, 1, 1] ≠ some (.error .huffmanTreeTooLarge) := by
  refine ⟨?_, ?_, ?_⟩ <;> decide

/-- C7 (counterexample): starting from `new_flat(1, 100000)` (all
frequencies 1), the single call `update(0, 0, 65535)` - `add_const ≥ 1` -
succeeds with no assertion firing, yet leaves `total = 65537` while the
table still sums to 1: the 32-bit increment 65536 is truncated to 0 by the
`as Frequency` cast, so `total = Σ freq[i]` fails. -/
theorem freq_table_invariant_cex :
    (FreqModel.new_flat 1 100000).bind
        (fun m0 => m0.runUpdates [(0, 0, 65535)]) =
      some { total := 65537, table := [1], cut_threshold := 100000, cut_shift := 1 } ∧
    (65537 : Nat) ≠ [(1 : Nat)].sum := by
  refine ⟨?_, ?_⟩ <;> decide

/-- C5 (counterexample): a block stream with block length 1, body `[55]`
and origin field 1 (= N) makes the block decoder hit the out-of-bounds
access `input[origin]` inside `compute_inversion_table` - a panic, not a
returned error. -/
theorem bwt_origin_reject_cex :
    bwtDecodeBlock [1, 0, 0, 0, 55, 1, 0, 0, 0] = .oobAbort ∧
    BwtBlockOutcome.oobAbort ≠ .truncated ∧
    (∀ out, BwtBlockOutcome.oobAbort ≠ .ok out) := by
  refine ⟨by decide, by decide, fun out => by simp⟩

/-- C5 (amended): for every block body and origin with `origin ≥ N`, the
inverse transform aborts at the `input[origin]` out-of-bounds access in
`compute_inversion_table` before producing any output - a panic rather
than a returned error. -/
theorem bwt_origin_ge_len_aborts (L : List Sym) (origin : Nat) (h : L.length ≤ origin) :
    computeInversionTable L origin = none ∧ bwtDecodeSimple L origin = none := by
  have h2 : ¬ origin < L.length := by omega
  constructor
  · simp [computeInversionTable, h2]
  · simp [bwtDecodeSimple, computeInversionTable, h2]

theorem bwt_origin_ge_len_aborts_witness :
    ([(55 : Sym)].length ≤ 1) ∧ computeInversionTable [(55 : Sym)] 1 = none ∧
      bwtDecodeSimple [(55 : Sym)] 1 = none :=
  ⟨by decide, bwt_origin_ge_len_aborts [(55 : Sym)] 1 (by decide)⟩

/-- C6: the zlib decoder fails (with a header error distinct from the
checksum and data errors) whenever the compression-method nibble is not 8,
the window-size nibble is not 7, the preset-dictionary bit is set, or
`CMF*256 + FLG` is not divisible by 31; and on a well-formed stream it
returns exactly the DEFLATE-decompressed bytes, after reading the 4-byte
big-endian trailer at DEFLATE EOF and failing with the checksum-mismatch
error if and only if the trailer differs from the Adler-32 of the
decompressed bytes. -/
theorem zlib_decoder_spec (inflate : List Nat → Option (List Nat × List Nat))
    (cmf flg : Nat) (body : List Nat) :
    ((cmf &&& 0xf ≠ 0x8 ∨ cmf &&& 0xf0 ≠ 0x70 ∨ flg &&& 0x20 ≠ 0 ∨
        (cmf * 256 + flg) % 31 ≠ 0) →
      ∃ e, zlibDecode inflate (cmf :: flg :: body) = .error e ∧
        e ≠ .invalidChecksum ∧ e ≠ .deflateError ∧ e ≠ .truncated) ∧
    (validateHeader cmf flg = .ok () →
      ∀ out t0 t1 t2 t3 rest, inflate body = some (out, t0 :: t1 :: t2 :: t3 :: rest) →
        (beU32 t0 t1 t2 t3 = adler32 out →
          zlibDecode inflate (cmf :: flg :: body) = .ok out) ∧
        (beU32 t0 t1 t2 t3 ≠ adler32 out →
          zlibDecode inflate (cmf :: flg :: body) = .error .invalidChecksum)) := by
  constructor
  · intro hbad
    have hcases : ∃ e, validateHeader cmf flg = .error e ∧
        e ≠ .invalidChecksum ∧ e ≠ .deflateError ∧ e ≠ .truncated := by
      unfold validateHeader
      rcases Decidable.em (cmf &&& 0xf ≠ 0x8) with h1 | h1
      · exact ⟨.unsupportedStreamFormat, by rw [if_pos h1], by decide, by decide, by decide⟩
      · rcases Decidable.em (cmf &&& 0xf0 ≠ 0x70) with h2 | h2
        · exact ⟨.unsupportedWindowSize, by rw [if_neg h1, if_pos h2], by decide, by decide,
            by decide⟩
        · rcases Decidable.em (flg &&& 0x20 ≠ 0) with h3 | h3
          · exact ⟨.unsupportedDictionary, by rw [if_neg h1, if_neg h2, if_pos h3], by decide,
              by decide, by decide⟩
          · rcases Decidable.em ((cmf * 256 + flg) % 31 ≠ 0) with h4 | h4
            · exact ⟨.invalidHeaderChecksum,
                by rw [if_neg h1, if_neg h2, if_neg h3, if_pos h4], by decide, by decide,
                by decide⟩
            · exact absurd hbad (by simp only [not_or]; exact ⟨fun h => h1 h, fun h => h2 h,
                fun h => h3 h, fun h => h4 h⟩)
    obtain ⟨e, he, h5, h6, h7⟩ := hcases
    refine ⟨e, ?_, h5, h6, h7⟩
    simp only [zlibDecode]
    rw [he]
  · intro hok out t0 t1 t2 t3 rest hinf
    constructor
    · intro heq
      simp only [zlibDecode]
      rw [hok, hinf]
      simp [heq]
    · intro hne
      simp only [zlibDecode]
      rw [hok, hinf]
      simp [hne]

theorem getD_set_self_nat (l : List Nat) (i x : Nat) (h : i < l.length) :
    (l.set i x).getD i 0 = x := by
  simp [List.getD_eq_getElem?_getD, List.getElem?_set_self h]

theorem getD_set_ne_nat (l : List Nat) (i j x : Nat) (h : i ≠ j) :
    (l.set i x).getD j 0 = l.getD j 0 := by
  simp [List.getD_eq_getElem?_getD, List.getElem?_set_ne h]

theorem huffman_count_length (lens : List Nat) (c : List Nat) :
    (lens.foldl (fun c l => c.set l (c.getD l 0 + 1)) c).length = c.length := by
  induction lens generalizing c with
  | nil => rfl
  | cons l t ih => rw [List.foldl_cons, ih, List.length_set]

theorem huffman_count_getD (lens : List Nat) (c : List Nat) (i : Nat)
    (hb : ∀ l ∈ lens, l ≤ 15) (hc : c.length = 16) (hi : i < 16) :
    (lens.foldl (fun c l => c.set l (c.getD l 0 + 1)) c).getD i 0 = c.getD i 0 + lens.count i := by
  induction lens generalizing c with
  | nil => simp
  | cons l t ih =>
    have hl : l ≤ 15 := hb l (List.mem_cons_self _ _)
    rw [List.foldl_cons, ih _ (fun x hx => hb x (List.mem_cons_of_mem _ hx))
      (by rw [List.length_set, hc])]
    rw [List.count_cons]
    by_cases hil : l = i
    · subst hil
      rw [getD_set_self_nat _ _ _ (by omega)]
      simp
      omega
    · rw [getD_set_ne_nat _ _ _ _ hil]
      simp [Ne.symm hil, hil]

theorem kraftLeftOk_nonneg (cs : List Nat) (left : Int) (hleft : 0 ≤ left)
    (h : kraftLeftOk left cs = true) : 0 ≤ finalLeft left cs := by
  induction cs generalizing left with
  | nil => simpa [finalLeft] using hleft
  | cons c t ih =>
    rw [kraftLeftOk] at h
    by_cases hc : left * 2 - (c : Int) < 0
    · simp [hc] at h
    · push_neg at hc
      show 0 ≤ finalLeft (left * 2 - (c : Int)) t
      exact ih _ hc (by simpa [not_lt.mpr hc] using h)

theorem finalLeft_eq (cs : List Nat) (left : Int) :
    finalLeft left cs = left * 2 ^ cs.length - wsum cs := by
  induction cs generalizing left with
  | nil => simp [finalLeft, wsum]
  | cons c t ih =>
    rw [finalLeft, List.foldl_cons]
    show finalLeft (left * 2 - (c : Int)) t = _
    rw [ih, wsum]
    simp [List.length_cons]
    ring

theorem wsum_eq_sum_getD (cs : List Nat) :
    wsum cs = ∑ k ∈ Finset.range cs.length, (cs.getD k 0 : Int) * 2 ^ (cs.length - 1 - k) := by
  induction cs with
  | nil => simp [wsum]
  | cons c t ih =>
    rw [wsum, ih, List.length_cons, Finset.sum_range_succ']
    have h1 : ∀ k ∈ Finset.range t.length,
        (((c :: t).getD (k + 1) 0 : Nat) : Int) * 2 ^ (t.length + 1 - 1 - (k + 1)) =
          ((t.getD k 0 : Nat) : Int) * 2 ^ (t.length - 1 - k) := by
      intro k _
      rw [List.getD_cons_succ]
      congr 2
      omega
    rw [Finset.sum_congr rfl h1]
    simp only [List.getD_cons_zero, Nat.sub_zero, Nat.add_sub_cancel]
    ring

theorem kraft_indicator_sum (l : Nat) (h1 : 1 ≤ l) (h15 : l ≤ 15) :
    (∑ k ∈ Finset.range 15, (if k + 1 = l then 1 else 0) * 2 ^ (14 - k)) = 2 ^ (15 - l) := by
  rw [Finset.sum_eq_single (l - 1)]
  · rw [if_pos (by omega)]
    have : 14 - (l - 1) = 15 - l := by omega
    rw [this, one_mul]
  · intro k _ hk
    rw [if_neg (by omega), zero_mul]
  · intro habs
    exact absurd (Finset.mem_range.mpr (by omega)) habs

theorem kraft_sum_counts (lens : List Nat) (hb : ∀ l ∈ lens, l ≤ 15) :
    ((lens.filter (fun l => l ≠ 0)).map (fun l => 2 ^ (15 - l))).sum =
      ∑ k ∈ Finset.range 15, lens.count (k + 1) * 2 ^ (14 - k) := by
  induction lens with
  | nil => simp
  | cons l t ih =>
    have hl : l ≤ 15 := hb l (List.mem_cons_self _ _)
    have ih2 := ih (fun x hx => hb x (List.mem_cons_of_mem _ hx))
    have hcnt : ∀ k : Nat, (l :: t).count (k + 1) = t.count (k + 1) + if l = k + 1 then 1 else 0 := by
      intro k
      rw [List.count_cons]
      simp [beq_iff_eq]
    simp only [hcnt, Nat.add_mul, Finset.sum_add_distrib, ← ih2]
    by_cases h0 : l = 0
    · subst h0
      simp
    · rw [List.filter_cons_of_pos (by simpa using h0), List.map_cons, List.sum_cons]
      have : (∑ k ∈ Finset.range 15, (if l = k + 1 then 1 else 0) * 2 ^ (14 - k)) = 2 ^ (15 - l) := by
        rw [← kraft_indicator_sum l (by omega) hl]
        apply Finset.sum_congr rfl
        intro k _
        congr 1
        by_cases hkl : l = k + 1
        · rw [if_pos hkl, if_pos hkl.symm]
        · rw [if_neg hkl, if_neg (fun h => hkl h.symm)]
      omega

/-- C4 (amended): for every length array within the 15-bit bound whose
nonzero lengths violate Kraft's inequality
(`Σ 2^(MAXBITS - lengths[i]) > 2^MAXBITS`), `HuffmanTree::construct` fails
with the invalid-Huffman-tree error ("invalid huffman tree") - the error
produced when the left-capacity loop goes negative - rather than
succeeding or failing with any other error kind. -/
theorem huffman_construct_kraft (lens : List Nat) (hb : ∀ l ∈ lens, l ≤ MAXBITS)
    (hk : kraftViolated lens) :
    HuffmanTree.construct lens = some (.error .invalidHuffmanTree) := by
  have hb' : ∀ l ∈ lens, l ≤ 15 := hb
  have hany : lens.any (fun l => MAXBITS < l) = false := by
    rw [List.any_eq_false]
    intro l hl
    simpa [MAXBITS] using hb l hl
  have hclen : (lens.foldl (fun c l => c.set l (c.getD l 0 + 1))
      (List.replicate (MAXBITS + 1) 0)).length = 16 := by
    rw [huffman_count_length]
    simp [MAXBITS]
  have hcget : ∀ i, i < 16 → (lens.foldl (fun c l => c.set l (c.getD l 0 + 1))
      (List.replicate (MAXBITS + 1) 0)).getD i 0 = lens.count i := by
    intro i hi
    rw [huffman_count_getD lens _ i hb' (by simp [MAXBITS]) hi]
    have hrep : (List.replicate (MAXBITS + 1) (0 : Nat)).getD i 0 = 0 := by
      rw [List.getD_eq_getElem?_getD, List.getElem?_replicate]
      split <;> rfl
    rw [hrep, Nat.zero_add]
  set c := lens.foldl (fun c l => c.set l (c.getD l 0 + 1)) (List.replicate (MAXBITS + 1) 0)
    with hc
  have hkn : 2 ^ 15 < ((lens.filter (fun l => l ≠ 0)).map (fun l => 2 ^ (15 - l))).sum := by
    simpa [kraftViolated, MAXBITS] using hk
  have hnz : ¬ (∀ x ∈ lens, x = 0) := by
    intro hall
    have : lens.filter (fun l => l ≠ 0) = [] := by
      rw [List.filter_eq_nil_iff]
      intro a ha
      simpa using hall a ha
    rw [this] at hkn
    simp at hkn
  have h0 : ¬ c.getD 0 0 = lens.length := by
    rw [hcget 0 (by omega)]
    intro hlen
    exact hnz (fun x hx => (List.count_eq_length.mp (by simpa using hlen)) x hx |>.symm)
  have hdrop_len : (c.drop 1).length = 15 := by rw [List.length_drop, hclen]
  have hdrop_getD : ∀ k, k < 15 → (c.drop 1).getD k 0 = lens.count (k + 1) := by
    intro k hkk
    rw [List.getD_eq_getElem?_getD, List.getElem?_drop, ← List.getD_eq_getElem?_getD]
    rw [show 1 + k = k + 1 by omega]
    exact hcget (k + 1) (by omega)
  have hwsum : wsum (c.drop 1) =
      ((((lens.filter (fun l => l ≠ 0)).map (fun l => 2 ^ (15 - l))).sum : Nat) : Int) := by
    rw [wsum_eq_sum_getD, hdrop_len, kraft_sum_counts lens hb']
    push_cast
    apply Finset.sum_congr rfl
    intro k hkmem
    rw [hdrop_getD k (Finset.mem_range.mp hkmem)]
  have hneg : finalLeft 1 (c.drop 1) < 0 := by
    rw [finalLeft_eq, hdrop_len, hwsum]
    have h1 : ((2 ^ 15 : Nat) : Int) <
        ((((lens.filter (fun l => l ≠ 0)).map (fun l => 2 ^ (15 - l))).sum : Nat) : Int) := by
      exact_mod_cast hkn
    have h2 : ((2 ^ 15 : Nat) : Int) = 2 ^ 15 := by norm_num
    rw [h2] at h1
    linarith
  have hko : ¬ (kraftLeftOk 1 (c.drop 1) = true) := by
    intro htrue
    have := kraftLeftOk_nonneg _ _ (by omega) htrue
    omega
  simp only [HuffmanTree.construct, hany, Bool.false_eq_true, if_false, ← hc]
  rw [if_neg h0, if_neg hko]

theorem huffman_construct_kraft_witness :
    (∀ l ∈ ([1, 1, 1] : List Nat), l ≤ MAXBITS) ∧ kraftViolated [1, 1, 1] ∧
      HuffmanTree.construct [1, 1, 1] = some (.error .invalidHuffmanTree) :=
  ⟨by decide, by decide, huffman_construct_kraft [1, 1, 1] (by decide) (by decide)⟩

theorem sum_set_getD (l : List Nat) (v x : Nat) (h : v < l.length) :
    (l.set v x).sum + l.getD v 0 = l.sum + x := by
  induction l generalizing v with
  | nil => simp at h
  | cons a tl ih =>
    cases v with
    | zero => simp [List.set_cons_zero]; omega
    | succ w =>
      rw [List.set_cons_succ, List.sum_cons, List.sum_cons, List.getD_cons_succ]
      have := ih w (by simpa using h)
      omega

theorem getD_mem_of_lt (l : List Nat) (v : Nat) (h : v < l.length) : l.getD v 0 ∈ l := by
  rw [List.getD_eq_getElem?_getD, List.getElem?_eq_getElem h]
  exact List.getElem_mem h

theorem downscale_newRaw (nv t : Nat) :
    (FreqModel.newRaw nv t).downscale = FreqModel.newRaw nv t := by
  unfold FreqModel.downscale FreqModel.newRaw
  simp [List.map_replicate, List.sum_replicate]

theorem new_flat_some (nv t : Nat) (m0 : FreqModel)
    (h : FreqModel.new_flat nv t = some m0) :
    m0 = FreqModel.newRaw nv t ∧ nv < t := by
  unfold FreqModel.new_flat at h
  generalize hf : nv + 1 = fuel at h
  clear hf
  induction fuel with
  | zero => simp [downscaleWhile] at h
  | succ k ih =>
    rw [downscaleWhile] at h
    by_cases hc : (FreqModel.newRaw nv t).cut_threshold ≤ (FreqModel.newRaw nv t).total
    · rw [if_pos hc, downscale_newRaw] at h
      exact ih h
    · rw [if_neg hc] at h
      refine ⟨(Option.some_injective _ h).symm, ?_⟩
      simpa [FreqModel.newRaw] using hc

theorem freq_downscale_inv (t : Nat) (m : FreqModel)
    (hct : m.cut_threshold = t) (hshift : m.cut_shift = 1)
    (hpos : ∀ f ∈ m.table, 1 ≤ f) (hbound : ∀ f ∈ m.table, f ≤ 65534) :
    m.downscale.cut_threshold = t ∧ m.downscale.cut_shift = 1 ∧
    m.downscale.total = m.downscale.table.sum ∧ (∀ f ∈ m.downscale.table, 1 ≤ f) := by
  refine ⟨hct, hshift, rfl, ?_⟩
  intro f hf
  have hf2 : f ∈ m.table.map (fun g => ((g + (2 ^ m.cut_shift - 1)) % 65536) >>> m.cut_shift) := hf
  obtain ⟨g, hg, rfl⟩ := List.mem_map.mp hf2
  have hg1 : 1 ≤ g := hpos g hg
  have hg2 : g ≤ 65534 := hbound g hg
  rw [hshift]
  have hmod : (g + (2 ^ 1 - 1)) % 65536 = g + 1 := Nat.mod_eq_of_lt (by omega)
  rw [hmod, Nat.shiftRight_eq_div_pow]
  omega

theorem freq_update_inv (t : Nat) (ht : 3 * t ≤ 65536) (m m2 : FreqModel)
    (hInv : FreqInv t m) (v al ac : Nat) (h : m.update v al ac = some m2) :
    FreqInv t m2 := by
  obtain ⟨hct, hshift, hsum, hpos, hlt⟩ := hInv
  simp only [FreqModel.update] at h
  set add := (m.total >>> al) + ac with hadd
  clear_value add
  split at h
  · cases h
  rename_i h1
  push_neg at h1
  split at h
  swap
  · cases h
  rename_i h2
  have htpos : 1 ≤ t := by by_contra hnt; omega
  have hadd_lt : add < 2 * t := by omega
  have hadd_small : add < 65536 := by omega
  have hgetD_le : m.table.getD v 0 ≤ m.table.sum :=
    List.le_sum_of_mem (getD_mem_of_lt _ _ h2)
  have hgetD_pos : 1 ≤ m.table.getD v 0 := hpos _ (getD_mem_of_lt _ _ h2)
  have hentry : (m.table.getD v 0 + add % 65536) % 65536 = m.table.getD v 0 + add := by
    rw [Nat.mod_eq_of_lt hadd_small, Nat.mod_eq_of_lt (by omega)]
  rw [hentry] at h
  have hsum2 : (m.table.set v (m.table.getD v 0 + add)).sum = m.table.sum + add := by
    have h5 := sum_set_getD m.table v (m.table.getD v 0 + add) h2
    omega
  have hpos2 : ∀ f ∈ m.table.set v (m.table.getD v 0 + add), 1 ≤ f := by
    intro f hf
    rcases List.mem_or_eq_of_mem_set hf with hmem | rfl
    · exact hpos f hmem
    · omega
  have hle2 : ∀ f ∈ m.table.set v (m.table.getD v 0 + add), f ≤ 65534 := by
    intro f hf
    have h6 := List.le_sum_of_mem hf
    rw [hsum2] at h6
    omega
  split at h
  · rename_i h3
    split at h
    · rename_i h4
      cases h
      obtain ⟨hc1, hc2, hc3, hc4⟩ := freq_downscale_inv t
        { m with table := m.table.set v (m.table.getD v 0 + add), total := m.total + add }
        hct hshift hpos2 hle2
      refine ⟨hc1, hc2, hc3, hc4, ?_⟩
      rw [← hc1]
      exact h4
    · cases h
  · rename_i h3
    cases h
    push_neg at h3
    exact ⟨hct, hshift, by simp only []; omega, hpos2, by simp only []; omega⟩

theorem freq_run_inv (t : Nat) (ht : 3 * t ≤ 65536) (ops : List (Nat × Nat × Nat)) :
    ∀ m m2 : FreqModel, FreqInv t m → m.runUpdates ops = some m2 → FreqInv t m2 := by
  induction ops with
  | nil =>
    intro m m2 hInv h
    cases h
    exact hInv
  | cons op rest ih =>
    intro m m2 hInv h
    rw [FreqModel.runUpdates] at h
    rcases hup : m.update op.1 op.2.1 op.2.2 with _ | mid
    · rw [hup] at h; cases h
    · rw [hup] at h
      exact ih mid m2 (freq_update_inv t ht m mid hInv _ _ _ hup) h

/-- C7 (amended): for a table built by `new_flat(num_values, threshold)`
(all frequencies 1) whose 16-bit entries cannot overflow - that is,
`3 * threshold ≤ 2^16`, which holds for the library's own
`threshold = 2^12` - after any sequence of successful `update(value,
add_log, add_const)` calls with `add_const ≥ 1`, the invariant holds:
`total` equals the sum of the table entries, every entry is strictly
positive (downscaling rounds up, so no entry drops to zero), and `total`
stays strictly below `cut_threshold`. -/
theorem freq_table_invariant (nv t : Nat) (ht : 3 * t ≤ 65536)
    (ops : List (Nat × Nat × Nat)) (_hops : ∀ op ∈ ops, 1 ≤ op.2.2)
    (m0 m : FreqModel) (h0 : FreqModel.new_flat nv t = some m0)
    (hrun : m0.runUpdates ops = some m) :
    m.total = m.table.sum ∧ (∀ f ∈ m.table, 0 < f) ∧ m.total < m.cut_threshold ∧
      m.cut_threshold = t := by
  obtain ⟨hm0, hnvt⟩ := new_flat_some nv t m0 h0
  subst hm0
  have hInv0 : FreqInv t (FreqModel.newRaw nv t) := by
    refine ⟨rfl, rfl, ?_, ?_, hnvt⟩
    · simp [FreqModel.newRaw, List.sum_replicate]
    · intro f hf
      have := List.eq_of_mem_replicate hf
      omega
  obtain ⟨hct, _, hsum, hpos, hlt⟩ := freq_run_inv t ht ops _ _ hInv0 hrun
  exact ⟨hsum, hpos, by omega, hct⟩

theorem freq_table_invariant_witness :
    (3 * 100 ≤ 65536) ∧ (∀ op ∈ [((0 : Nat), (10 : Nat), (1 : Nat))], 1 ≤ op.2.2) ∧
    ((4 : Nat) = [(2 : Nat), 1, 1].sum ∧ (∀ f ∈ [(2 : Nat), 1, 1], 0 < f) ∧
      (4 : Nat) < 100 ∧ (100 : Nat) = 100) := by
  refine ⟨by decide, by decide, ?_⟩
  have h := freq_table_invariant 3 100 (by decide) [(0, 10, 1)] (by decide)
    (FreqModel.newRaw 3 100)
    { total := 4, table := [2, 1, 1], cut_threshold := 100, cut_shift := 1 }
    (by decide) (by decide)
  exact h

/-- C10: the frame Encoder's `compress` always reports failure, so each
block it emits is raw - the 4-byte little-endian length field is the
buffered byte count with the high bit set (its 4th byte is at least 128)
and the block body is the buffered input verbatim; the write loop emits
bytes only as a concatenation of such blocks, and `flush` emits the pending
buffer as one; the match-finding `BlockEncoder` plays no part in any of
these definitions. -/
theorem lz4_blocks_raw :
    (∀ buf : List Nat, lz4Compress buf = none) ∧
    (∀ buf : List Nat, buf.length < 2 ^ 31 →
      lz4EncodeBlockBytes buf = leU32 (2 ^ 31 + buf.length) ++ buf ∧
      128 ≤ (lz4EncodeBlockBytes buf).getD 3 0) ∧
    (∀ fuel buf input, ∃ chunks : List (List Nat),
      (lz4WriteLoop fuel buf input).2 = (chunks.map lz4EncodeBlockBytes).flatten) ∧
    (∀ buf, lz4Flush buf = if 0 < buf.length then lz4EncodeBlockBytes buf else []) := by
  have hblock : ∀ buf : List Nat, buf.length < 2 ^ 31 →
      lz4EncodeBlockBytes buf = leU32 (2 ^ 31 + buf.length) ++ buf := by
    intro buf h
    have hmod : buf.length % 2 ^ 32 = buf.length :=
      Nat.mod_eq_of_lt (lt_trans h (by norm_num))
    have : (0x80000000 : Nat) = 2 ^ 31 := by norm_num
    simp only [lz4EncodeBlockBytes, lz4Compress, hmod, this]
    rw [lor_two_pow_31 _ h]
  refine ⟨fun _ => rfl, fun buf h => ⟨hblock buf h, ?_⟩, ?_, fun _ => rfl⟩
  · rw [hblock buf h]
    have hdiv : buf.length / 2 ^ 24 < 128 := by
      apply Nat.div_lt_of_lt_mul
      calc buf.length < 2 ^ 31 := h
        _ = 2 ^ 24 * 128 := by norm_num
    have he : (2 ^ 31 + buf.length) / 16777216 = 128 + buf.length / 2 ^ 24 := by
      have : (2 : Nat) ^ 31 + buf.length = buf.length + 128 * 2 ^ 24 := by ring
      rw [this]
      have h24 : (16777216 : Nat) = 2 ^ 24 := by norm_num
      rw [h24, Nat.add_mul_div_right _ _ (by norm_num : (0:Nat) < 2 ^ 24), Nat.add_comm]
    simp only [leU32, List.cons_append, List.getD_cons_succ, List.getD_cons_zero]
    rw [he, Nat.mod_eq_of_lt (by omega)]
    omega
  · intro fuel
    induction fuel with
    | zero => exact fun buf input => ⟨[], rfl⟩
    | succ n ih =>
      intro buf input
      by_cases he : input.isEmpty
      · exact ⟨[], by simp [lz4WriteLoop, he]⟩
      · by_cases hf : (buf ++ input.take (min (lz4Limit - buf.length) input.length)).length =
            lz4Limit
        · obtain ⟨chunks, hc⟩ :=
            ih [] (input.drop (min (lz4Limit - buf.length) input.length))
          refine ⟨(buf ++ input.take (min (lz4Limit - buf.length) input.length)) :: chunks, ?_⟩
          simp only [lz4WriteLoop, he, Bool.false_eq_true, if_false, if_pos hf, List.map_cons,
            List.flatten_cons]
          rw [hc]
        · obtain ⟨chunks, hc⟩ :=
            ih (buf ++ input.take (min (lz4Limit - buf.length) input.length))
              (input.drop (min (lz4Limit - buf.length) input.length))
          refine ⟨chunks, ?_⟩
          simp only [lz4WriteLoop, he, Bool.false_eq_true, if_false, if_neg hf]
          exact hc

theorem lz4_blocks_raw_witness :
    ([7, 7] : List Nat).length < 2 ^ 31 ∧
    (lz4EncodeBlockBytes [7, 7] = leU32 (2 ^ 31 + ([7, 7] : List Nat).length) ++ [7, 7] ∧
      128 ≤ (lz4EncodeBlockBytes [7, 7]).getD 3 0) :=
  ⟨by decide, lz4_blocks_raw.2.1 [7, 7] (by decide)⟩

theorem zlib_decoder_spec_witness :
    (∃ e, zlibDecode (fun b => some ([], b)) (0 :: 0 :: [0, 0, 0, 1]) = .error e ∧
      e ≠ .invalidChecksum ∧ e ≠ .deflateError ∧ e ≠ .truncated) ∧
    zlibDecode (fun b => some ([], b)) (0x78 :: 0x9C :: [0, 0, 0, 1]) = .ok [] := by
  constructor
  · exact (zlib_decoder_spec (fun b => some ([], b)) 0 0 [0, 0, 0, 1]).1 (by decide)
  · exact ((zlib_decoder_spec (fun b => some ([], b)) 0x78 0x9C [0, 0, 0, 1]).2 rfl
      [] 0 0 0 1 [] rfl).1 (by decide)

theorem countP_or_split {α : Type} (l : List α) (p q pq : α → Bool)
    (hiff : ∀ x ∈ l, pq x = (p x || q x)) (hdisj : ∀ x ∈ l, ¬(p x = true ∧ q x = true)) :
    l.countP pq = l.countP p + l.countP q := by
  induction l with
  | nil => simp
  | cons a t ih =>
    rw [List.countP_cons, List.countP_cons, List.countP_cons,
      ih (fun x hx => hiff x (List.mem_cons_of_mem _ hx))
        (fun x hx => hdisj x (List.mem_cons_of_mem _ hx))]
    have h1 := hiff a (List.mem_cons_self _ _)
    have h2 := hdisj a (List.mem_cons_self _ _)
    cases hpa : p a <;> cases hqa : q a <;> simp [hpa, hqa] at h1 h2 ⊢ <;> simp [h1] <;> omega

theorem countP_range_getD {α : Type} (l : List α) (d : α) (p : α → Bool) :
    (List.range l.length).countP (fun i => p (l.getD i d)) = l.countP p := by
  induction l with
  | nil => simp
  | cons a t ih =>
    rw [List.length_cons, List.range_succ_eq_map, List.countP_cons, List.countP_map,
      List.countP_cons]
    simp only [List.getD_cons_zero, List.getD_cons_succ, Function.comp]
    rw [← ih]
    rfl

theorem pairwise_flatMap {α β : Type} (R : β → β → Prop) (L : List α) (f : α → List β)
    (h1 : ∀ b ∈ L, (f b).Pairwise R)
    (h2 : L.Pairwise (fun b b' => ∀ x ∈ f b, ∀ y ∈ f b', R x y)) :
    (L.flatMap f).Pairwise R := by
  induction L with
  | nil => simp
  | cons b T ih =>
    rw [List.flatMap_cons, List.pairwise_append]
    rw [List.pairwise_cons] at h2
    refine ⟨h1 b (List.mem_cons_self _ _), ih (fun c hc => h1 c (List.mem_cons_of_mem _ hc)) h2.2, ?_⟩
    intro x hx y hy
    obtain ⟨c, hcT, hyc⟩ := List.mem_flatMap.mp hy
    exact h2.1 c hcT x hx y hyc

theorem sorted_countP {α : Type} (R : α → α → Prop) [DecidableRel R]
    (hasymm : ∀ a b, R a b → ¬ R b a) (l : List α) (hp : l.Pairwise R) :
    ∀ i, (hi : i < l.length) → l.countP (fun x => decide (R x l[i])) = i := by
  induction l with
  | nil => intro i hi; simp at hi
  | cons a t ih =>
    rw [List.pairwise_cons] at hp
    intro i hi
    cases i with
    | zero =>
      rw [List.countP_cons]
      have h0 : ¬ R a a := fun h => hasymm a a h h
      simp only [List.getElem_cons_zero, h0]
      rw [List.countP_eq_zero.mpr, if_neg (by simp [h0])]
      intro y hy
      simpa using hasymm a y (hp.1 y hy)
    | succ j =>
      have hj : j < t.length := by simpa using hi
      rw [List.countP_cons]
      simp only [List.getElem_cons_succ]
      rw [ih hp.2 j hj, if_pos (by simpa using hp.1 _ (List.getElem_mem hj))]

theorem suffLT_asymm (s : List Sym) (a b : Nat) (h : suffLT s a b) : ¬ suffLT s b a := by
  unfold suffLT at h ⊢
  exact asymm h

theorem suffLT_trans (s : List Sym) (a b c : Nat) (h1 : suffLT s a b) (h2 : suffLT s b c) :
    suffLT s a c := by
  unfold suffLT at h1 h2 ⊢
  exact IsTrans.trans _ _ _ h1 h2

theorem suffLT_trichotomy (s : List Sym) (a b : Nat) :
    suffLT s a b ∨ s.drop a = s.drop b ∨ suffLT s b a := by
  unfold suffLT
  exact trichotomous (s.drop a) (s.drop b)

theorem suffLeB_total (s : List Sym) (a b : Nat) : suffLeB s a b || suffLeB s b a := by
  unfold suffLeB
  by_cases h1 : suffLT s b a
  · have h2 := suffLT_asymm s b a h1
    simp [h2]
  · simp [h1]

theorem suffLeB_trans (s : List Sym) (a b c : Nat)
    (h1 : suffLeB s a b) (h2 : suffLeB s b c) : suffLeB s a c := by
  unfold suffLeB at h1 h2 ⊢
  simp only [Bool.not_eq_true', decide_eq_false_iff_not] at h1 h2
  simp only [Bool.not_eq_true', decide_eq_false_iff_not]
  intro hca
  rcases suffLT_trichotomy s a b with hab | hab | hab
  · exact h2 (suffLT_trans s c a b hca hab)
  · exact h2 (by unfold suffLT at hca ⊢; rw [← hab]; exact hca)
  · exact h1 hab

theorem flatMap_perm_congr {α β : Type} (L : List α) (f g : α → List β)
    (h : ∀ b ∈ L, List.Perm (f b) (g b)) : List.Perm (L.flatMap f) (L.flatMap g) := by
  induction L with
  | nil => rfl
  | cons b T ih =>
    rw [List.flatMap_cons, List.flatMap_cons]
    exact (h b (List.mem_cons_self _ _)).append (ih (fun c hc => h c (List.mem_cons_of_mem _ hc)))

theorem count_flatMap_filter {α β : Type} [DecidableEq α] [DecidableEq β]
    (l : List β) (key : β → α) (x : β) :
    ∀ L : List α, L.Nodup →
      (L.flatMap (fun b => l.filter (fun y => key y = b))).count x =
        if key x ∈ L then l.count x else 0 := by
  intro L
  induction L with
  | nil => simp
  | cons b T ih =>
    intro hnd
    rw [List.nodup_cons] at hnd
    rw [List.flatMap_cons, List.count_append, ih hnd.2]
    by_cases hkx : key x = b
    · rw [List.count_filter (by simpa using hkx), if_neg (by rw [hkx]; exact hnd.1),
        if_pos (by rw [hkx]; exact List.mem_cons_self _ _)]
      omega
    · have hz : (l.filter (fun y => decide (key y = b))).count x = 0 := by
        rw [List.count_eq_zero]
        intro hmem
        exact hkx (by simpa using (List.mem_filter.mp hmem).2)
      rw [hz, Nat.zero_add]
      by_cases hT : key x ∈ T
      · rw [if_pos hT, if_pos (List.mem_cons_of_mem _ hT)]
      · rw [if_neg hT, if_neg (by simp [hkx, hT])]

theorem flatMap_filter_partition {α β : Type} [DecidableEq α] [DecidableEq β]
    (L : List α) (l : List β) (key : β → α) (hnd : L.Nodup)
    (hmem : ∀ x ∈ l, key x ∈ L) :
    List.Perm (L.flatMap (fun b => l.filter (fun y => key y = b))) l := by
  rw [List.perm_iff_count]
  intro x
  rw [count_flatMap_filter l key x L hnd]
  by_cases hx : x ∈ l
  · rw [if_pos (hmem x hx)]
  · rw [List.count_eq_zero.mpr hx]
    split <;> rfl

theorem computeSuffixes_perm (s : List Sym) :
    List.Perm (computeSuffixes s) (List.range s.length) := by
  unfold computeSuffixes
  have h1 : List.Perm ((List.finRange 256).flatMap
      (fun b => ((List.range s.length).filter (fun i => s.getD i 0 = b)).mergeSort (suffLeB s)))
      ((List.finRange 256).flatMap (fun b => (List.range s.length).filter (fun i => s.getD i 0 = b))) :=
    flatMap_perm_congr _ _ _ (fun b _ => List.mergeSort_perm _ _)
  exact h1.trans (flatMap_filter_partition (List.finRange 256) (List.range s.length)
    (fun i => s.getD i 0) (List.nodup_finRange 256) (fun x _ => List.mem_finRange _))

theorem computeSuffixes_length (s : List Sym) : (computeSuffixes s).length = s.length := by
  rw [(computeSuffixes_perm s).length_eq, List.length_range]

theorem computeSuffixes_nodup (s : List Sym) : (computeSuffixes s).Nodup :=
  ((computeSuffixes_perm s).nodup_iff).mpr (List.nodup_range _)

theorem computeSuffixes_mem (s : List Sym) (p : Nat) :
    p ∈ computeSuffixes s ↔ p < s.length := by
  rw [(computeSuffixes_perm s).mem_iff, List.mem_range]

theorem drop_cons_getD (s : List Sym) (x : Nat) (hx : x < s.length) :
    s.drop x = s.getD x 0 :: s.drop (x + 1) := by
  rw [List.drop_eq_getElem_cons hx, List.getD_eq_getElem?_getD, List.getElem?_eq_getElem hx]
  rfl

theorem suffLT_of_head_lt (s : List Sym) (x y : Nat) (hx : x < s.length) (hy : y < s.length)
    (h : s.getD x 0 < s.getD y 0) : suffLT s x y := by
  unfold suffLT
  rw [drop_cons_getD _ _ hx, drop_cons_getD _ _ hy]
  exact List.Lex.rel h

theorem drop_ne_of_ne (s : List Sym) (x y : Nat) (hx : x < s.length) (hy : y < s.length)
    (hxy : x ≠ y) : s.drop x ≠ s.drop y := by
  intro h
  apply hxy
  have hl := congrArg List.length h
  simp only [List.length_drop] at hl
  omega

theorem suffLT_of_le_ne (s : List Sym) (x y : Nat) (hx : x < s.length) (hy : y < s.length)
    (hxy : x ≠ y) (hle : suffLeB s x y = true) : suffLT s x y := by
  rcases suffLT_trichotomy s x y with h | h | h
  · exact h
  · exact absurd h (drop_ne_of_ne s x y hx hy hxy)
  · unfold suffLeB at hle
    simp only [Bool.not_eq_true', decide_eq_false_iff_not] at hle
    exact absurd h hle

theorem computeSuffixes_sorted (s : List Sym) :
    (computeSuffixes s).Pairwise (fun a b => suffLT s a b) := by
  unfold computeSuffixes
  apply pairwise_flatMap
  · intro b _
    have hmemb : ∀ x ∈ ((List.range s.length).filter (fun i => s.getD i 0 = b)).mergeSort
        (suffLeB s), x < s.length ∧ s.getD x 0 = b := by
      intro x hx
      have hx2 := (List.mergeSort_perm _ (suffLeB s)).mem_iff.mp hx
      have := List.mem_filter.mp hx2
      exact ⟨by simpa using this.1, by simpa using this.2⟩
    have hs := @List.sorted_mergeSort _ (suffLeB s)
      (fun a b c hab hbc => suffLeB_trans s a b c hab hbc)
      (fun a b => suffLeB_total s a b)
      ((List.range s.length).filter (fun i => s.getD i 0 = b))
    have hnd : (((List.range s.length).filter (fun i => s.getD i 0 = b)).mergeSort
        (suffLeB s)).Nodup :=
      ((List.mergeSort_perm _ _).nodup_iff).mpr ((List.nodup_range _).filter _)
    have hand := hs.and hnd
    refine hand.imp_of_mem ?_
    intro a c ha hc hacp
    exact suffLT_of_le_ne s a c (hmemb a ha).1 (hmemb c hc).1 hacp.2 hacp.1
  · have hfr : (List.finRange 256).Pairwise (· < ·) := List.pairwise_lt_finRange 256
    refine hfr.imp ?_
    intro b b' hbb' x hx y hy
    have hxm : x < s.length ∧ s.getD x 0 = b := by
      have hx2 := (List.mergeSort_perm _ (suffLeB s)).mem_iff.mp hx
      have := List.mem_filter.mp hx2
      exact ⟨by simpa using this.1, by simpa using this.2⟩
    have hym : y < s.length ∧ s.getD y 0 = b' := by
      have hy2 := (List.mergeSort_perm _ (suffLeB s)).mem_iff.mp hy
      have := List.mem_filter.mp hy2
      exact ⟨by simpa using this.1, by simpa using this.2⟩
    exact suffLT_of_head_lt s x y hxm.1 hym.1 (by rw [hxm.2, hym.2]; exact hbb')

theorem getD_eq_getElem_nat (l : List Nat) (i : Nat) (h : i < l.length) :
    l.getD i 0 = l[i] := by
  rw [List.getD_eq_getElem?_getD, List.getElem?_eq_getElem h]
  rfl

theorem getD_eq_getElem_sym (l : List Sym) (i : Nat) (h : i < l.length) :
    l.getD i 0 = l[i] := by
  rw [List.getD_eq_getElem?_getD, List.getElem?_eq_getElem h]
  rfl

theorem rankOf_getElem (s : List Sym) (i : Nat) (hi : i < (computeSuffixes s).length) :
    rankOf s ((computeSuffixes s)[i]) = i := by
  unfold rankOf
  rw [← (computeSuffixes_perm s).countP_eq]
  exact sorted_countP _ (suffLT_asymm s) (computeSuffixes s) (computeSuffixes_sorted s) i hi

theorem rankOf_row (s : List Sym) (p : Nat) (hp : p < s.length) :
    ∃ hr : rankOf s p < (computeSuffixes s).length, (computeSuffixes s)[rankOf s p] = p := by
  have hmem : p ∈ computeSuffixes s := (computeSuffixes_mem s p).mpr hp
  obtain ⟨i, hi, hip⟩ := List.mem_iff_getElem.mp hmem
  have h2 := rankOf_getElem s i hi
  rw [hip] at h2
  subst h2
  exact ⟨hi, hip⟩

theorem rankOf_lt (s : List Sym) (p : Nat) (hp : p < s.length) : rankOf s p < s.length := by
  obtain ⟨hr, _⟩ := rankOf_row s p hp
  rwa [computeSuffixes_length] at hr

theorem cyc_closed (n p : Nat) (hn : 0 < n) (hp : p < n) :
    cyc n p = if p = 0 then n - 1 else p - 1 := by
  unfold cyc
  rcases Nat.eq_zero_or_pos p with rfl | hpos
  · rw [if_pos rfl, Nat.zero_add, Nat.mod_eq_of_lt (by omega)]
  · rw [if_neg (by omega)]
    have h1 : p + n - 1 = (p - 1) + n := by omega
    rw [h1, Nat.add_mod_right, Nat.mod_eq_of_lt (by omega)]

theorem cyc_lt (n p : Nat) (hn : 0 < n) : cyc n p < n := Nat.mod_lt _ hn

theorem cyc_mod_succ (n r : Nat) (hr : r < n) : cyc n ((r + 1) % n) = r := by
  rcases Nat.lt_or_ge (r + 1) n with h | h
  · rw [Nat.mod_eq_of_lt h, cyc_closed n (r + 1) (by omega) h, if_neg (by omega)]
    omega
  · have hr1 : r + 1 = n := by omega
    rw [hr1, Nat.mod_self, cyc_closed n 0 (by omega) (by omega), if_pos rfl]
    omega

theorem cyc_inj (n p p' : Nat) (hn : 0 < n) (hp : p < n) (hp' : p' < n)
    (h : cyc n p = cyc n p') : p = p' := by
  rw [cyc_closed n p hn hp, cyc_closed n p' hn hp'] at h
  split at h <;> split at h <;> omega

theorem bwtOutput_length (s : List Sym) : (bwtOutput s).length = s.length := by
  unfold bwtOutput
  rw [List.length_map, computeSuffixes_length]

theorem computeSuffixes_getD_lt (s : List Sym) (i : Nat) (hi : i < s.length) :
    (computeSuffixes s).getD i 0 < s.length := by
  have hi' : i < (computeSuffixes s).length := by rwa [computeSuffixes_length]
  rw [getD_eq_getElem_nat _ _ hi']
  exact (computeSuffixes_mem s _).mp (List.getElem_mem hi')

theorem bwtOutput_getD (s : List Sym) (i : Nat) (hi : i < s.length) :
    (bwtOutput s).getD i 0 = s.getD (cyc s.length ((computeSuffixes s).getD i 0)) 0 := by
  have hi' : i < (computeSuffixes s).length := by rwa [computeSuffixes_length]
  have hn : 0 < s.length := by
    have := computeSuffixes_getD_lt s i hi
    omega
  have hmap : i < (bwtOutput s).length := lt_of_lt_of_eq hi (bwtOutput_length s).symm
  unfold bwtOutput at hmap ⊢
  rw [getD_eq_getElem_sym _ _ hmap, List.getElem_map, ← getD_eq_getElem_nat _ _ hi']
  have hplt : (computeSuffixes s).getD i 0 < s.length := computeSuffixes_getD_lt s i hi
  rcases Nat.eq_zero_or_pos ((computeSuffixes s).getD i 0) with hz | hpos
  · rw [hz, if_pos rfl, cyc_closed _ _ hn (by omega), if_pos rfl]
    show lastSym s = s.getD (s.length - 1) 0
    rfl
  · rw [if_neg (by omega), cyc_closed _ _ hn hplt, if_neg (by omega)]

theorem radixGather_eq (L : List Sym) (c : Nat) :
    radixGather L c = L.countP (fun b => decide (b.val = c)) := by
  unfold radixGather
  suffices h : ∀ (l : List Sym) (f0 : Nat → Nat),
      (l.foldl (fun f b => fun c => if c = b.val then f c + 1 else f c) f0) c =
        f0 c + l.countP (fun b => decide (b.val = c)) by
    rw [h L (fun _ => 0)]
    omega
  intro l
  induction l with
  | nil => intro f0; simp
  | cons b t ih =>
    intro f0
    rw [List.foldl_cons, ih, List.countP_cons]
    by_cases hc : c = b.val
    · rw [if_pos hc, if_pos (by simp [hc])]
      omega
    · rw [if_neg hc, if_neg (by simp; exact fun h => hc h.symm)]
      omega

theorem radixAccumulate_closed (f : Nat → Nat) (m : Nat) :
    ((List.range m).foldl
        (fun (p : (Nat → Nat) × Nat) i => (fun c => if c = i then p.2 else p.1 c, p.2 + f i))
        (f, 0)).2 = ∑ i ∈ Finset.range m, f i ∧
    ∀ c, ((List.range m).foldl
        (fun (p : (Nat → Nat) × Nat) i => (fun c => if c = i then p.2 else p.1 c, p.2 + f i))
        (f, 0)).1 c = if c < m then ∑ i ∈ Finset.range c, f i else f c := by
  induction m with
  | zero => exact ⟨by simp, fun c => by simp⟩
  | succ m ih =>
    rw [List.range_succ, List.foldl_append, List.foldl_cons, List.foldl_nil]
    constructor
    · rw [ih.1, Finset.sum_range_succ]
    · intro c
      by_cases hc : c = m
      · subst hc
        simp only [if_pos rfl]
        rw [ih.1]
        simp
      · simp only [if_neg hc]
        rw [ih.2 c]
        by_cases hlt : c < m
        · rw [if_pos hlt, if_pos (by omega)]
        · rw [if_neg hlt, if_neg (by omega)]

theorem radixAccumulate_eq (f : Nat → Nat) (c : Nat) (hc : c ≤ 256) :
    radixAccumulate f c = ∑ i ∈ Finset.range c, f i := by
  unfold radixAccumulate
  rw [(radixAccumulate_closed f 257).2 c, if_pos (by omega)]

theorem bwtOrigin_lt (s : List Sym) (hs : s ≠ []) : bwtOrigin s < s.length := by
  have hn : 0 < s.length := List.length_pos.mpr hs
  have hmem : (0 : Nat) ∈ computeSuffixes s := (computeSuffixes_mem s 0).mpr hn
  have h := List.indexOf_lt_length.mpr hmem
  unfold bwtOrigin
  rwa [computeSuffixes_length] at h

theorem bwtOrigin_lt_sa (s : List Sym) (hs : s ≠ []) :
    bwtOrigin s < (computeSuffixes s).length := by
  rw [computeSuffixes_length]
  exact bwtOrigin_lt s hs

theorem computeSuffixes_origin (s : List Sym) (hs : s ≠ []) :
    (computeSuffixes s).getD (bwtOrigin s) 0 = 0 := by
  have hlt := bwtOrigin_lt_sa s hs
  rw [getD_eq_getElem_nat _ _ hlt]
  exact List.getElem_indexOf hlt

theorem bwtOrigin_eq_rank (s : List Sym) (hs : s ≠ []) : bwtOrigin s = rankOf s 0 := by
  have hlt := bwtOrigin_lt_sa s hs
  have h2 := rankOf_getElem s _ hlt
  have h0 : (computeSuffixes s)[bwtOrigin s] = 0 := by
    rw [← getD_eq_getElem_nat _ _ hlt]
    exact computeSuffixes_origin s hs
  rw [h0] at h2
  exact h2.symm

theorem rankOf_getD (s : List Sym) (j : Nat) (hj : j < s.length) :
    rankOf s ((computeSuffixes s).getD j 0) = j := by
  have hj' : j < (computeSuffixes s).length := by rwa [computeSuffixes_length]
  rw [getD_eq_getElem_nat _ _ hj']
  exact rankOf_getElem s j hj'

theorem computeSuffixes_getD_zero_iff (s : List Sym) (hs : s ≠ []) (j : Nat)
    (hj : j < s.length) :
    (computeSuffixes s).getD j 0 = 0 ↔ j = bwtOrigin s := by
  constructor
  · intro h
    have := rankOf_getD s j hj
    rw [h] at this
    rw [bwtOrigin_eq_rank s hs, ← this]
  · intro h
    rw [h]
    exact computeSuffixes_origin s hs

theorem rankOf_lt_iff (s : List Sym) (a b : Nat) (ha : a < s.length) (hb : b < s.length) :
    rankOf s a < rankOf s b ↔ suffLT s a b := by
  obtain ⟨hra, hA⟩ := rankOf_row s a ha
  obtain ⟨hrb, hB⟩ := rankOf_row s b hb
  have hp := computeSuffixes_sorted s
  rw [List.pairwise_iff_getElem] at hp
  constructor
  · intro h
    have := hp (rankOf s a) (rankOf s b) hra hrb h
    rwa [hA, hB] at this
  · intro h
    rcases Nat.lt_trichotomy (rankOf s a) (rankOf s b) with hlt | heq | hgt
    · exact hlt
    · exfalso
      simp only [heq] at hA
      have hab : a = b := by rw [← hA]; exact hB
      subst hab
      exact suffLT_asymm s a a h h
    · exfalso
      have := hp (rankOf s b) (rankOf s a) hrb hra hgt
      rw [hA, hB] at this
      exact suffLT_asymm s a b h this

theorem countP_range_bij (n : Nat) (f g : Nat → Nat) (hf : ∀ x, x < n → f x < n)
    (hgf : ∀ x, x < n → g (f x) = x) (hg : ∀ y, y < n → g y < n)
    (hfg : ∀ y, y < n → f (g y) = y) (p : Nat → Bool) :
    (List.range n).countP (fun x => p (f x)) = (List.range n).countP p := by
  have hnd : ((List.range n).map f).Nodup := by
    apply (List.nodup_range n).map_on
    intro x hx y hy hxy
    rw [List.mem_range] at hx hy
    have h2 := congrArg g hxy
    rwa [hgf x hx, hgf y hy] at h2
  have hperm : List.Perm ((List.range n).map f) (List.range n) := by
    rw [List.perm_ext_iff_of_nodup hnd (List.nodup_range n)]
    intro a
    simp only [List.mem_map, List.mem_range]
    constructor
    · rintro ⟨x, hx, rfl⟩
      exact hf x hx
    · intro ha
      exact ⟨g a, hg a ha, hfg a ha⟩
  rw [← hperm.countP_eq p, List.countP_map]
  rfl

theorem countP_range_single (n q0 : Nat) (hq : q0 < n) (p : Nat → Bool)
    (h : ∀ q, q < n → p q = true → q = q0) :
    (List.range n).countP p = if p q0 = true then 1 else 0 := by
  by_cases hp : p q0 = true
  · rw [if_pos hp, List.countP_eq_length_filter]
    have hmemf : ∀ b ∈ (List.range n).filter p, b = q0 := by
      intro b hb
      rw [List.mem_filter, List.mem_range] at hb
      exact h b hb.1 hb.2
    apply le_antisymm
    · have hrep := List.eq_replicate_of_mem hmemf
      have hnd : ((List.range n).filter p).Nodup := (List.nodup_range n).filter p
      rw [hrep] at hnd
      exact (List.nodup_replicate).mp hnd
    · have : q0 ∈ (List.range n).filter p := by
        rw [List.mem_filter, List.mem_range]
        exact ⟨hq, hp⟩
      exact List.length_pos_of_mem this
  · rw [if_neg hp, List.countP_eq_length_filter]
    have : (List.range n).filter p = [] := by
      rw [List.filter_eq_nil_iff]
      intro a ha hpa
      rw [List.mem_range] at ha
      exact hp (h a ha hpa ▸ hpa)
    rw [this]
    rfl

theorem countP_range_restrict (n i : Nat) (hi : i ≤ n) (p : Nat → Bool) :
    (List.range n).countP (fun j => decide (j < i) && p j) = (List.range i).countP p := by
  have hn : n = i + (n - i) := by omega
  rw [hn, List.range_add, List.countP_append]
  have h2 : ((List.range (n - i)).map (i + ·)).countP (fun j => decide (j < i) && p j) = 0 := by
    rw [List.countP_eq_zero]
    intro a ha
    rw [List.mem_map] at ha
    obtain ⟨x, _, rfl⟩ := ha
    simp only [Bool.and_eq_true, decide_eq_true_eq]
    intro hcon
    omega
  rw [h2]
  have h1 : (List.range i).countP (fun j => decide (j < i) && p j) =
      (List.range i).countP p := by
    apply List.countP_congr
    intro a ha
    rw [List.mem_range] at ha
    simp [ha]
  omega

theorem countP_val_lt_succ (L : List Sym) (c : Nat) :
    L.countP (fun x => decide (x.val < c + 1)) =
      L.countP (fun x => decide (x.val < c)) + L.countP (fun x => decide (x.val = c)) := by
  apply countP_or_split
  · intro x _
    rcases Nat.lt_trichotomy x.val c with h | h | h
    · have ha : x.val < c + 1 := by omega
      have hb : x.val ≠ c := by omega
      simp [h, ha, hb]
    · simp [h, Nat.lt_succ_self, Nat.lt_irrefl]
    · have ha : ¬(x.val < c + 1) := by omega
      have hb : ¬(x.val < c) := by omega
      have hc2 : x.val ≠ c := by omega
      simp [ha, hb, hc2]
  · rintro x _ ⟨h1, h2⟩
    rw [decide_eq_true_eq] at h1 h2
    omega

theorem sum_count_lt (L : List Sym) (c : Nat) :
    ∑ i ∈ Finset.range c, L.countP (fun x => decide (x.val = i)) =
      L.countP (fun x => decide (x.val < c)) := by
  induction c with
  | zero =>
    rw [Finset.sum_range_zero]
    have h0 : L.countP (fun x => decide (x.val < 0)) = 0 := by
      rw [List.countP_eq_zero]
      intro a _
      simp
    omega
  | succ c ih => rw [Finset.sum_range_succ, ih, countP_val_lt_succ]

theorem init_table_lt (L : List Sym) (c : Nat) (hc : c ≤ 256) :
    radixAccumulate (radixGather L) c = L.countP (fun x => decide (x.val < c)) := by
  rw [radixAccumulate_eq _ _ hc, ← sum_count_lt]
  apply Finset.sum_congr rfl
  intro i _
  exact radixGather_eq L i

theorem mod_succ_cyc_aux (n x : Nat) (hx : x < n) : (cyc n x + 1) % n = x := by
  rw [cyc_closed n x (by omega) hx]
  rcases Nat.eq_zero_or_pos x with rfl | hpos
  · rw [if_pos rfl]
    have h1 : n - 1 + 1 = n := by omega
    rw [h1, Nat.mod_self]
  · rw [if_neg (by omega)]
    have h1 : x - 1 + 1 = x := by omega
    rw [h1, Nat.mod_eq_of_lt hx]

theorem bwtOutput_countP (s : List Sym) (p : Sym → Bool) :
    (bwtOutput s).countP p = s.countP p := by
  rw [← countP_range_getD (bwtOutput s) 0 p, bwtOutput_length]
  rw [← countP_range_getD s 0 p]
  have h1 : (List.range s.length).countP (fun j => p ((bwtOutput s).getD j 0)) =
      (List.range s.length).countP
        (fun j => p (s.getD (cyc s.length ((computeSuffixes s).getD j 0)) 0)) := by
    apply List.countP_congr
    intro j hj
    rw [List.mem_range] at hj
    rw [bwtOutput_getD s j hj]
  rw [h1]
  have h2 : (List.range s.length).countP
      (fun j => p (s.getD (cyc s.length ((computeSuffixes s).getD j 0)) 0)) =
      (computeSuffixes s).countP (fun q => p (s.getD (cyc s.length q) 0)) := by
    rw [← countP_range_getD (computeSuffixes s) 0 (fun q => p (s.getD (cyc s.length q) 0)),
      computeSuffixes_length]
  rw [h2, (computeSuffixes_perm s).countP_eq]
  exact countP_range_bij s.length (cyc s.length) (fun y => (y + 1) % s.length)
    (fun x hx => cyc_lt _ _ (by omega)) (fun x hx => mod_succ_cyc_aux _ x hx)
    (fun y hy => Nat.mod_lt _ (by omega)) (fun y hy => cyc_mod_succ _ y hy)
    (fun q => p (s.getD q 0))

theorem cntChr_procList (L : List Sym) (origin : Nat) (horig : origin < L.length) (b : Nat) :
    cntChr L b (bwtProcList L.length origin) = L.countP (fun x => decide (x.val = b)) := by
  unfold cntChr bwtProcList
  rw [List.countP_cons, List.countP_map]
  have hperm : List.Perm
      (origin :: (List.range L.length).filter (fun j => decide (j ≠ origin)))
      (List.range L.length) := by
    have hmem : origin ∈ List.range L.length := List.mem_range.mpr horig
    have h1 := List.perm_cons_erase hmem
    have h2 : (List.range L.length).erase origin =
        (List.range L.length).filter (fun j => decide (j ≠ origin)) := by
      rw [(List.nodup_range _).erase_eq_filter]
      apply List.filter_congr
      intro x _
      by_cases hx : x = origin <;> simp [hx]
    rw [h2] at h1
    exact h1.symm
  have h3 := hperm.countP_eq (fun j => decide (chrRow L j = b))
  rw [List.countP_cons] at h3
  have h4 : (List.range L.length).countP (fun j => decide (chrRow L j = b)) =
      L.countP (fun x => decide (x.val = b)) := by
    rw [← countP_range_getD L 0 (fun x => decide (x.val = b))]
    rfl
  rw [← h4, ← h3]
  rfl

theorem hcap_init (L : List Sym) (origin : Nat) (horig : origin < L.length) :
    ∀ b, b < 256 →
      radixAccumulate (radixGather L) b + cntChr L b (bwtProcList L.length origin) ≤
        radixAccumulate (radixGather L) (b + 1) := by
  intro b hb
  rw [init_table_lt L b (by omega), init_table_lt L (b + 1) (by omega),
    cntChr_procList L origin horig b, countP_val_lt_succ]

theorem gsep_of_cap (g cnt : Nat → Nat) (m : Nat)
    (Hcap : ∀ b, b < m → g b + cnt b ≤ g (b + 1)) :
    ∀ b c, b < c → c ≤ m → g b + cnt b ≤ g c := by
  intro b c
  induction c with
  | zero => intro h _; omega
  | succ c ih =>
    intro hbc hcm
    rcases Nat.lt_or_ge b c with h | h
    · exact le_trans (ih h (by omega)) (le_trans (Nat.le_add_right _ _) (Hcap c (by omega)))
    · have hbc2 : b = c := by omega
      subst hbc2
      exact Hcap b (by omega)

theorem place_fold_g (L : List Sym) (P : List (Nat × Nat)) :
    ∀ (S : (Nat → Nat) × (Nat → Nat)) (b : Nat),
      ((P.foldl (bwtPlaceStep L) S).1) b = S.1 b + cntChr L b P := by
  induction P with
  | nil =>
    intro S b
    unfold cntChr
    simp
  | cons iv t ih =>
    intro S b
    rw [List.foldl_cons, ih]
    have hstep : (bwtPlaceStep L S iv).1 b =
        if b = chrRow L iv.1 then S.1 (chrRow L iv.1) + 1 else S.1 b := rfl
    rw [hstep]
    unfold cntChr
    rw [List.countP_cons]
    by_cases hb : b = chrRow L iv.1
    · rw [if_pos hb, if_pos (by simp [hb]), hb]
      omega
    · rw [if_neg hb, if_neg (by simp; exact fun h => hb h.symm)]
      omega

theorem place_fold_frozen (L : List Sym) (P : List (Nat × Nat)) :
    ∀ (S : (Nat → Nat) × (Nat → Nat)) (q : Nat),
      (∀ iv ∈ P, q < S.1 (chrRow L iv.1) ∨
        S.1 (chrRow L iv.1) + cntChr L (chrRow L iv.1) P ≤ q) →
      (P.foldl (bwtPlaceStep L) S).2 q = S.2 q := by
  induction P with
  | nil => intro S q _; rfl
  | cons iv t ih =>
    intro S q H
    have hcget : cntChr L (chrRow L iv.1) (iv :: t) = cntChr L (chrRow L iv.1) t + 1 := by
      unfold cntChr
      rw [List.countP_cons, if_pos (by simp)]
    have hfr : ∀ jv ∈ t, q < (bwtPlaceStep L S iv).1 (chrRow L jv.1) ∨
        (bwtPlaceStep L S iv).1 (chrRow L jv.1) + cntChr L (chrRow L jv.1) t ≤ q := by
      intro jv hjv
      have hj := H jv (List.mem_cons_of_mem iv hjv)
      have hfst : (bwtPlaceStep L S iv).1 (chrRow L jv.1) =
          if chrRow L jv.1 = chrRow L iv.1 then S.1 (chrRow L iv.1) + 1
          else S.1 (chrRow L jv.1) := rfl
      by_cases hcc : chrRow L jv.1 = chrRow L iv.1
      · rw [hfst, if_pos hcc]
        rw [hcc] at hj
        rw [hcget] at hj
        rw [hcc]
        omega
      · rw [hfst, if_neg hcc]
        have hcnt : cntChr L (chrRow L jv.1) (iv :: t) = cntChr L (chrRow L jv.1) t := by
          unfold cntChr
          rw [List.countP_cons, if_neg (by simp; exact fun h => hcc h.symm)]
          omega
        rw [hcnt] at hj
        exact hj
    rw [List.foldl_cons, ih _ q hfr]
    have hstep : (bwtPlaceStep L S iv).2 q =
        if q = S.1 (chrRow L iv.1) then iv.2 else S.2 q := rfl
    have h0 := H iv (List.mem_cons_self iv t)
    rw [hcget] at h0
    rw [hstep, if_neg (by omega)]

theorem place_fold_spec (L : List Sym) (P₁ P₂ : List (Nat × Nat)) (iv : Nat × Nat)
    (g0 T0 : Nat → Nat)
    (Hcap : ∀ b, b < 256 → g0 b + cntChr L b (P₁ ++ iv :: P₂) ≤ g0 (b + 1)) :
    ((P₁ ++ iv :: P₂).foldl (bwtPlaceStep L) (g0, T0)).2
      (g0 (chrRow L iv.1) + cntChr L (chrRow L iv.1) P₁) = iv.2 := by
  have hsep : ∀ b c, b < c → c ≤ 256 → g0 b + cntChr L b (P₁ ++ iv :: P₂) ≤ g0 c :=
    fun b c h1 h2 => gsep_of_cap g0 (fun b => cntChr L b (P₁ ++ iv :: P₂)) 256 Hcap b c h1 h2
  have hb256 : chrRow L iv.1 < 256 := (L.getD iv.1 0).isLt
  rw [List.foldl_append, List.foldl_cons]
  have hg1 : ∀ c, (P₁.foldl (bwtPlaceStep L) (g0, T0)).1 c = g0 c + cntChr L c P₁ :=
    fun c => place_fold_g L P₁ (g0, T0) c
  have hdecb : cntChr L (chrRow L iv.1) (P₁ ++ iv :: P₂) =
      cntChr L (chrRow L iv.1) P₁ + cntChr L (chrRow L iv.1) P₂ + 1 := by
    unfold cntChr
    rw [List.countP_append, List.countP_cons, if_pos (by simp)]
    omega
  have hdecc : ∀ c, c ≠ chrRow L iv.1 → cntChr L c (P₁ ++ iv :: P₂) =
      cntChr L c P₁ + cntChr L c P₂ := by
    intro c hc
    unfold cntChr
    rw [List.countP_append, List.countP_cons, if_neg (by simp; exact fun h => hc h.symm)]
    omega
  have hfr : ∀ jv ∈ P₂,
      g0 (chrRow L iv.1) + cntChr L (chrRow L iv.1) P₁ <
        (bwtPlaceStep L (P₁.foldl (bwtPlaceStep L) (g0, T0)) iv).1 (chrRow L jv.1) ∨
      (bwtPlaceStep L (P₁.foldl (bwtPlaceStep L) (g0, T0)) iv).1 (chrRow L jv.1) +
          cntChr L (chrRow L jv.1) P₂ ≤
        g0 (chrRow L iv.1) + cntChr L (chrRow L iv.1) P₁ := by
    intro jv hjv
    have hc256 : chrRow L jv.1 < 256 := (L.getD jv.1 0).isLt
    have hfst : (bwtPlaceStep L (P₁.foldl (bwtPlaceStep L) (g0, T0)) iv).1 (chrRow L jv.1) =
        if chrRow L jv.1 = chrRow L iv.1 then
          (P₁.foldl (bwtPlaceStep L) (g0, T0)).1 (chrRow L iv.1) + 1
        else (P₁.foldl (bwtPlaceStep L) (g0, T0)).1 (chrRow L jv.1) := rfl
    by_cases hcb : chrRow L jv.1 = chrRow L iv.1
    · left
      rw [hfst, if_pos hcb, hg1]
      omega
    · rw [hfst, if_neg hcb, hg1]
      rcases Nat.lt_or_ge (chrRow L jv.1) (chrRow L iv.1) with hlt | hge
      · right
        have h1 := hsep (chrRow L jv.1) (chrRow L iv.1) hlt (by omega)
        rw [hdecc _ hcb] at h1
        omega
      · left
        have hbc : chrRow L iv.1 < chrRow L jv.1 := by omega
        have h1 := hsep (chrRow L iv.1) (chrRow L jv.1) hbc (by omega)
        rw [hdecb] at h1
        omega
  rw [place_fold_frozen L P₂ _ _ hfr]
  have hsnd : (bwtPlaceStep L (P₁.foldl (bwtPlaceStep L) (g0, T0)) iv).2
      (g0 (chrRow L iv.1) + cntChr L (chrRow L iv.1) P₁) =
      if g0 (chrRow L iv.1) + cntChr L (chrRow L iv.1) P₁ =
          (P₁.foldl (bwtPlaceStep L) (g0, T0)).1 (chrRow L iv.1) then iv.2
      else (P₁.foldl (bwtPlaceStep L) (g0, T0)).2
        (g0 (chrRow L iv.1) + cntChr L (chrRow L iv.1) P₁) := rfl
  rw [hsnd, if_pos (by rw [hg1])]

theorem procList_split_origin (n origin : Nat) :
    bwtProcList n origin = [] ++ (origin, 0) ::
      ((List.range n).filter (fun j => decide (j ≠ origin))).map (fun j => (j, j + 1)) := rfl

theorem procList_split (n origin i : Nat) (hi : i < n) (hio : i ≠ origin) :
    ∃ P₂, bwtProcList n origin =
      ((origin, 0) :: ((List.range i).filter (fun j => decide (j ≠ origin))).map
        (fun j => (j, j + 1))) ++ (i, i + 1) :: P₂ := by
  refine ⟨((((List.range (n - (i + 1))).map ((i + 1) + ·)).filter
    (fun j => decide (j ≠ origin))).map (fun j => (j, j + 1))), ?_⟩
  unfold bwtProcList
  have h1 : List.range n = List.range (i + 1) ++ (List.range (n - (i + 1))).map ((i + 1) + ·) := by
    rw [← List.range_add]
    congr 1
    omega
  rw [h1, List.filter_append, List.range_succ, List.filter_append]
  have h2 : [i].filter (fun j => decide (j ≠ origin)) = [i] := by
    simp [hio]
  rw [h2]
  simp

theorem drop_last_singleton (s : List Sym) (hn : 0 < s.length) :
    s.drop (s.length - 1) = [s.getD (s.length - 1) 0] := by
  rw [drop_cons_getD s _ (by omega), show s.length - 1 + 1 = s.length by omega, List.drop_length]

theorem suffLT_tail_iff (s : List Sym) (x y : Nat) (hx : x < s.length) (hy : y < s.length)
    (hhd : s.getD x 0 = s.getD y 0) :
    suffLT s x y ↔ suffLT s (x + 1) (y + 1) := by
  show List.Lex (· < ·) (s.drop x) (s.drop y) ↔ List.Lex (· < ·) (s.drop (x+1)) (s.drop (y+1))
  rw [drop_cons_getD s x hx, drop_cons_getD s y hy, hhd]
  exact List.Lex.cons_iff

theorem suffLT_last (s : List Sym) (y : Nat) (hy : y + 1 < s.length)
    (hhd : s.getD (s.length - 1) 0 = s.getD y 0) : suffLT s (s.length - 1) y := by
  show List.Lex (· < ·) (s.drop (s.length - 1)) (s.drop y)
  rw [drop_last_singleton s (by omega), drop_cons_getD s y (by omega), hhd]
  apply List.Lex.cons
  rw [drop_cons_getD s (y + 1) (by omega)]
  exact List.Lex.nil

theorem not_suffLT_last (s : List Sym) (y : Nat) (hy : y < s.length)
    (hhd : s.getD y 0 = s.getD (s.length - 1) 0) : ¬ suffLT s y (s.length - 1) := by
  intro h
  have hn : 0 < s.length := by omega
  show False
  unfold suffLT at h
  rw [drop_last_singleton s hn, drop_cons_getD s y hy, hhd] at h
  cases h with
  | rel h1 => exact absurd h1 (lt_irrefl _)
  | cons h1 => exact List.Lex.not_nil_right _ _ h1

theorem suffLT_head_cases (s : List Sym) (x y : Nat) (hx : x < s.length) (hy : y < s.length)
    (h : suffLT s x y) :
    s.getD x 0 < s.getD y 0 ∨ s.getD x 0 = s.getD y 0 := by
  unfold suffLT at h
  rw [drop_cons_getD s x hx, drop_cons_getD s y hy] at h
  revert h
  generalize s.getD x 0 = a
  generalize s.getD y 0 = b
  intro h
  cases h with
  | rel h1 => exact Or.inl h1
  | cons h1 => exact Or.inr rfl

theorem rankOf_split (s : List Sym) (k' : Nat) (hk : k' < s.length) :
    rankOf s k' =
      (List.range s.length).countP (fun q => decide ((s.getD q 0).val < (s.getD k' 0).val)) +
      (List.range s.length).countP
        (fun q => decide ((s.getD q 0).val = (s.getD k' 0).val ∧ suffLT s q k')) := by
  unfold rankOf
  apply countP_or_split
  · intro q hq
    rw [List.mem_range] at hq
    rw [← Bool.decide_or]
    apply decide_eq_decide.mpr
    constructor
    · intro h
      rcases suffLT_head_cases s q k' hq hk h with hlt | heq
      · exact Or.inl (Fin.lt_def.mp hlt)
      · exact Or.inr ⟨congrArg Fin.val heq, h⟩
    · rintro (hlt | ⟨_, h⟩)
      · exact suffLT_of_head_lt s q k' hq hk (Fin.lt_def.mpr hlt)
      · exact h
  · rintro q hq ⟨hp, hq2⟩
    rw [decide_eq_true_eq] at hp hq2
    exact absurd hq2.1 (by omega)

theorem rankOf_inj (s : List Sym) (a b : Nat) (ha : a < s.length) (hb : b < s.length)
    (h : rankOf s a = rankOf s b) : a = b := by
  obtain ⟨hra, hA⟩ := rankOf_row s a ha
  obtain ⟨hrb, hB⟩ := rankOf_row s b hb
  simp only [h] at hA
  rw [← hA]
  exact hB

theorem g0_eq_count (s : List Sym) (c : Nat) (hc : c ≤ 256) :
    radixAccumulate (radixGather (bwtOutput s)) c =
      (List.range s.length).countP (fun q => decide ((s.getD q 0).val < c)) := by
  rw [init_table_lt _ c hc, bwtOutput_countP s (fun x => decide (x.val < c))]
  exact (countP_range_getD s 0 _).symm

theorem chrRow_origin (s : List Sym) (hs : s ≠ []) :
    chrRow (bwtOutput s) (bwtOrigin s) = (s.getD (s.length - 1) 0).val := by
  have hn : 0 < s.length := List.length_pos.mpr hs
  unfold chrRow
  rw [bwtOutput_getD s _ (bwtOrigin_lt s hs), computeSuffixes_origin s hs,
    cyc_closed _ _ hn hn, if_pos rfl]

theorem lf_origin (s : List Sym) (hs : s ≠ []) :
    radixAccumulate (radixGather (bwtOutput s)) (chrRow (bwtOutput s) (bwtOrigin s)) =
      rankOf s (s.length - 1) := by
  have hn : 0 < s.length := List.length_pos.mpr hs
  rw [chrRow_origin s hs, rankOf_split s (s.length - 1) (by omega),
    g0_eq_count s _ (by exact le_of_lt (s.getD (s.length - 1) 0).isLt)]
  have hB : (List.range s.length).countP
      (fun q => decide ((s.getD q 0).val = (s.getD (s.length - 1) 0).val ∧
        suffLT s q (s.length - 1))) = 0 := by
    rw [List.countP_eq_zero]
    intro q hq
    rw [List.mem_range] at hq
    simp only [decide_eq_true_eq]
    rintro ⟨h1, h2⟩
    exact not_suffLT_last s q hq (Fin.val_inj.mp h1) h2
  rw [hB]
  omega

theorem cntChr_P1 (L : List Sym) (origin i vc : Nat) :
    cntChr L vc ((origin, 0) :: ((List.range i).filter (fun j => decide (j ≠ origin))).map
      (fun j => (j, j + 1))) =
    (if chrRow L origin = vc then 1 else 0) +
      (List.range i).countP (fun j => decide (chrRow L j = vc) && decide (j ≠ origin)) := by
  unfold cntChr
  rw [List.countP_cons, List.countP_map, List.countP_filter]
  by_cases h : chrRow L origin = vc
  · rw [if_pos (by simp [h]), if_pos h]
    simp [Function.comp]
    omega
  · rw [if_neg (by simp [h]), if_neg h]
    simp [Function.comp]

theorem lf_count (s : List Sym) (hs : s ≠ []) (p : Nat) (hp : p < s.length) (hpne : p ≠ 0) :
    (List.range s.length).countP
      (fun q => decide ((s.getD q 0).val = (s.getD (p - 1) 0).val ∧ suffLT s q (p - 1))) =
    (if chrRow (bwtOutput s) (bwtOrigin s) = (s.getD (p - 1) 0).val then 1 else 0) +
    (List.range (rankOf s p)).countP
      (fun j => decide (chrRow (bwtOutput s) j = (s.getD (p - 1) 0).val) &&
        decide (j ≠ bwtOrigin s)) := by
  have hn : 0 < s.length := List.length_pos.mpr hs
  have hn2 : 2 ≤ s.length := by omega
  have hk : p - 1 < s.length := by omega
  have hrk : rankOf s p < s.length := rankOf_lt s p hp
  have hsplit : (List.range s.length).countP
      (fun q => decide ((s.getD q 0).val = (s.getD (p - 1) 0).val ∧ suffLT s q (p - 1))) =
      (List.range s.length).countP
        (fun q => decide (q = s.length - 1 ∧ (s.getD q 0).val = (s.getD (p - 1) 0).val ∧
          suffLT s q (p - 1))) +
      (List.range s.length).countP
        (fun q => decide (q ≠ s.length - 1 ∧ (s.getD q 0).val = (s.getD (p - 1) 0).val ∧
          suffLT s q (p - 1))) := by
    apply countP_or_split
    · intro x _
      rw [← Bool.decide_or]
      apply decide_eq_decide.mpr
      by_cases hx : x = s.length - 1
      · constructor
        · intro h
          exact Or.inl ⟨hx, h⟩
        · rintro (⟨_, h⟩ | ⟨_, h⟩) <;> exact h
      · constructor
        · intro h
          exact Or.inr ⟨hx, h⟩
        · rintro (⟨hxx, h⟩ | ⟨_, h⟩)
          · exact absurd hxx hx
          · exact h
    · rintro x _ ⟨h1, h2⟩
      rw [decide_eq_true_eq] at h1 h2
      exact h2.1 h1.1
  rw [hsplit]
  have hB1 : (List.range s.length).countP
      (fun q => decide (q = s.length - 1 ∧ (s.getD q 0).val = (s.getD (p - 1) 0).val ∧
        suffLT s q (p - 1))) =
      if chrRow (bwtOutput s) (bwtOrigin s) = (s.getD (p - 1) 0).val then 1 else 0 := by
    rw [countP_range_single s.length (s.length - 1) (by omega) _
      (fun q _ hq => ((of_decide_eq_true hq).1))]
    rw [chrRow_origin s hs]
    by_cases hcase : (s.getD (s.length - 1) 0).val = (s.getD (p - 1) 0).val
    · have hsl : suffLT s (s.length - 1) (p - 1) :=
        suffLT_last s (p - 1) (by omega) (Fin.val_inj.mp hcase)
      rw [if_pos (decide_eq_true ⟨rfl, hcase, hsl⟩), if_pos hcase]
    · rw [if_neg (fun hc => hcase (of_decide_eq_true hc).2.1), if_neg hcase]
  rw [hB1]
  apply congrArg
  rw [← countP_range_restrict s.length (rankOf s p) (le_of_lt hrk)
    (fun j => decide (chrRow (bwtOutput s) j = (s.getD (p - 1) 0).val) &&
      decide (j ≠ bwtOrigin s))]
  have hT2 : (List.range s.length).countP
      (fun j => decide (j < rankOf s p) &&
        (decide (chrRow (bwtOutput s) j = (s.getD (p - 1) 0).val) &&
          decide (j ≠ bwtOrigin s))) =
      (List.range s.length).countP
        (fun j => decide (suffLT s ((computeSuffixes s).getD j 0) p) &&
          (decide ((s.getD (cyc s.length ((computeSuffixes s).getD j 0)) 0).val =
            (s.getD (p - 1) 0).val) &&
            decide ((computeSuffixes s).getD j 0 ≠ 0))) := by
    apply List.countP_congr
    intro j hj
    rw [List.mem_range] at hj
    have hSAj : (computeSuffixes s).getD j 0 < s.length := computeSuffixes_getD_lt s j hj
    have h1 : decide (j < rankOf s p) =
        decide (suffLT s ((computeSuffixes s).getD j 0) p) := by
      apply decide_eq_decide.mpr
      have hiff := rankOf_lt_iff s ((computeSuffixes s).getD j 0) p hSAj hp
      rw [rankOf_getD s j hj] at hiff
      exact hiff
    have h2 : decide (chrRow (bwtOutput s) j = (s.getD (p - 1) 0).val) =
        decide ((s.getD (cyc s.length ((computeSuffixes s).getD j 0)) 0).val =
          (s.getD (p - 1) 0).val) := by
      apply decide_eq_decide.mpr
      unfold chrRow
      rw [bwtOutput_getD s j hj]
    have h3 : decide (j ≠ bwtOrigin s) = decide ((computeSuffixes s).getD j 0 ≠ 0) := by
      apply decide_eq_decide.mpr
      exact (not_congr (computeSuffixes_getD_zero_iff s hs j hj)).symm
    rw [h1, h2, h3]
  rw [hT2]
  have hgetd := countP_range_getD (computeSuffixes s) 0
    (fun x => decide (suffLT s x p) &&
      (decide ((s.getD (cyc s.length x) 0).val = (s.getD (p - 1) 0).val) && decide (x ≠ 0)))
  rw [computeSuffixes_length] at hgetd
  rw [hgetd, (computeSuffixes_perm s).countP_eq]
  rw [← countP_range_bij s.length (fun y => (y + 1) % s.length) (cyc s.length)
    (fun x hx => Nat.mod_lt _ (by omega)) (fun x hx => cyc_mod_succ s.length x hx)
    (fun y hy => cyc_lt s.length y (by omega)) (fun y hy => mod_succ_cyc_aux s.length y hy)
    (fun x => decide (suffLT s x p) &&
      (decide ((s.getD (cyc s.length x) 0).val = (s.getD (p - 1) 0).val) && decide (x ≠ 0)))]
  apply List.countP_congr
  intro q hq
  rw [List.mem_range] at hq
  simp only [Bool.and_eq_true, decide_eq_true_eq]
  by_cases hq1 : q = s.length - 1
  · have hmod : (q + 1) % s.length = 0 := by
      rw [hq1, show s.length - 1 + 1 = s.length by omega, Nat.mod_self]
    rw [hmod]
    constructor
    · rintro ⟨hxx, _⟩
      exact absurd hq1 hxx
    · rintro ⟨_, _, h3'⟩
      exact absurd rfl h3'
  · have hq2 : q + 1 < s.length := by omega
    have hmod : (q + 1) % s.length = q + 1 := Nat.mod_eq_of_lt hq2
    rw [hmod, cyc_closed s.length (q + 1) (by omega) hq2, if_neg (by omega),
      show q + 1 - 1 = q by omega]
    constructor
    · rintro ⟨_, h2', h3'⟩
      have hhd : s.getD q 0 = s.getD (p - 1) 0 := Fin.val_inj.mp h2'
      refine ⟨?_, h2', by omega⟩
      have hiff := suffLT_tail_iff s q (p - 1) (by omega) hk hhd
      rw [show p - 1 + 1 = p by omega] at hiff
      exact hiff.mp h3'
    · rintro ⟨h1', h2', _⟩
      have hhd : s.getD q 0 = s.getD (p - 1) 0 := Fin.val_inj.mp h2'
      refine ⟨hq1, h2', ?_⟩
      have hiff := suffLT_tail_iff s q (p - 1) (by omega) hk hhd
      rw [show p - 1 + 1 = p by omega] at hiff
      exact hiff.mpr h1'

set_option maxRecDepth 8000 in
theorem table_spec (s : List Sym) (hs : s ≠ []) (T : Nat → Nat)
    (hT : computeInversionTable (bwtOutput s) (bwtOrigin s) = some T) (k : Nat)
    (hk : k < s.length) :
    T (rankOf s k) =
      if (k + 1) % s.length = 0 then 0 else rankOf s ((k + 1) % s.length) + 1 := by
  have hn : 0 < s.length := List.length_pos.mpr hs
  have horigL : bwtOrigin s < (bwtOutput s).length := by
    rw [bwtOutput_length]
    exact bwtOrigin_lt s hs
  unfold computeInversionTable at hT
  rw [if_pos horigL] at hT
  have hTeq : T = ((bwtProcList (bwtOutput s).length (bwtOrigin s)).foldl
      (bwtPlaceStep (bwtOutput s))
      (radixAccumulate (radixGather (bwtOutput s)), fun _ => 0)).2 := (Option.some.inj hT).symm
  clear hT
  rw [hTeq, bwtOutput_length]
  have Hcap := hcap_init (bwtOutput s) (bwtOrigin s) horigL
  rw [bwtOutput_length] at Hcap
  by_cases hkn : (k + 1) % s.length = 0
  · have hk1 : k + 1 = s.length := by
      rcases Nat.lt_or_ge (k + 1) s.length with h | h
      · rw [Nat.mod_eq_of_lt h] at hkn
        omega
      · omega
    rw [if_pos hkn]
    rw [procList_split_origin s.length (bwtOrigin s)] at Hcap ⊢
    have haddr : radixAccumulate (radixGather (bwtOutput s))
          (chrRow (bwtOutput s) (bwtOrigin s)) +
        cntChr (bwtOutput s) (chrRow (bwtOutput s) (bwtOrigin s)) [] = rankOf s k := by
      have hc0 : cntChr (bwtOutput s) (chrRow (bwtOutput s) (bwtOrigin s)) [] = 0 := rfl
      rw [hc0, Nat.add_zero, lf_origin s hs, show s.length - 1 = k by omega]
    rw [← haddr]
    exact place_fold_spec (bwtOutput s) []
      (((List.range s.length).filter (fun j => decide (j ≠ bwtOrigin s))).map
        (fun j => (j, j + 1)))
      (bwtOrigin s, 0) (radixAccumulate (radixGather (bwtOutput s))) (fun _ => 0) Hcap
  · have hk1 : k + 1 < s.length := by
      rcases Nat.lt_or_ge (k + 1) s.length with h | h
      · exact h
      · have hkk : k + 1 = s.length := by omega
        rw [hkk, Nat.mod_self] at hkn
        omega
    have hmodk : (k + 1) % s.length = k + 1 := Nat.mod_eq_of_lt hk1
    have hi : rankOf s (k + 1) < s.length := rankOf_lt s (k + 1) hk1
    have hio : rankOf s (k + 1) ≠ bwtOrigin s := by
      rw [bwtOrigin_eq_rank s hs]
      intro hcon
      have := rankOf_inj s (k + 1) 0 hk1 hn hcon
      omega
    obtain ⟨P₂, hP⟩ := procList_split s.length (bwtOrigin s) (rankOf s (k + 1)) hi hio
    rw [hP] at Hcap ⊢
    have hSAi : (computeSuffixes s).getD (rankOf s (k + 1)) 0 = k + 1 := by
      obtain ⟨hr, hEl⟩ := rankOf_row s (k + 1) hk1
      rw [getD_eq_getElem_nat _ _ hr]
      exact hEl
    have hchr : chrRow (bwtOutput s) (rankOf s (k + 1)) = (s.getD k 0).val := by
      unfold chrRow
      rw [bwtOutput_getD s _ hi, hSAi, cyc_closed s.length (k + 1) hn hk1,
        if_neg (by omega), show k + 1 - 1 = k by omega]
    have hlf := lf_count s hs (k + 1) hk1 (by omega)
    rw [show k + 1 - 1 = k by omega] at hlf
    have haddr : radixAccumulate (radixGather (bwtOutput s))
          (chrRow (bwtOutput s) (rankOf s (k + 1))) +
        cntChr (bwtOutput s) (chrRow (bwtOutput s) (rankOf s (k + 1)))
          ((bwtOrigin s, 0) ::
            ((List.range (rankOf s (k + 1))).filter (fun j => decide (j ≠ bwtOrigin s))).map
              (fun j => (j, j + 1))) = rankOf s k := by
      rw [hchr, cntChr_P1, rankOf_split s k (by omega),
        g0_eq_count s _ (le_of_lt (s.getD k 0).isLt), hlf]
    rw [if_neg hkn, hmodk, ← haddr]
    exact place_fold_spec (bwtOutput s)
      ((bwtOrigin s, 0) ::
        ((List.range (rankOf s (k + 1))).filter (fun j => decide (j ≠ bwtOrigin s))).map
          (fun j => (j, j + 1)))
      P₂ (rankOf s (k + 1), rankOf s (k + 1) + 1)
      (radixAccumulate (radixGather (bwtOutput s))) (fun _ => 0) Hcap

theorem sa_getD_rank (s : List Sym) (p : Nat) (hp : p < s.length) :
    (computeSuffixes s).getD (rankOf s p) 0 = p := by
  obtain ⟨hr, hEl⟩ := rankOf_row s p hp
  rw [getD_eq_getElem_nat _ _ hr]
  exact hEl

theorem inverseTake_succ (L : List Sym) (T : Nat → Nat) (origin m cur : Nat) :
    inverseTake L T origin (m + 1) (some cur) =
      (L.getD ((if T cur = 0 then none else some (T cur - 1)).getD origin) 0) ::
        inverseTake L T origin m (if T cur = 0 then none else some (T cur - 1)) := rfl

set_option maxRecDepth 8000 in
theorem inverse_walk (s : List Sym) (hs : s ≠ []) (T : Nat → Nat)
    (hT : computeInversionTable (bwtOutput s) (bwtOrigin s) = some T) :
    ∀ m k, k < s.length → m + 1 = s.length - k →
      inverseTake (bwtOutput s) T (bwtOrigin s) (m + 1) (some (rankOf s k)) = s.drop k := by
  have hn : 0 < s.length := List.length_pos.mpr hs
  intro m
  induction m with
  | zero =>
    intro k hk hm
    rw [inverseTake_succ]
    have htv := table_spec s hs T hT k hk
    have hk1 : k + 1 = s.length := by omega
    have hkn : (k + 1) % s.length = 0 := by rw [hk1, Nat.mod_self]
    rw [if_pos hkn] at htv
    rw [htv]
    have hnone : (if (0 : Nat) = 0 then none else some (0 - 1)) = (none : Option Nat) := rfl
    rw [hnone]
    have hg : (none : Option Nat).getD (bwtOrigin s) = bwtOrigin s := rfl
    rw [hg]
    have hLor : (bwtOutput s).getD (bwtOrigin s) 0 = s.getD (s.length - 1) 0 := by
      have h := chrRow_origin s hs
      unfold chrRow at h
      exact Fin.val_inj.mp h
    rw [hLor, show k = s.length - 1 by omega, drop_last_singleton s hn]
    rfl
  | succ m ih =>
    intro k hk hm
    rw [inverseTake_succ]
    have htv := table_spec s hs T hT k hk
    have hk1 : k + 1 < s.length := by omega
    have hkn : (k + 1) % s.length ≠ 0 := by
      rw [Nat.mod_eq_of_lt hk1]
      omega
    rw [if_neg hkn, Nat.mod_eq_of_lt hk1] at htv
    rw [htv, if_neg (by omega)]
    rw [show rankOf s (k + 1) + 1 - 1 = rankOf s (k + 1) by omega]
    have hg : (some (rankOf s (k + 1))).getD (bwtOrigin s) = rankOf s (k + 1) := rfl
    rw [hg]
    have hi : rankOf s (k + 1) < s.length := rankOf_lt s (k + 1) hk1
    have hemit : (bwtOutput s).getD (rankOf s (k + 1)) 0 = s.getD k 0 := by
      rw [bwtOutput_getD s _ hi, sa_getD_rank s (k + 1) hk1,
        cyc_closed s.length (k + 1) hn hk1, if_neg (by omega), show k + 1 - 1 = k by omega]
    rw [hemit, ih (k + 1) hk1 (by omega), drop_cons_getD s k (by omega)]

set_option maxRecDepth 8000 in
/-- C2: on every non-empty input `s` of length `N`, the BWT forward transform
`encode_simple` returns a pair `(output, origin)` with `origin` in `0..N`, and
the inverse transform `decode_simple(output, origin)` returns exactly `s`. -/
theorem bwt_roundtrip (s : List Sym) (hs : s ≠ []) :
    (bwtEncodeSimple s).2 < s.length ∧
    bwtDecodeSimple (bwtEncodeSimple s).1 (bwtEncodeSimple s).2 = some s := by
  have hn : 0 < s.length := List.length_pos.mpr hs
  have horigL : bwtOrigin s < (bwtOutput s).length := by
    rw [bwtOutput_length]
    exact bwtOrigin_lt s hs
  constructor
  · exact bwtOrigin_lt s hs
  · show bwtDecodeSimple (bwtOutput s) (bwtOrigin s) = some s
    have hex : ∃ T, computeInversionTable (bwtOutput s) (bwtOrigin s) = some T := by
      unfold computeInversionTable
      rw [if_pos horigL]
      exact ⟨_, rfl⟩
    obtain ⟨T, hT⟩ := hex
    unfold bwtDecodeSimple
    rw [hT]
    show some (inverseTake (bwtOutput s) T (bwtOrigin s) (bwtOutput s).length
      (some (bwtOrigin s))) = some s
    have hwalk := inverse_walk s hs T hT (s.length - 1) 0 hn (by omega)
    rw [show s.length - 1 + 1 = s.length by omega, List.drop_zero] at hwalk
    rw [bwtOutput_length,
      show (some (bwtOrigin s) : Option Nat) = some (rankOf s 0) from
        congrArg some (bwtOrigin_eq_rank s hs),
      hwalk]

theorem findFromGo_ge (p : Nat → Bool) : ∀ (fuel i : Nat), i ≤ findFromGo p i fuel := by
  intro fuel
  induction fuel with
  | zero => intro i; exact le_refl i
  | succ fuel ih =>
    intro i
    unfold findFromGo
    split
    · exact le_refl i
    · exact le_trans (Nat.le_succ i) (ih (i + 1))

theorem findFromGo_le (p : Nat → Bool) : ∀ (fuel i : Nat), findFromGo p i fuel ≤ i + fuel := by
  intro fuel
  induction fuel with
  | zero => intro i; exact Nat.le_add_right i 0
  | succ fuel ih =>
    intro i
    unfold findFromGo
    split
    · omega
    · exact le_trans (ih (i + 1)) (by omega)

theorem findFromGo_before (p : Nat → Bool) :
    ∀ (fuel i j : Nat), i ≤ j → j < findFromGo p i fuel → ¬ p j = true := by
  intro fuel
  induction fuel with
  | zero =>
    intro i j h1 h2
    simp only [findFromGo] at h2
    omega
  | succ fuel ih =>
    intro i j h1 h2
    simp only [findFromGo] at h2
    split at h2
    · omega
    · rcases Nat.eq_or_lt_of_le h1 with rfl | hgt
      · rename_i h
        exact h
      · exact ih (i + 1) j hgt h2

theorem findFromGo_hit (p : Nat → Bool) :
    ∀ (fuel i : Nat), findFromGo p i fuel < i + fuel → p (findFromGo p i fuel) = true := by
  intro fuel
  induction fuel with
  | zero =>
    intro i h
    simp only [findFromGo] at h
    omega
  | succ fuel ih =>
    intro i h
    simp only [findFromGo] at h ⊢
    by_cases hp : p i = true
    · rw [if_pos hp] at h ⊢
      exact hp
    · rw [if_neg hp] at h ⊢
      exact ih (i + 1) (by omega)

theorem findFromGo_found (p : Nat → Bool) :
    ∀ (fuel i j : Nat), i ≤ j → j < i + fuel → p j = true → findFromGo p i fuel ≤ j := by
  intro fuel
  induction fuel with
  | zero => intro i j h1 h2 _; omega
  | succ fuel ih =>
    intro i j h1 h2 h3
    unfold findFromGo
    split
    · exact h1
    · rename_i hp
      rcases Nat.eq_or_lt_of_le h1 with rfl | hgt
      · exact absurd h3 hp
      · exact ih (i + 1) j hgt (by omega) h3

theorem nextOcc_ge (s : List Sym) (c : Sym) (i : Nat) : i ≤ nextOcc s c i :=
  findFromGo_ge _ _ i

theorem nextOcc_le (s : List Sym) (c : Sym) (i : Nat) (h : i ≤ s.length) :
    nextOcc s c i ≤ s.length :=
  le_trans (findFromGo_le _ _ i) (by omega)

theorem nextOcc_hit (s : List Sym) (c : Sym) (i : Nat) (hi : i ≤ s.length)
    (h : nextOcc s c i < s.length) : s.getD (nextOcc s c i) 0 = c := by
  have h2 := findFromGo_hit (fun j => decide (s.getD j 0 = c)) (s.length - i) i (by
    show nextOcc s c i < i + (s.length - i)
    omega)
  exact of_decide_eq_true h2

theorem nextOcc_before (s : List Sym) (c : Sym) (i j : Nat) (h1 : i ≤ j)
    (h2 : j < nextOcc s c i) : s.getD j 0 ≠ c := by
  have h3 := findFromGo_before (fun j => decide (s.getD j 0 = c)) (s.length - i) i j h1 h2
  intro hc
  exact h3 (decide_eq_true hc)

theorem nextOcc_found (s : List Sym) (c : Sym) (i j : Nat) (h1 : i ≤ j) (h2 : j < s.length)
    (h3 : s.getD j 0 = c) : nextOcc s c i ≤ j :=
  findFromGo_found _ (s.length - i) i j h1 (by omega) (decide_eq_true h3)

theorem nextOcc_self (s : List Sym) (c : Sym) (i : Nat) (h : i < s.length)
    (hc : s.getD i 0 = c) : nextOcc s c i = i :=
  le_antisymm (nextOcc_found s c i i (le_refl i) h hc) (nextOcc_ge s c i)

theorem nextOcc_at_len (s : List Sym) (c : Sym) : nextOcc s c s.length = s.length := by
  unfold nextOcc
  rw [Nat.sub_self]
  rfl

theorem nextOcc_stable (s : List Sym) (c : Sym) (i i' : Nat) (h1 : i ≤ i')
    (h2 : ∀ j, i ≤ j → j < i' → s.getD j 0 ≠ c) (h3 : i' ≤ s.length) :
    nextOcc s c i = nextOcc s c i' := by
  apply le_antisymm
  · rcases Nat.lt_or_ge (nextOcc s c i') s.length with h | h
    · exact nextOcc_found s c i _ (le_trans h1 (nextOcc_ge s c i')) h (nextOcc_hit s c i' h3 h)
    · have := nextOcc_le s c i (by omega)
      omega
  · rcases Nat.lt_or_ge (nextOcc s c i) s.length with h | h
    · have hhit := nextOcc_hit s c i (by omega) h
      have hge : i' ≤ nextOcc s c i := by
        by_contra hcon
        exact h2 _ (nextOcc_ge s c i) (by omega) hhit
      exact nextOcc_found s c i' _ hge h hhit
    · have := nextOcc_le s c i' h3
      omega

theorem nextNon_ge (s : List Sym) (c : Sym) (i : Nat) : i ≤ nextNon s c i :=
  findFromGo_ge _ _ i

theorem nextNon_le (s : List Sym) (c : Sym) (i : Nat) (h : i ≤ s.length) :
    nextNon s c i ≤ s.length :=
  le_trans (findFromGo_le _ _ i) (by omega)

theorem nextNon_hit (s : List Sym) (c : Sym) (i : Nat) (hi : i ≤ s.length)
    (h : nextNon s c i < s.length) : s.getD (nextNon s c i) 0 ≠ c := by
  have h2 := findFromGo_hit (fun j => decide (s.getD j 0 ≠ c)) (s.length - i) i (by
    show nextNon s c i < i + (s.length - i)
    omega)
  exact of_decide_eq_true h2

theorem nextNon_before (s : List Sym) (c : Sym) (i j : Nat) (h1 : i ≤ j)
    (h2 : j < nextNon s c i) : s.getD j 0 = c := by
  have h3 := findFromGo_before (fun j => decide (s.getD j 0 ≠ c)) (s.length - i) i j h1 h2
  by_contra hc
  exact h3 (decide_eq_true hc)

theorem nextNon_found (s : List Sym) (c : Sym) (i j : Nat) (h1 : i ≤ j) (h2 : j < s.length)
    (h3 : s.getD j 0 ≠ c) : nextNon s c i ≤ j :=
  findFromGo_found _ (s.length - i) i j h1 (by omega) (decide_eq_true h3)

theorem nextNon_gt (s : List Sym) (c : Sym) (i : Nat) (h : i < s.length)
    (hc : s.getD i 0 = c) : i < nextNon s c i := by
  rcases Nat.eq_or_lt_of_le (nextNon_ge s c i) with heq | hlt
  · exfalso
    exact nextNon_hit s c i (by omega) (by omega : nextNon s c i < s.length) (by rw [← heq]; exact hc)
  · exact hlt

theorem lastOccGo_lt_or (s : List Sym) (c : Sym) :
    ∀ i, lastOccGo s c i = s.length ∨
      (lastOccGo s c i < i ∧ s.getD (lastOccGo s c i) 0 = c) := by
  intro i
  induction i with
  | zero => exact Or.inl rfl
  | succ i ih =>
    unfold lastOccGo
    split
    · rename_i hc
      exact Or.inr ⟨Nat.lt_succ_self i, hc⟩
    · rcases ih with h | ⟨h1, h2⟩
      · exact Or.inl h
      · exact Or.inr ⟨by omega, h2⟩

theorem lastOccGo_after (s : List Sym) (c : Sym) :
    ∀ i j, lastOccGo s c i < j → j < i → s.getD j 0 ≠ c := by
  intro i
  induction i with
  | zero => intro j _ h2; omega
  | succ i ih =>
    intro j h1 h2
    simp only [lastOccGo] at h1
    split at h1
    · omega
    · rename_i hc
      rcases Nat.lt_succ_iff_lt_or_eq.mp h2 with h | rfl
      · exact ih j h1 h
      · exact hc

theorem lastOccGo_found (s : List Sym) (c : Sym) :
    ∀ i j, j < i → s.getD j 0 = c → lastOccGo s c i < i ∧ j ≤ lastOccGo s c i := by
  intro i
  induction i with
  | zero => intro j h1 _; omega
  | succ i ih =>
    intro j h1 h2
    unfold lastOccGo
    split
    · exact ⟨Nat.lt_succ_self i, by omega⟩
    · rename_i hc
      have hj : j < i := by
        rcases Nat.lt_succ_iff_lt_or_eq.mp h1 with h | rfl
        · exact h
        · exact absurd h2 hc
      obtain ⟨ha, hb⟩ := ih j hj h2
      exact ⟨by omega, hb⟩

theorem lastOcc_val (s : List Sym) (c : Sym) (h : lastOcc s c < s.length) :
    s.getD (lastOcc s c) 0 = c := by
  rcases lastOccGo_lt_or s c s.length with h1 | ⟨_, h2⟩
  · unfold lastOcc at h
    omega
  · exact h2

theorem lastOcc_after (s : List Sym) (c : Sym) (j : Nat) (h1 : lastOcc s c < j)
    (h2 : j < s.length) : s.getD j 0 ≠ c :=
  lastOccGo_after s c s.length j h1 h2

theorem lastOcc_found (s : List Sym) (c : Sym) (j : Nat) (h1 : j < s.length)
    (h2 : s.getD j 0 = c) : lastOcc s c < s.length ∧ j ≤ lastOcc s c :=
  lastOccGo_found s c s.length j h1 h2

theorem lastOcc_inj (s : List Sym) (c e : Sym) (hc : lastOcc s c < s.length)
    (he : lastOcc s e < s.length) (h : lastOcc s c = lastOcc s e) : c = e := by
  have h1 := lastOcc_val s c hc
  have h2 := lastOcc_val s e he
  rw [h] at h1
  rw [← h1, h2]

theorem nextOcc_eq_len_iff (s : List Sym) (c : Sym) (i : Nat) (hi : i ≤ s.length) :
    nextOcc s c i = s.length ↔ (lastOcc s c = s.length ∨ lastOcc s c < i) := by
  constructor
  · intro h
    by_contra hcon
    push_neg at hcon
    obtain ⟨h1, h2⟩ := hcon
    have hlt : lastOcc s c < s.length := by
      rcases lastOccGo_lt_or s c s.length with ha | ⟨ha, _⟩
      · exact absurd ha h1
      · exact ha
    have := nextOcc_found s c i (lastOcc s c) (by omega) hlt (lastOcc_val s c hlt)
    have hbefore := nextOcc_before s c i (lastOcc s c)
    omega
  · intro h
    apply le_antisymm (nextOcc_le s c i hi)
    by_contra hcon
    push_neg at hcon
    have hlt : nextOcc s c i < s.length := by omega
    have hhit := nextOcc_hit s c i hi hlt
    obtain ⟨ha, hb⟩ := lastOcc_found s c _ hlt hhit
    rcases h with h | h
    · omega
    · have := nextOcc_ge s c i
      omega

theorem countP_nodup_le_one {α : Type} (l : List α) (p : α → Bool) (hl : l.Nodup) (a : α)
    (h : ∀ x ∈ l, p x = true → x = a) : l.countP p ≤ 1 := by
  rw [List.countP_eq_length_filter]
  have hmemf : ∀ b ∈ l.filter p, b = a := by
    intro b hb
    rw [List.mem_filter] at hb
    exact h b hb.1 hb.2
  have hrep := List.eq_replicate_of_mem hmemf
  have hnd := hl.filter p
  rw [hrep] at hnd
  exact List.nodup_replicate.mp hnd

theorem countP_finRange_eq_one (c : Sym) :
    (List.finRange 256).countP (fun d => decide (d = c)) = 1 := by
  apply le_antisymm
  · exact countP_nodup_le_one _ _ (List.nodup_finRange 256) c (fun x _ hx => of_decide_eq_true hx)
  · exact List.countP_pos_iff.mpr ⟨c, List.mem_finRange c, decide_eq_true rfl⟩

theorem rankAsc_lt_of_last_lt (s : List Sym) (c e : Sym) (he : lastOcc s e < s.length)
    (h : lastOcc s c < lastOcc s e) : rankAsc s c < rankAsc s e := by
  unfold rankAsc
  have h1 : (List.finRange 256).countP
      (fun d => decide (lastOcc s d < lastOcc s c ∨ d = c)) =
      (List.finRange 256).countP (fun d => decide (lastOcc s d < lastOcc s c)) + 1 := by
    rw [countP_or_split (List.finRange 256)
      (fun d => decide (lastOcc s d < lastOcc s c)) (fun d => decide (d = c)) _
      (fun x _ => Bool.decide_or _ _)
      (fun x _ => by
        rintro ⟨ha, hb⟩
        rw [decide_eq_true_eq] at ha hb
        subst hb
        omega), countP_finRange_eq_one]
  have h2 : (List.finRange 256).countP
      (fun d => decide (lastOcc s d < lastOcc s c ∨ d = c)) ≤
      (List.finRange 256).countP (fun d => decide (lastOcc s d < lastOcc s e)) := by
    apply List.countP_mono_left
    intro x _ hx
    rw [decide_eq_true_eq] at hx ⊢
    rcases hx with hx | rfl
    · omega
    · exact h
  omega

theorem rankAsc_lt_alpha (s : List Sym) (c : Sym) (hc : lastOcc s c < s.length) :
    rankAsc s c < alphaCnt s := by
  unfold rankAsc alphaCnt
  have h1 : (List.finRange 256).countP
      (fun d => decide (lastOcc s d < lastOcc s c ∨ d = c)) =
      (List.finRange 256).countP (fun d => decide (lastOcc s d < lastOcc s c)) + 1 := by
    rw [countP_or_split (List.finRange 256)
      (fun d => decide (lastOcc s d < lastOcc s c)) (fun d => decide (d = c)) _
      (fun x _ => Bool.decide_or _ _)
      (fun x _ => by
        rintro ⟨ha, hb⟩
        rw [decide_eq_true_eq] at ha hb
        subst hb
        omega), countP_finRange_eq_one]
  have h2 : (List.finRange 256).countP
      (fun d => decide (lastOcc s d < lastOcc s c ∨ d = c)) ≤
      (List.finRange 256).countP (fun d => decide (lastOcc s d < s.length)) := by
    apply List.countP_mono_left
    intro x _ hx
    rw [decide_eq_true_eq] at hx ⊢
    rcases hx with hx | rfl
    · omega
    · exact hc
  omega

theorem alpha_pos (s : List Sym) (c : Sym) (hc : lastOcc s c < s.length) :
    0 < alphaCnt s :=
  List.countP_pos_iff.mpr ⟨c, List.mem_finRange c, decide_eq_true hc⟩

theorem vNext_ge (s : List Sym) (c : Sym) (i : Nat) (hi : i ≤ s.length) : i ≤ vNext s c i := by
  unfold vNext
  split
  · exact nextOcc_ge s c i
  · omega

theorem vNext_lt_len_iff (s : List Sym) (c : Sym) (i : Nat) :
    vNext s c i < s.length ↔ nextOcc s c i < s.length := by
  unfold vNext
  split
  · rename_i h
    exact iff_of_true h h
  · rename_i h
    constructor
    · intro hcon
      omega
    · intro hcon
      exact absurd hcon h

theorem vNext_hit (s : List Sym) (c : Sym) (i : Nat) (h : nextOcc s c i < s.length) :
    vNext s c i = nextOcc s c i := by
  unfold vNext
  rw [if_pos h]

theorem vNext_miss (s : List Sym) (c : Sym) (i : Nat) (h : ¬ nextOcc s c i < s.length) :
    vNext s c i = s.length + rankAsc s c := by
  unfold vNext
  rw [if_neg h]

theorem vNext_self (s : List Sym) (i : Nat) (hi : i < s.length) :
    vNext s (s.getD i 0) i = i := by
  have h := nextOcc_self s (s.getD i 0) i hi rfl
  rw [vNext_hit s _ i (by omega), h]

theorem vNext_inj (s : List Sym) (c e : Sym) (i : Nat) (hi : i ≤ s.length)
    (hc : lastOcc s c < s.length) (he : lastOcc s e < s.length) (hne : c ≠ e) :
    vNext s c i ≠ vNext s e i := by
  unfold vNext
  split <;> split <;> rename_i h1 h2
  · intro hcon
    apply hne
    have ha := nextOcc_hit s c i hi h1
    have hb := nextOcc_hit s e i hi h2
    rw [hcon] at ha
    rw [← ha, hb]
  · intro hcon
    omega
  · intro hcon
    omega
  · intro hcon
    have hr : rankAsc s c = rankAsc s e := by omega
    rcases Nat.lt_trichotomy (lastOcc s c) (lastOcc s e) with h | h | h
    · have := rankAsc_lt_of_last_lt s c e he h
      omega
    · exact hne (lastOcc_inj s c e hc he h)
    · have := rankAsc_lt_of_last_lt s e c hc h
      omega

theorem vNext_stable (s : List Sym) (c : Sym) (i i' : Nat) (h1 : i ≤ i')
    (h2 : ∀ j, i ≤ j → j < i' → s.getD j 0 ≠ c) (h3 : i' ≤ s.length) :
    vNext s c i = vNext s c i' := by
  unfold vNext
  rw [nextOcc_stable s c i i' h1 h2 h3]

theorem vNext_occ_lt (s : List Sym) (c : Sym) (i : Nat) (hc : lastOcc s c < s.length) :
    vNext s c i < s.length + alphaCnt s := by
  unfold vNext
  split
  · rename_i h
    have := alpha_pos s c hc
    omega
  · have := rankAsc_lt_alpha s c hc
    omega

theorem vNext_nonocc (s : List Sym) (c : Sym) (i : Nat) (h : ¬ lastOcc s c < s.length) :
    s.length + alphaCnt s ≤ vNext s c i := by
  have hle : lastOcc s c ≤ s.length := by
    unfold lastOcc
    rcases lastOccGo_lt_or s c s.length with h1 | ⟨h1, _⟩
    · omega
    · omega
  have hlen : lastOcc s c = s.length := by omega
  have hno : ¬ nextOcc s c i < s.length := by
    intro hcon
    have hi : i ≤ s.length := le_trans (nextOcc_ge s c i) (by omega)
    have hhit := nextOcc_hit s c i hi hcon
    obtain ⟨ha, _⟩ := lastOcc_found s c _ hcon hhit
    omega
  rw [vNext_miss s c i hno]
  have : rankAsc s c = alphaCnt s := by
    unfold rankAsc alphaCnt
    apply List.countP_congr
    intro d _
    rw [hlen]
  omega

theorem lastOcc_le (s : List Sym) (c : Sym) : lastOcc s c ≤ s.length := by
  unfold lastOcc
  rcases lastOccGo_lt_or s c s.length with h1 | ⟨h1, _⟩
  · omega
  · omega

theorem rankAsc_nonocc (s : List Sym) (c : Sym) (h : ¬ lastOcc s c < s.length) :
    rankAsc s c = alphaCnt s := by
  have hlen : lastOcc s c = s.length := by
    have := lastOcc_le s c
    omega
  unfold rankAsc alphaCnt
  apply List.countP_congr
  intro d _
  rw [hlen]

theorem exhausted_of_last_lt (s : List Sym) (c : Sym) (i : Nat) (hi : i ≤ s.length)
    (h : lastOcc s c < i) : ¬ nextOcc s c i < s.length := by
  intro hcon
  have hhit := nextOcc_hit s c i hi hcon
  obtain ⟨_, hb⟩ := lastOcc_found s c _ hcon hhit
  have := nextOcc_ge s c i
  omega

theorem distinctIn_le (s : List Sym) (a b : Nat) (hb : b ≤ s.length) (ha : a ≤ s.length) :
    distinctIn s a b ≤ b - a := by
  induction b with
  | zero =>
    unfold distinctIn
    have h0 : (List.finRange 256).countP (fun d => decide (nextOcc s d a < 0)) = 0 := by
      rw [List.countP_eq_zero]
      intro d _
      simp
    omega
  | succ b ih =>
    rcases Nat.lt_or_ge b a with hab | hab
    · unfold distinctIn
      have h0 : (List.finRange 256).countP (fun d => decide (nextOcc s d a < b + 1)) = 0 := by
        rw [List.countP_eq_zero]
        intro d _
        simp only [decide_eq_true_eq]
        have := nextOcc_ge s d a
        omega
      omega
    · have hsplit : distinctIn s a (b + 1) ≤ distinctIn s a b + 1 := by
        unfold distinctIn
        have heq : (List.finRange 256).countP (fun d => decide (nextOcc s d a < b + 1)) =
            (List.finRange 256).countP (fun d => decide (nextOcc s d a < b)) +
            (List.finRange 256).countP (fun d => decide (nextOcc s d a = b)) := by
          apply countP_or_split
          · intro x _
            rw [show decide (nextOcc s x a < b + 1) =
              decide (nextOcc s x a < b ∨ nextOcc s x a = b) from
              decide_eq_decide.mpr (by omega), Bool.decide_or]
          · rintro x _ ⟨h1, h2⟩
            rw [decide_eq_true_eq] at h1 h2
            omega
        have hone : (List.finRange 256).countP (fun d => decide (nextOcc s d a = b)) ≤ 1 := by
          apply countP_nodup_le_one _ _ (List.nodup_finRange 256) (s.getD b 0)
          intro x _ hx
          rw [decide_eq_true_eq] at hx
          have := nextOcc_hit s x a (by omega) (by omega)
          rw [hx] at this
          rw [← this]
        omega
      have := ih (by omega)
      omega

theorem smallerCnt_hit (s : List Sym) (c : Sym) (i : Nat) (hi : i ≤ s.length)
    (h : nextOcc s c i < s.length) :
    smallerCnt s c i = distinctIn s i (nextOcc s c i) := by
  unfold smallerCnt distinctIn
  apply List.countP_congr
  intro d _
  simp only [decide_eq_true_eq]
  rw [vNext_hit s c i h]
  constructor
  · intro hd
    have hdn : vNext s d i < s.length := by omega
    rw [vNext_hit s d i ((vNext_lt_len_iff s d i).mp hdn)] at hd
    exact hd
  · intro hd
    rw [vNext_hit s d i (by omega)]
    exact hd

theorem smallerCnt_miss (s : List Sym) (c : Sym) (i : Nat) (hi : i ≤ s.length)
    (hocc : lastOcc s c < s.length) (h : ¬ nextOcc s c i < s.length) :
    smallerCnt s c i = distinctIn s i s.length + rankAsc s c := by
  have hexh : lastOcc s c < i := by
    rcases (nextOcc_eq_len_iff s c i hi).mp (by
      have := nextOcc_le s c i hi
      omega) with h1 | h1
    · omega
    · exact h1
  unfold smallerCnt
  rw [vNext_miss s c i h]
  have hsplit : (List.finRange 256).countP
      (fun d => decide (vNext s d i < s.length + rankAsc s c)) =
      (List.finRange 256).countP (fun d => decide (nextOcc s d i < s.length)) +
      (List.finRange 256).countP
        (fun d => decide (¬ nextOcc s d i < s.length ∧ lastOcc s d < lastOcc s c)) := by
    apply countP_or_split
    · intro x _
      rw [← Bool.decide_or]
      apply decide_eq_decide.mpr
      constructor
      · intro hx
        by_cases hxo : nextOcc s x i < s.length
        · exact Or.inl hxo
        · refine Or.inr ⟨hxo, ?_⟩
          rw [vNext_miss s x i hxo] at hx
          have hrr : rankAsc s x < rankAsc s c := by omega
          by_cases hxl : lastOcc s x < s.length
          · rcases Nat.lt_trichotomy (lastOcc s x) (lastOcc s c) with h1 | h1 | h1
            · exact h1
            · exact absurd (congrArg (rankAsc s) (lastOcc_inj s x c hxl hocc h1)) (by omega)
            · have := rankAsc_lt_of_last_lt s c x hxl h1
              omega
          · rw [rankAsc_nonocc s x hxl] at hrr
            have := rankAsc_lt_alpha s c hocc
            omega
      · intro hx
        rcases hx with hx | ⟨hx1, hx2⟩
        · rw [vNext_hit s x i hx]
          omega
        · rw [vNext_miss s x i hx1]
          have hxl : lastOcc s x < s.length := by
            have := lastOcc_le s c
            omega
          have := rankAsc_lt_of_last_lt s x c hocc hx2
          omega
    · rintro x _ ⟨h1, h2⟩
      rw [decide_eq_true_eq] at h1 h2
      exact h2.1 h1
  rw [hsplit]
  have h2 : (List.finRange 256).countP
      (fun d => decide (¬ nextOcc s d i < s.length ∧ lastOcc s d < lastOcc s c)) =
      rankAsc s c := by
    unfold rankAsc
    apply List.countP_congr
    intro d _
    simp only [decide_eq_true_eq]
    constructor
    · intro hd
      exact hd.2
    · intro hd
      refine ⟨?_, hd⟩
      exact exhausted_of_last_lt s d i hi (by omega)
  rw [h2]
  rfl

theorem smallerCnt_add_le (s : List Sym) (c : Sym) (i : Nat) (hi : i ≤ s.length)
    (hocc : lastOcc s c < s.length) :
    i + smallerCnt s c i ≤ vNext s c i := by
  by_cases h : nextOcc s c i < s.length
  · rw [smallerCnt_hit s c i hi h, vNext_hit s c i h]
    have := distinctIn_le s i (nextOcc s c i) (by omega) hi
    have := nextOcc_ge s c i
    omega
  · rw [smallerCnt_miss s c i hi hocc h, vNext_miss s c i h]
    have := distinctIn_le s i s.length (le_refl _) hi
    omega

theorem range'_split (i a b : Nat) :
    List.range' i (a + b) = List.range' i a ++ List.range' (i + a) b := by
  induction a generalizing i with
  | zero => simp
  | succ a ih =>
    rw [show a + 1 + b = (a + b) + 1 from by omega, List.range'_succ, List.range'_succ, ih (i + 1),
      show i + 1 + a = i + (a + 1) from by omega]
    rfl

theorem runDistsGo_nil (s : List Sym) (f i : Nat) (h : s.length ≤ i) :
    runDistsGo s f i = [] := by
  cases f with
  | zero => rfl
  | succ f =>
    unfold runDistsGo
    rw [if_neg (by omega)]

theorem runDistsGo_fuel (s : List Sym) :
    ∀ (fuel fuel' i : Nat), s.length - i ≤ fuel → s.length - i ≤ fuel' →
      runDistsGo s fuel i = runDistsGo s fuel' i := by
  intro fuel
  induction fuel with
  | zero =>
    intro fuel' i h1 _
    rw [runDistsGo_nil s 0 i (by omega), runDistsGo_nil s fuel' i (by omega)]
  | succ fuel ih =>
    intro fuel' i h1 h2
    rcases Nat.lt_or_ge i s.length with hi | hi
    · cases fuel' with
      | zero => omega
      | succ fuel' =>
        unfold runDistsGo
        rw [if_pos hi, if_pos hi]
        have hgt := nextNon_gt s (s.getD i 0) i hi rfl
        congr 1
        exact ih fuel' (nextNon s (s.getD i 0) i) (by omega) (by omega)
    · rw [runDistsGo_nil s _ i hi, runDistsGo_nil s _ i hi]

theorem runDistsGo_cons (s : List Sym) (fuel i : Nat) (hi : i < s.length) :
    runDistsGo s (fuel + 1) i = (vNext s (s.getD i 0) (nextNon s (s.getD i 0) i) -
      nextNon s (s.getD i 0) i - smallerCnt s (s.getD i 0) (nextNon s (s.getD i 0) i)) ::
      runDistsGo s fuel (nextNon s (s.getD i 0) i) := by
  simp only [runDistsGo]
  rw [if_pos hi]

theorem runDists_cons (s : List Sym) (i : Nat) (hi : i < s.length) :
    runDists s i = (vNext s (s.getD i 0) (nextNon s (s.getD i 0) i) -
      nextNon s (s.getD i 0) i - smallerCnt s (s.getD i 0) (nextNon s (s.getD i 0) i)) ::
      runDists s (nextNon s (s.getD i 0) i) := by
  unfold runDists
  have hgt := nextNon_gt s (s.getD i 0) i hi rfl
  rw [show s.length - i = (s.length - i - 1) + 1 from by omega, runDistsGo_cons s _ i hi]
  congr 1
  exact runDistsGo_fuel s (s.length - i - 1) (s.length - nextNon s (s.getD i 0) i)
    (nextNon s (s.getD i 0) i) (by omega) (by omega)

theorem runDists_at_len (s : List Sym) (i : Nat) (h : s.length ≤ i) : runDists s i = [] := by
  unfold runDists
  exact runDistsGo_nil s _ i h

theorem runEntry_eq_slotFinal (s : List Sym) (i : Nat) (hi : i < s.length) :
    vNext s (s.getD i 0) (nextNon s (s.getD i 0) i) - nextNon s (s.getD i 0) i -
      smallerCnt s (s.getD i 0) (nextNon s (s.getD i 0) i) =
    slotFinal s (nextNon s (s.getD i 0) i - 1) := by
  have hgt : i < nextNon s (s.getD i 0) i := nextNon_gt s _ i hi rfl
  have hle : nextNon s (s.getD i 0) i ≤ s.length := nextNon_le s _ i (by omega)
  have hb : s.getD (nextNon s (s.getD i 0) i - 1) 0 = s.getD i 0 :=
    nextNon_before s _ i _ (by omega) (by omega)
  have hocc : lastOcc s (s.getD i 0) < s.length := (lastOcc_found s _ i hi rfl).1
  unfold slotFinal
  rw [hb, show nextNon s (s.getD i 0) i - 1 + 1 = nextNon s (s.getD i 0) i from by omega]
  by_cases hj : nextOcc s (s.getD i 0) (nextNon s (s.getD i 0) i) < s.length
  · rw [if_pos hj, smallerCnt_hit s _ _ hle hj, vNext_hit s _ _ hj]
    have hjge := nextOcc_ge s (s.getD i 0) (nextNon s (s.getD i 0) i)
    have hjne : nextNon s (s.getD i 0) i ≠ nextOcc s (s.getD i 0) (nextNon s (s.getD i 0) i) := by
      intro hcon
      have hhit := nextOcc_hit s (s.getD i 0) (nextNon s (s.getD i 0) i) hle hj
      have hnon := nextNon_hit s (s.getD i 0) i (by omega) (by omega)
      rw [← hcon] at hhit
      exact hnon hhit
    rw [if_pos (by omega)]
    omega
  · rw [if_neg hj, smallerCnt_miss s _ _ hle hocc hj, vNext_miss s _ _ hj]
    have hD := distinctIn_le s (nextNon s (s.getD i 0) i) s.length (le_refl _) hle
    omega

theorem slotFinal_mid (s : List Sym) (b : Nat) (hb1 : b + 1 < s.length)
    (hb2 : s.getD (b + 1) 0 = s.getD b 0) : slotFinal s b = s.length := by
  unfold slotFinal
  have hj : nextOcc s (s.getD b 0) (b + 1) = b + 1 := nextOcc_self s _ (b + 1) hb1 hb2
  rw [hj, if_pos hb1, if_neg (lt_irrefl _)]

theorem runEntry_lt (s : List Sym) (i : Nat) (hi : i < s.length) :
    vNext s (s.getD i 0) (nextNon s (s.getD i 0) i) - nextNon s (s.getD i 0) i -
      smallerCnt s (s.getD i 0) (nextNon s (s.getD i 0) i) < s.length := by
  have hgt : i < nextNon s (s.getD i 0) i := nextNon_gt s _ i hi rfl
  have hle : nextNon s (s.getD i 0) i ≤ s.length := nextNon_le s _ i (by omega)
  have hocc : lastOcc s (s.getD i 0) < s.length := (lastOcc_found s _ i hi rfl).1
  by_cases hj : nextOcc s (s.getD i 0) (nextNon s (s.getD i 0) i) < s.length
  · rw [vNext_hit s _ _ hj]
    omega
  · rw [vNext_miss s _ _ hj, smallerCnt_miss s _ _ hle hocc hj]
    omega

theorem slots_filter_go (s : List Sym) :
    ∀ (fuel m i : Nat), m ≤ fuel → i + m = s.length →
      ((List.range' i m).map (slotFinal s)).filter (fun d => decide (d ≠ s.length)) =
        runDists s i := by
  intro fuel
  induction fuel with
  | zero =>
    intro m i h1 h2
    have hm : m = 0 := by omega
    subst hm
    rw [runDists_at_len s i (by omega)]
    rfl
  | succ fuel ih =>
    intro m i h1 h2
    rcases Nat.eq_zero_or_pos m with rfl | hm
    · rw [runDists_at_len s i (by omega)]
      rfl
    · have hi : i < s.length := by omega
      have hgt : i < nextNon s (s.getD i 0) i := nextNon_gt s _ i hi rfl
      have hle : nextNon s (s.getD i 0) i ≤ s.length := nextNon_le s _ i (by omega)
      have hk : (nextNon s (s.getD i 0) i - i) + (m - (nextNon s (s.getD i 0) i - i)) = m := by
        omega
      rw [← hk, range'_split, List.map_append, List.filter_append]
      have hfirst : ((List.range' i (nextNon s (s.getD i 0) i - i)).map (slotFinal s)).filter
          (fun d => decide (d ≠ s.length)) =
          [slotFinal s (nextNon s (s.getD i 0) i - 1)] := by
        rw [show nextNon s (s.getD i 0) i - i = (nextNon s (s.getD i 0) i - i - 1) + 1 from
          by omega, range'_split, List.map_append, List.filter_append]
        have hmid : ((List.range' i (nextNon s (s.getD i 0) i - i - 1)).map
            (slotFinal s)).filter (fun d => decide (d ≠ s.length)) = [] := by
          rw [List.filter_eq_nil_iff]
          intro a ha
          rw [List.mem_map] at ha
          obtain ⟨b, hb, rfl⟩ := ha
          rw [List.mem_range'_1] at hb
          have hbrun : slotFinal s b = s.length := by
            apply slotFinal_mid s b (by omega)
            rw [nextNon_before s (s.getD i 0) i (b + 1) (by omega) (by omega),
              nextNon_before s (s.getD i 0) i b (by omega) (by omega)]
          simp [hbrun]
        rw [hmid, List.nil_append]
        have hlast : i + (nextNon s (s.getD i 0) i - i - 1) = nextNon s (s.getD i 0) i - 1 :=
          by omega
        rw [hlast]
        show ([slotFinal s (nextNon s (s.getD i 0) i - 1)]).filter
          (fun d => decide (d ≠ s.length)) = _
        rw [List.filter_cons, if_pos (by
          rw [← runEntry_eq_slotFinal s i hi]
          have := runEntry_lt s i hi
          simp only [decide_eq_true_eq]
          omega), List.filter_nil]
      rw [hfirst, runDists_cons s i hi, runEntry_eq_slotFinal s i hi]
      show _ :: _ = _ :: _
      congr 1
      have hstep : i + (nextNon s (s.getD i 0) i - i) = nextNon s (s.getD i 0) i := by omega
      rw [hstep]
      exact ih (m - (nextNon s (s.getD i 0) i - i)) (nextNon s (s.getD i 0) i) (by omega)
        (by omega)

theorem slots_filter (s : List Sym) :
    ((List.range s.length).map (slotFinal s)).filter (fun d => decide (d ≠ s.length)) =
      runDists s 0 := by
  rw [List.range_eq_range' s.length]
  exact slots_filter_go s s.length s.length 0 (le_refl _) (by omega)

theorem cnt_bound_sorted (next : Nat → Nat) (v : Nat) :
    ∀ (t : List Sym) (lo : Nat),
      t.Pairwise (fun a b => next a.val < next b.val) →
      (∀ y ∈ t, lo < next y.val) →
      lo + 1 + t.countP (fun y => decide (next y.val < v)) ≤ v ∨
        t.countP (fun y => decide (next y.val < v)) = 0 := by
  intro t
  induction t with
  | nil =>
    intro lo _ _
    right
    rfl
  | cons y t ih =>
    intro lo hp hlo
    rw [List.pairwise_cons] at hp
    rw [List.countP_cons]
    by_cases hy : next y.val < v
    · left
      rw [if_pos (decide_eq_true hy)]
      rcases ih (next y.val) hp.2 (fun z hz => hp.1 z hz) with h | h
      · have := hlo y (List.mem_cons_self y t)
        omega
      · rw [h]
        have := hlo y (List.mem_cons_self y t)
        omega
    · rw [if_neg (fun hc => hy (of_decide_eq_true hc))]
      have hz : t.countP (fun z => decide (next z.val < v)) = 0 := by
        rw [List.countP_eq_zero]
        intro z hz
        have := hp.1 z hz
        simp only [decide_eq_true_eq]
        omega
      rw [hz]
      right
      rfl

theorem dcReinsert_spec (next : Nat → Nat) (sym : Sym) (v future : Nat) :
    ∀ (rest : List Sym) (rank : Nat),
      1 ≤ rank →
      rest.Pairwise (fun a b => next a.val < next b.val) →
      (∀ x ∈ rest, next x.val ≠ v) →
      (∀ x ∈ rest, x ≠ sym) →
      future + (rank - 1) + rest.countP (fun x => decide (next x.val < v)) = v →
      ∃ L, dcReinsert next future sym rank rest = (L, v) ∧
        (∀ y, y ∈ L ↔ y = sym ∨ y ∈ rest) ∧
        L.Pairwise (fun a b =>
          (if a = sym then v else next a.val) < (if b = sym then v else next b.val)) := by
  intro rest
  induction rest with
  | nil =>
    intro rank h1 _ _ _ hsum
    rw [List.countP_nil] at hsum
    refine ⟨[sym], ?_, ?_, List.pairwise_singleton _ _⟩
    · show ([sym], future + rank - 1) = ([sym], v)
      rw [show future + rank - 1 = v from by omega]
    · intro y
      simp
  | cons x t ih =>
    intro rank h1 hp hne hnsym hsum
    rw [List.pairwise_cons] at hp
    rw [List.countP_cons] at hsum
    have hxnsym : x ≠ sym := hnsym x (List.mem_cons_self x t)
    by_cases hx : next x.val < v
    · rw [if_pos (decide_eq_true hx)] at hsum
      have hcond : next x.val < future + rank := by
        rcases cnt_bound_sorted next v t (next x.val) hp.2 (fun z hz => hp.1 z hz) with h | h
        · omega
        · rw [h] at hsum
          omega
      obtain ⟨L, hL, hmem, hpair⟩ := ih (rank + 1) (by omega) hp.2
        (fun z hz => hne z (List.mem_cons_of_mem x hz))
        (fun z hz => hnsym z (List.mem_cons_of_mem x hz)) (by omega)
      refine ⟨x :: L, ?_, ?_, ?_⟩
      · simp only [dcReinsert]
        rw [if_pos hcond, hL]
      · intro y
        rw [List.mem_cons, hmem y, List.mem_cons]
        tauto
      · rw [List.pairwise_cons]
        refine ⟨?_, hpair⟩
        intro y hy
        rcases (hmem y).mp hy with rfl | hyt
        · rw [if_neg hxnsym, if_pos rfl]
          exact hx
        · rw [if_neg hxnsym, if_neg (hnsym y (List.mem_cons_of_mem x hyt))]
          exact hp.1 y hyt
    · rw [if_neg (fun hc => hx (of_decide_eq_true hc))] at hsum
      have hxgt : v < next x.val := by
        have := hne x (List.mem_cons_self x t)
        omega
      have hcnt0 : t.countP (fun z => decide (next z.val < v)) = 0 := by
        rw [List.countP_eq_zero]
        intro z hz
        have := hp.1 z hz
        simp only [decide_eq_true_eq]
        omega
      rw [hcnt0] at hsum
      have hcond : ¬ (next x.val < future + rank) := by omega
      refine ⟨sym :: x :: t, ?_, ?_, ?_⟩
      · simp only [dcReinsert]
        rw [if_neg hcond, show future + rank - 1 = v from by omega]
      · intro y
        simp only [List.mem_cons]
      · rw [List.pairwise_cons]
        constructor
        · intro y hy
          rw [if_pos rfl]
          rcases List.mem_cons.mp hy with rfl | hyt
          · rw [if_neg hxnsym]
            exact hxgt
          · rw [if_neg (hnsym y (List.mem_cons_of_mem x hyt))]
            have := hp.1 y hyt
            omega
        · rw [List.pairwise_cons]
          constructor
          · intro y hyt
            rw [if_neg hxnsym, if_neg (hnsym y (List.mem_cons_of_mem x hyt))]
            exact hp.1 y hyt
          · apply List.Pairwise.imp_of_mem ?_ hp.2
            intro a b ha hb hr
            rw [if_neg (hnsym a (List.mem_cons_of_mem x ha)),
              if_neg (hnsym b (List.mem_cons_of_mem x hb))]
            exact hr

theorem drop_replicate (s : List Sym) (c : Sym) :
    ∀ (k i : Nat), i + k ≤ s.length → (∀ j, i ≤ j → j < i + k → s.getD j 0 = c) →
      s.drop i = List.replicate k c ++ s.drop (i + k) := by
  intro k
  induction k with
  | zero => intro i _ _; simp
  | succ k ih =>
    intro i hik hall
    have hi : i < s.length := by omega
    rw [drop_cons_getD s i hi, hall i (le_refl i) (by omega),
      ih (i + 1) (by omega) (fun j h1 h2 => hall j (by omega) (by omega)),
      List.replicate_succ, List.cons_append, show i + 1 + k = i + (k + 1) from by omega]

theorem dcMainGo_succ (n fuel : Nat) (live : List Sym) (next : Nat → Nat) (i : Nat)
    (dists : List Nat) (sym σ2 : Sym) (t2 : List Sym) (d : Nat) (ds : List Nat)
    (hlive : live = sym :: σ2 :: t2) (hdists : dists = d :: ds) :
    dcMainGo n (fuel + 1) live next i dists =
      if i < n then
        if next σ2.val ≤ n then
          if next σ2.val + d ≤ n then
            (dcMainGo n fuel (dcReinsert next (next σ2.val + d) sym 1 (σ2 :: t2)).1
              (fun c => if c = sym.val then
                  (dcReinsert next (next σ2.val + d) sym 1 (σ2 :: t2)).2
                else next c)
              (max (next σ2.val) i) ds).map
              (fun out => List.replicate (next σ2.val - i) sym ++ out)
          else none
        else none
      else if i = n ∧ (List.range 256).all
          (fun cv => ¬ (next cv < n ∨ n + live.length ≤ next cv)) then some [] else none := by
  subst hlive hdists
  rfl

theorem dcMainGo_at_end (n fuel : Nat) (live : List Sym) (next : Nat → Nat)
    (dists : List Nat) :
    dcMainGo n (fuel + 1) live next n dists =
      if n = n ∧ (List.range 256).all
          (fun cv => ¬ (next cv < n ∨ n + live.length ≤ next cv)) then some [] else none := by
  simp only [dcMainGo]
  rw [if_neg (lt_irrefl n)]

theorem dcMainGo_runs (s : List Sym) (hm : 2 ≤ alphaCnt s) :
    ∀ (fuel i : Nat) (live : List Sym) (next : Nat → Nat),
      i ≤ s.length →
      (∀ c : Sym, c ∈ live ↔ lastOcc s c < s.length) →
      live.Pairwise (fun a b => next a.val < next b.val) →
      (∀ c ∈ live, next c.val = vNext s c i) →
      (∀ c : Sym, c ∉ live → next c.val = s.length) →
      (runDists s i).length < fuel →
      dcMainGo s.length fuel live next i (runDists s i) = some (s.drop i) := by
  intro fuel
  induction fuel with
  | zero =>
    intro i live next _ _ _ _ _ hf
    omega
  | succ fuel ih =>
    intro i live next hi hmem hsort hval hdead hf
    have hnodup : live.Nodup := by
      apply List.Pairwise.imp ?_ hsort
      intro a b hab
      intro hcon
      subst hcon
      exact absurd hab (lt_irrefl _)
    have hlen : live.length = alphaCnt s := by
      have hperm : List.Perm live
          ((List.finRange 256).filter (fun d => decide (lastOcc s d < s.length))) := by
        rw [List.perm_ext_iff_of_nodup hnodup ((List.nodup_finRange 256).filter _)]
        intro a
        rw [List.mem_filter, hmem a]
        constructor
        · intro h
          exact ⟨List.mem_finRange a, decide_eq_true h⟩
        · rintro ⟨_, h⟩
          exact of_decide_eq_true h
      rw [hperm.length_eq, ← List.countP_eq_length_filter]
      rfl
    rcases Nat.lt_or_ge i s.length with hin | hin
    · -- step case: one run is emitted
      have hc_occ : lastOcc s (s.getD i 0) < s.length := (lastOcc_found s _ i hin rfl).1
      have hc_mem : s.getD i 0 ∈ live := (hmem _).mpr hc_occ
      obtain ⟨σ, tail, hlive⟩ : ∃ σ tail, live = σ :: tail := by
        cases live with
        | nil => exact absurd hc_mem (List.not_mem_nil _)
        | cons a t => exact ⟨a, t, rfl⟩
      subst hlive
      have hσ : σ = s.getD i 0 := by
        by_contra hne
        have hmem2 : s.getD i 0 ∈ tail := by
          rcases List.mem_cons.mp hc_mem with h | h
          · exact absurd h.symm hne
          · exact h
        have h1 := (List.pairwise_cons.mp hsort).1 _ hmem2
        rw [hval σ (List.mem_cons_self σ tail), hval _ hc_mem, vNext_self s i hin] at h1
        have h2 := vNext_ge s σ i hi
        omega
      subst hσ
      obtain ⟨σ2, t2, htail⟩ : ∃ σ2 t2, tail = σ2 :: t2 := by
        cases tail with
        | nil =>
          exfalso
          rw [List.length_cons, List.length_nil] at hlen
          omega
        | cons a t => exact ⟨a, t, rfl⟩
      subst htail
      have hσ2mem : σ2 ∈ s.getD i 0 :: σ2 :: t2 :=
        List.mem_cons_of_mem _ (List.mem_cons_self σ2 t2)
      have hσ2occ : lastOcc s σ2 < s.length := (hmem σ2).mp hσ2mem
      have hσ2ne : σ2 ≠ s.getD i 0 :=
        fun hcon => ((List.pairwise_cons.mp hnodup).1 σ2 (List.mem_cons_self σ2 t2)) hcon.symm
      have hstopv : next σ2.val = vNext s σ2 i := hval σ2 hσ2mem
      -- F1: the run strictly advances
      have hF1 : i < vNext s σ2 i := by
        rcases Nat.eq_or_lt_of_le (vNext_ge s σ2 i hi) with heq | hlt
        · exfalso
          have hvlt : vNext s σ2 i < s.length := by omega
          have hocc2 := (vNext_lt_len_iff s σ2 i).mp hvlt
          have := nextOcc_hit s σ2 i hi hocc2
          rw [vNext_hit s σ2 i hocc2] at heq
          rw [← heq] at this
          exact hσ2ne this.symm
        · exact hlt
      -- F2: stop bounded by the block length
      have hF2 : vNext s σ2 i ≤ s.length := by
        by_cases hocc2 : nextOcc s σ2 i < s.length
        · rw [vNext_hit s σ2 i hocc2]
          omega
        · rw [vNext_miss s σ2 i hocc2]
          have hr0 : rankAsc s σ2 = 0 := by
            by_contra hr
            obtain ⟨d, _, hd⟩ := List.countP_pos_iff.mp
              (show 0 < (List.finRange 256).countP
                (fun d => decide (lastOcc s d < lastOcc s σ2)) from by
                unfold rankAsc at hr
                omega)
            rw [decide_eq_true_eq] at hd
            have hdocc : lastOcc s d < s.length := by
              have := lastOcc_le s σ2
              omega
            have hexh2 : lastOcc s σ2 < i := by
              rcases (nextOcc_eq_len_iff s σ2 i hi).mp (by
                have := nextOcc_le s σ2 i hi
                omega) with h | h
              · omega
              · exact h
            have hdne : d ≠ s.getD i 0 := by
              intro hcon
              subst hcon
              have := (lastOcc_found s _ i hin rfl).2
              omega
            have hdmem : d ∈ σ2 :: t2 := by
              rcases List.mem_cons.mp ((hmem d).mpr hdocc) with h | h
              · exact absurd h hdne
              · exact h
            have hdexh : ¬ nextOcc s d i < s.length :=
              exhausted_of_last_lt s d i hi (by omega)
            have hvd : next d.val = s.length + rankAsc s d := by
              rw [hval d (List.mem_cons_of_mem _ hdmem), vNext_miss s d i hdexh]
            have hrlt := rankAsc_lt_of_last_lt s d σ2 hσ2occ hd
            rcases List.mem_cons.mp hdmem with rfl | hdt2
            · omega
            · have := (List.pairwise_cons.mp (List.pairwise_cons.mp hsort).2).1 d hdt2
              rw [hstopv, vNext_miss s σ2 i hocc2, hvd] at this
              omega
          omega
      -- F3: the filled region is constant
      have hF3 : ∀ j, i ≤ j → j < vNext s σ2 i → s.getD j 0 = s.getD i 0 := by
        intro j hj1 hj2
        by_contra hne
        have hjn : j < s.length := by omega
        have hdocc : lastOcc s (s.getD j 0) < s.length := (lastOcc_found s _ j hjn rfl).1
        have hdmem : s.getD j 0 ∈ σ2 :: t2 := by
          rcases List.mem_cons.mp ((hmem _).mpr hdocc) with h | h
          · exact absurd h hne
          · exact h
        have hvle : vNext s (s.getD j 0) i ≤ j := by
          have hno := nextOcc_found s (s.getD j 0) i j hj1 hjn rfl
          rw [vNext_hit s _ i (by omega)]
          exact hno
        rcases List.mem_cons.mp hdmem with heq | hdt2
        · rw [← heq] at hj2
          omega
        · have := (List.pairwise_cons.mp (List.pairwise_cons.mp hsort).2).1 _ hdt2
          rw [hstopv, hval _ (List.mem_cons_of_mem _ (List.mem_cons_of_mem _ hdt2))] at this
          omega
      -- F5: the run end is the stop position
      have hF5 : nextNon s (s.getD i 0) i = vNext s σ2 i := by
        apply le_antisymm
        · by_cases hvlt : vNext s σ2 i < s.length
          · apply nextNon_found s _ i _ (by omega) hvlt
            have hocc2 := (vNext_lt_len_iff s σ2 i).mp hvlt
            have hh := nextOcc_hit s σ2 i hi hocc2
            rw [← vNext_hit s σ2 i hocc2] at hh
            rw [hh]
            intro hcon
            exact hσ2ne hcon
          · have := nextNon_le s (s.getD i 0) i hi
            omega
        · by_contra hcon
          push_neg at hcon
          have hge := nextNon_ge s (s.getD i 0) i
          have hnn : nextNon s (s.getD i 0) i < s.length := by omega
          have := nextNon_hit s (s.getD i 0) i hi hnn
          exact this (hF3 _ hge (by omega))
      -- stability of tail symbols across the run
      have hstab : ∀ x ∈ σ2 :: t2, vNext s x i = vNext s x (vNext s σ2 i) := by
        intro x hx
        have hxne : x ≠ s.getD i 0 := by
          intro hcon
          exact (List.pairwise_cons.mp hnodup).1 x hx hcon.symm
        apply vNext_stable s x i _ (by omega) _ hF2
        intro j hj1 hj2
        rw [hF3 j hj1 hj2]
        intro hcon
        exact hxne hcon.symm
      -- the consumed distance and the reinsertion target
      have hvocc : lastOcc s (s.getD i 0) < s.length := hc_occ
      have hsm := smallerCnt_add_le s (s.getD i 0) (vNext s σ2 i) hF2 hvocc
      have hfut_le : vNext s (s.getD i 0) (vNext s σ2 i) -
          smallerCnt s (s.getD i 0) (vNext s σ2 i) ≤ s.length := by
        by_cases hj : nextOcc s (s.getD i 0) (vNext s σ2 i) < s.length
        · rw [vNext_hit s _ _ hj]
          omega
        · rw [vNext_miss s _ _ hj, smallerCnt_miss s _ _ hF2 hvocc hj]
          omega
      -- tail count equals smallerCnt
      have htc : (σ2 :: t2).countP (fun x => decide (next x.val <
          vNext s (s.getD i 0) (vNext s σ2 i))) =
          smallerCnt s (s.getD i 0) (vNext s σ2 i) := by
        have h1 : (σ2 :: t2).countP (fun x => decide (next x.val <
            vNext s (s.getD i 0) (vNext s σ2 i))) =
            (σ2 :: t2).countP (fun x => decide (vNext s x (vNext s σ2 i) <
              vNext s (s.getD i 0) (vNext s σ2 i))) := by
          apply List.countP_congr
          intro x hx
          rw [hval x (List.mem_cons_of_mem _ hx), hstab x hx]
        rw [h1]
        have htnodup : (σ2 :: t2).Nodup := (List.nodup_cons.mp hnodup).2
        have hperm : List.Perm (σ2 :: t2)
            ((List.finRange 256).filter (fun d => decide (d ∈ σ2 :: t2))) := by
          rw [List.perm_ext_iff_of_nodup htnodup ((List.nodup_finRange 256).filter _)]
          intro a
          rw [List.mem_filter]
          constructor
          · intro h
            exact ⟨List.mem_finRange a, decide_eq_true h⟩
          · rintro ⟨_, h⟩
            exact of_decide_eq_true h
        rw [hperm.countP_eq, List.countP_filter]
        unfold smallerCnt
        apply List.countP_congr
        intro d _
        constructor
        · intro hboth
          rw [Bool.and_eq_true] at hboth
          exact hboth.1
        · intro hp
          have hdP := of_decide_eq_true hp
          have hdocc : lastOcc s d < s.length := by
            by_contra hno
            have h2 := vNext_nonocc s d (vNext s σ2 i) hno
            have h3 := vNext_occ_lt s (s.getD i 0) (vNext s σ2 i) hvocc
            omega
          have hdne : d ≠ s.getD i 0 := by
            intro hcon
            subst hcon
            exact absurd hdP (lt_irrefl _)
          have hdmem : d ∈ σ2 :: t2 := by
            rcases List.mem_cons.mp ((hmem d).mpr hdocc) with h | h
            · exact absurd h hdne
            · exact h
          rw [Bool.and_eq_true]
          exact ⟨hp, decide_eq_true hdmem⟩
      -- apply the reinsertion lemma
      obtain ⟨L, hL, hLmem, hLpair⟩ := dcReinsert_spec next (s.getD i 0)
        (vNext s (s.getD i 0) (vNext s σ2 i))
        (vNext s (s.getD i 0) (vNext s σ2 i) - smallerCnt s (s.getD i 0) (vNext s σ2 i))
        (σ2 :: t2) 1 (le_refl 1) (List.pairwise_cons.mp hsort).2
        (by
          intro x hx
          rw [hval x (List.mem_cons_of_mem _ hx), hstab x hx]
          apply vNext_inj s x (s.getD i 0) (vNext s σ2 i) hF2
            ((hmem x).mp (List.mem_cons_of_mem _ hx)) hvocc
          intro hcon
          subst hcon
          exact (List.nodup_cons.mp hnodup).1 hx)
        (by
          intro x hx
          intro hcon
          subst hcon
          exact (List.nodup_cons.mp hnodup).1 hx)
        (by
          rw [htc]
          omega)
      -- unfold one decoder step
      rw [dcMainGo_succ s.length fuel _ next i _ (s.getD i 0) σ2 t2
        (vNext s (s.getD i 0) (vNext s σ2 i) - vNext s σ2 i -
          smallerCnt s (s.getD i 0) (vNext s σ2 i))
        (runDists s (vNext s σ2 i)) rfl
        (by rw [runDists_cons s i hin, hF5]),
        if_pos hin, hstopv, if_pos hF2]
      rw [if_pos (by omega)]
      have hfuture : vNext s σ2 i + (vNext s (s.getD i 0) (vNext s σ2 i) - vNext s σ2 i -
          smallerCnt s (s.getD i 0) (vNext s σ2 i)) =
          vNext s (s.getD i 0) (vNext s σ2 i) -
            smallerCnt s (s.getD i 0) (vNext s σ2 i) := by
        omega
      rw [hfuture, hL]
      -- the recursive call
      have hrec := ih (vNext s σ2 i) L
        (fun cv => if cv = (s.getD i 0).val then
          vNext s (s.getD i 0) (vNext s σ2 i) else next cv) hF2
        (by
          intro c
          rw [hLmem c]
          constructor
          · rintro (rfl | h)
            · exact hvocc
            · exact (hmem c).mp (List.mem_cons_of_mem _ h)
          · intro h
            rcases List.mem_cons.mp ((hmem c).mpr h) with h2 | h2
            · exact Or.inl h2
            · exact Or.inr h2)
        (by
          apply List.Pairwise.imp_of_mem ?_ hLpair
          intro a b ha hb hr
          show (if a.val = (s.getD i 0).val then vNext s (s.getD i 0) (vNext s σ2 i)
              else next a.val) <
            (if b.val = (s.getD i 0).val then vNext s (s.getD i 0) (vNext s σ2 i)
              else next b.val)
          have hfa : (if a = s.getD i 0 then vNext s (s.getD i 0) (vNext s σ2 i)
              else next a.val) =
              (if a.val = (s.getD i 0).val then vNext s (s.getD i 0) (vNext s σ2 i)
              else next a.val) := by
            by_cases hq : a = s.getD i 0
            · rw [if_pos hq, if_pos (by rw [hq])]
            · rw [if_neg hq, if_neg (fun hv => hq (Fin.val_inj.mp hv))]
          have hfb : (if b = s.getD i 0 then vNext s (s.getD i 0) (vNext s σ2 i)
              else next b.val) =
              (if b.val = (s.getD i 0).val then vNext s (s.getD i 0) (vNext s σ2 i)
              else next b.val) := by
            by_cases hq : b = s.getD i 0
            · rw [if_pos hq, if_pos (by rw [hq])]
            · rw [if_neg hq, if_neg (fun hv => hq (Fin.val_inj.mp hv))]
          rw [← hfa, ← hfb]
          exact hr)
        (by
          intro c hc
          show (if c.val = (s.getD i 0).val then vNext s (s.getD i 0) (vNext s σ2 i)
            else next c.val) = vNext s c (vNext s σ2 i)
          rcases (hLmem c).mp hc with rfl | hct
          · rw [if_pos rfl]
          · rw [if_neg (fun hv => (List.nodup_cons.mp hnodup).1
              (((Fin.val_inj.mp hv) : c = s.getD i 0) ▸ hct))]
            rw [hval c (List.mem_cons_of_mem _ hct), hstab c hct])
        (by
          intro c hc
          show (if c.val = (s.getD i 0).val then vNext s (s.getD i 0) (vNext s σ2 i)
            else next c.val) = s.length
          have hcnl : c ∉ s.getD i 0 :: σ2 :: t2 := by
            intro hcon
            apply hc
            rw [hLmem c]
            rcases List.mem_cons.mp hcon with h | h
            · exact Or.inl h
            · exact Or.inr h
          have hcne : c ≠ s.getD i 0 := by
            intro hcon
            exact hcnl (hcon ▸ List.mem_cons_self _ _)
          rw [if_neg (fun hv => hcne (Fin.val_inj.mp hv))]
          exact hdead c hcnl)
        (by
          rw [runDists_cons s i hin, hF5] at hf
          rw [List.length_cons] at hf
          omega)
      rw [Nat.max_eq_left (by omega), hrec]
      -- reassemble the output
      show some (List.replicate (vNext s σ2 i - i) (s.getD i 0) ++ s.drop (vNext s σ2 i)) =
        some (s.drop i)
      rw [show s.drop i = List.replicate (vNext s σ2 i - i) (s.getD i 0) ++
          s.drop (vNext s σ2 i) from by
        have := drop_replicate s (s.getD i 0) (vNext s σ2 i - i) i (by omega)
          (fun j h1 h2 => hF3 j h1 (by omega))
        rw [show i + (vNext s σ2 i - i) = vNext s σ2 i from by omega] at this
        exact this]
    · -- terminal case
      have hieq : i = s.length := by omega
      subst hieq
      rw [runDists_at_len s s.length (le_refl _), dcMainGo_at_end]
      have hcheck : (List.range 256).all
          (fun cv => ¬ (next cv < s.length ∨ s.length + live.length ≤ next cv)) = true := by
        rw [List.all_eq_true]
        intro cv hcv
        rw [List.mem_range] at hcv
        apply decide_eq_true
        have hcveq : (⟨cv, hcv⟩ : Sym).val = cv := rfl
        by_cases hc : (⟨cv, hcv⟩ : Sym) ∈ live
        · have h1 := hval _ hc
          rw [hcveq] at h1
          have hocc : lastOcc s (⟨cv, hcv⟩ : Sym) < s.length := (hmem _).mp hc
          have hno : ¬ nextOcc s (⟨cv, hcv⟩ : Sym) s.length < s.length := by
            rw [nextOcc_at_len]
            omega
          rw [vNext_miss s _ _ hno] at h1
          have := rankAsc_lt_alpha s _ hocc
          rw [← hlen] at this
          omega
        · have h1 := hdead _ hc
          rw [hcveq] at h1
          rw [h1]
          omega
      rw [if_pos ⟨rfl, hcheck⟩, List.drop_length]

theorem byteSym_val (c : Sym) : byteSym c.val = c := by
  unfold byteSym
  apply Fin.val_inj.mp
  show c.val % 256 = c.val
  exact Nat.mod_eq_of_lt c.isLt

theorem nextOcc_zero_lt_iff (s : List Sym) (c : Sym) :
    nextOcc s c 0 < s.length ↔ lastOcc s c < s.length := by
  constructor
  · intro h
    exact (lastOcc_found s c _ h (nextOcc_hit s c 0 (by omega) h)).1
  · intro h
    have hne : nextOcc s c 0 ≠ s.length := by
      intro hcon
      rcases (nextOcc_eq_len_iff s c 0 (by omega)).mp hcon with h1 | h1
      · omega
      · omega
    have := nextOcc_le s c 0 (by omega)
    omega

theorem nextOcc_zero_inj (s : List Sym) (c e : Sym) (hc : nextOcc s c 0 < s.length)
    (he : nextOcc s e 0 < s.length) (h : nextOcc s c 0 = nextOcc s e 0) : c = e := by
  have h1 := nextOcc_hit s c 0 (by omega) hc
  have h2 := nextOcc_hit s e 0 (by omega) he
  rw [h] at h1
  rw [← h1, h2]

theorem alpha_ge_two (s : List Sym) (c e : Sym) (hc : lastOcc s c < s.length)
    (he : lastOcc s e < s.length) (hne : c ≠ e) : 2 ≤ alphaCnt s := by
  unfold alphaCnt
  have h1 : (List.finRange 256).countP (fun d => decide (d = c ∨ d = e)) = 2 := by
    rw [countP_or_split (List.finRange 256) (fun d => decide (d = c)) (fun d => decide (d = e))
      _ (fun x _ => Bool.decide_or _ _)
      (fun x _ => by
        rintro ⟨h1, h2⟩
        rw [decide_eq_true_eq] at h1 h2
        exact hne (h1 ▸ h2 ▸ rfl)),
      countP_finRange_eq_one, countP_finRange_eq_one]
  have h2 : (List.finRange 256).countP (fun d => decide (d = c ∨ d = e)) ≤
      (List.finRange 256).countP (fun d => decide (lastOcc s d < s.length)) := by
    apply List.countP_mono_left
    intro x _ hx
    rw [decide_eq_true_eq] at hx ⊢
    rcases hx with rfl | rfl
    · exact hc
    · exact he
  omega

theorem dcInsertSorted_spec (next : Nat → Nat) (sym : Sym) :
    ∀ (acc : List Sym),
      acc.Pairwise (fun a b => next a.val < next b.val) →
      (∀ x ∈ acc, next x.val ≠ next sym.val) →
      (∀ y, y ∈ dcInsertSorted next (next sym.val) sym acc ↔ y = sym ∨ y ∈ acc) ∧
        (dcInsertSorted next (next sym.val) sym acc).Pairwise
          (fun a b => next a.val < next b.val) := by
  intro acc
  induction acc with
  | nil =>
    intro _ _
    constructor
    · intro y
      simp [dcInsertSorted]
    · exact List.pairwise_singleton _ _
  | cons x rest ih =>
    intro hp0 hne
    have hp := List.pairwise_cons.mp hp0
    simp only [dcInsertSorted]
    by_cases hx : next x.val ≤ next sym.val
    · rw [if_pos hx]
      have hxlt : next x.val < next sym.val :=
        lt_of_le_of_ne hx (hne x (List.mem_cons_self x rest))
      obtain ⟨hm, hs⟩ := ih hp.2 (fun z hz => hne z (List.mem_cons_of_mem x hz))
      constructor
      · intro y
        rw [List.mem_cons, hm y, List.mem_cons]
        tauto
      · rw [List.pairwise_cons]
        refine ⟨?_, hs⟩
        intro y hy
        rcases (hm y).mp hy with rfl | hyr
        · exact hxlt
        · exact hp.1 y hyr
    · rw [if_neg hx]
      push_neg at hx
      constructor
      · intro y
        simp only [List.mem_cons]
      · rw [List.pairwise_cons]
        refine ⟨?_, hp0⟩
        intro y hy
        rcases List.mem_cons.mp hy with rfl | hyr
        · exact hx
        · exact lt_trans hx (hp.1 y hyr)

theorem dcDecode_live0 (s : List Sym) (next0 : Nat → Nat)
    (hnext0 : ∀ c : Sym, next0 c.val = nextOcc s c 0) :
    ∀ (syms acc : List Sym),
      acc.Pairwise (fun a b => next0 a.val < next0 b.val) →
      (∀ y ∈ acc, lastOcc s y < s.length) →
      (∀ y ∈ acc, y ∉ syms) →
      syms.Nodup →
      (∀ y, y ∈ syms.foldl (fun acc c => if next0 c.val < s.length
          then dcInsertSorted next0 (next0 c.val) c acc else acc) acc ↔
        y ∈ acc ∨ (y ∈ syms ∧ lastOcc s y < s.length)) ∧
      (syms.foldl (fun acc c => if next0 c.val < s.length
          then dcInsertSorted next0 (next0 c.val) c acc else acc) acc).Pairwise
        (fun a b => next0 a.val < next0 b.val) := by
  intro syms
  induction syms with
  | nil =>
    intro acc hsort hocc _ _
    constructor
    · intro y
      simp
    · exact hsort
  | cons c rest ih =>
    intro acc hsort hocc hdisj hnd
    have hndr := List.nodup_cons.mp hnd
    rw [List.foldl_cons]
    by_cases hc : next0 c.val < s.length
    · rw [if_pos hc]
      have hcocc : lastOcc s c < s.length := by
        rw [hnext0 c] at hc
        exact (nextOcc_zero_lt_iff s c).mp hc
      have hne : ∀ x ∈ acc, next0 x.val ≠ next0 c.val := by
        intro x hx hcon
        rw [hnext0 x, hnext0 c] at hcon
        have hxocc := hocc x hx
        have := nextOcc_zero_inj s x c
          ((nextOcc_zero_lt_iff s x).mpr hxocc) (by rw [hnext0 c] at hc; exact hc) hcon
        subst this
        exact hdisj x hx (List.mem_cons_self x rest)
      obtain ⟨hm, hs⟩ := dcInsertSorted_spec next0 c acc hsort hne
      obtain ⟨hm2, hs2⟩ := ih (dcInsertSorted next0 (next0 c.val) c acc) hs
        (by
          intro y hy
          rcases (hm y).mp hy with rfl | hya
          · exact hcocc
          · exact hocc y hya)
        (by
          intro y hy
          rcases (hm y).mp hy with rfl | hya
          · exact hndr.1
          · exact fun hcon => hdisj y hya (List.mem_cons_of_mem c hcon))
        hndr.2
      refine ⟨?_, hs2⟩
      intro y
      rw [hm2 y, hm y, List.mem_cons]
      constructor
      · rintro ((rfl | h) | ⟨h1, h2⟩)
        · exact Or.inr ⟨Or.inl rfl, hcocc⟩
        · exact Or.inl h
        · exact Or.inr ⟨Or.inr h1, h2⟩
      · rintro (h | ⟨(rfl | h1), h2⟩)
        · exact Or.inl (Or.inr h)
        · exact Or.inl (Or.inl rfl)
        · exact Or.inr ⟨h1, h2⟩
    · rw [if_neg hc]
      have hcnocc : ¬ lastOcc s c < s.length := by
        intro hcon
        rw [hnext0 c] at hc
        exact hc ((nextOcc_zero_lt_iff s c).mpr hcon)
      obtain ⟨hm2, hs2⟩ := ih acc hsort hocc
        (fun y hy => fun hcon => hdisj y hy (List.mem_cons_of_mem c hcon)) hndr.2
      refine ⟨?_, hs2⟩
      intro y
      rw [hm2 y, List.mem_cons]
      constructor
      · rintro (h | ⟨h1, h2⟩)
        · exact Or.inl h
        · exact Or.inr ⟨Or.inr h1, h2⟩
      · rintro (h | ⟨(rfl | h1), h2⟩)
        · exact Or.inl h
        · exact absurd h2 hcnocc
        · exact Or.inr ⟨h1, h2⟩

theorem dcDecode_eq (next0 : Nat → Nat) (n : Nat) (dists : List Nat) :
    dcDecode next0 n dists =
      if (dcLive0 next0 n).length ≤ 1 then some (List.replicate n ((dcLive0 next0 n).headD 0))
      else dcMainGo n (dists.length + 1) (dcLive0 next0 n) next0 0 dists := rfl

theorem dcLive0_spec (s : List Sym) (next0 : Nat → Nat)
    (hnext0 : ∀ c : Sym, next0 c.val = nextOcc s c 0) :
    (∀ y, y ∈ dcLive0 next0 s.length ↔ lastOcc s y < s.length) ∧
      (dcLive0 next0 s.length).Pairwise (fun a b => next0 a.val < next0 b.val) ∧
      (dcLive0 next0 s.length).length = alphaCnt s := by
  obtain ⟨hm0, hs0⟩ := dcDecode_live0 s next0 hnext0 (List.finRange 256) []
    List.Pairwise.nil (fun y h => absurd h (List.not_mem_nil y))
    (fun y h => absurd h (List.not_mem_nil y)) (List.nodup_finRange 256)
  have hfold : dcLive0 next0 s.length = (List.finRange 256).foldl
      (fun acc c => if next0 c.val < s.length
        then dcInsertSorted next0 (next0 c.val) c acc else acc) [] := rfl
  rw [← hfold] at hm0 hs0
  have hmem : ∀ y, y ∈ dcLive0 next0 s.length ↔ lastOcc s y < s.length := by
    intro y
    rw [hm0 y]
    constructor
    · rintro (h | ⟨_, h⟩)
      · exact absurd h (List.not_mem_nil y)
      · exact h
    · intro h
      exact Or.inr ⟨List.mem_finRange y, h⟩
  refine ⟨hmem, hs0, ?_⟩
  have hnd : (dcLive0 next0 s.length).Nodup := by
    refine hs0.imp ?_
    intro a b h hcon
    rw [hcon] at h
    omega
  have hperm : (dcLive0 next0 s.length).Perm
      ((List.finRange 256).filter (fun d => decide (lastOcc s d < s.length))) := by
    rw [List.perm_ext_iff_of_nodup hnd ((List.nodup_finRange 256).filter _)]
    intro a
    rw [hmem a, List.mem_filter]
    constructor
    · intro h
      exact ⟨List.mem_finRange a, by rw [decide_eq_true_eq]; exact h⟩
    · intro h
      rw [decide_eq_true_eq] at h
      exact h.2
  rw [hperm.length_eq, ← List.countP_eq_length_filter]
  rfl

theorem dcDecode_runs (s : List Sym) (hm : 2 ≤ alphaCnt s) (next0 : Nat → Nat)
    (hnext0 : ∀ c : Sym, next0 c.val = nextOcc s c 0) :
    dcDecode next0 s.length (runDists s 0) = some s := by
  obtain ⟨hmem, hsort, hlen⟩ := dcLive0_spec s next0 hnext0
  rw [dcDecode_eq, if_neg (by omega)]
  have hval : ∀ c ∈ dcLive0 next0 s.length, next0 c.val = vNext s c 0 := by
    intro c hc
    rw [hnext0 c]
    unfold vNext
    rw [if_pos ((nextOcc_zero_lt_iff s c).mpr ((hmem c).mp hc))]
  have hdead : ∀ c : Sym, c ∉ dcLive0 next0 s.length → next0 c.val = s.length := by
    intro c hc
    rw [hnext0 c]
    have h1 : ¬ nextOcc s c 0 < s.length := by
      intro hcon
      exact hc ((hmem c).mpr ((nextOcc_zero_lt_iff s c).mp hcon))
    have h2 := nextOcc_le s c 0 (by omega)
    omega
  have := dcMainGo_runs s hm ((runDists s 0).length + 1) 0 (dcLive0 next0 s.length) next0
    (by omega) hmem hsort hval hdead (by omega)
  rw [List.drop_zero] at this
  exact this

theorem dcDecode_small (s : List Sym) (hm : alphaCnt s ≤ 1) (next0 : Nat → Nat)
    (hnext0 : ∀ c : Sym, next0 c.val = nextOcc s c 0) :
    dcDecode next0 s.length (runDists s 0) = some s := by
  obtain ⟨hmem, _, hlen⟩ := dcLive0_spec s next0 hnext0
  rw [dcDecode_eq, if_pos (by omega)]
  rcases Nat.eq_zero_or_pos s.length with h0 | h0
  · rw [h0, List.length_eq_zero.mp h0, List.replicate_zero]
  · have hc0 : lastOcc s (s.getD 0 0) < s.length := (lastOcc_found s _ 0 h0 rfl).1
    have hc0mem : s.getD 0 0 ∈ dcLive0 next0 s.length := (hmem _).mpr hc0
    have hlen1 : (dcLive0 next0 s.length).length = 1 := by
      have : 0 < (dcLive0 next0 s.length).length := List.length_pos.mpr (by
        intro hcon
        rw [hcon] at hc0mem
        exact List.not_mem_nil _ hc0mem)
      omega
    obtain ⟨a, ha⟩ := List.length_eq_one.mp hlen1
    rw [ha] at hc0mem
    have hac0 : a = s.getD 0 0 := ((List.mem_singleton.mp hc0mem).symm)
    rw [ha, hac0]
    have hrep : ∀ b ∈ s, b = s.getD 0 0 := by
      intro b hb
      by_contra hne
      obtain ⟨j, hj, hjb⟩ := List.getElem_of_mem hb
      have hbocc : lastOcc s b < s.length := by
        refine (lastOcc_found s b j hj ?_).1
        rw [List.getD_eq_getElem s 0 hj, hjb]
      have := alpha_ge_two s (s.getD 0 0) b hc0 hbocc (fun h => hne h.symm)
      omega
    have := List.eq_replicate_of_mem hrep
    exact congrArg some this.symm

theorem recency_mem (s : List Sym) :
    ∀ i, i ≤ s.length → ∀ c : Sym, (c ∈ recency s i ↔ lastOccGo s c i < i) := by
  intro i
  induction i with
  | zero =>
    intro _ c
    constructor
    · intro h
      exact absurd h (List.not_mem_nil c)
    · intro h
      omega
  | succ i ih =>
    intro hi c
    have hstep : lastOccGo s c (i + 1) = if s.getD i 0 = c then i else lastOccGo s c i := rfl
    by_cases hc : s.getD i 0 = c
    · rw [hstep, if_pos hc]
      simp only [recency]
      constructor
      · intro _
        omega
      · intro _
        rw [hc]
        exact List.mem_cons_self c _
    · rw [hstep, if_neg hc]
      simp only [recency, List.mem_cons]
      have hne : c ≠ s.getD i 0 := fun h => hc h.symm
      rw [List.mem_erase_of_ne hne, ih (by omega) c]
      constructor
      · rintro (h | h)
        · exact absurd h.symm hc
        · omega
      · intro h
        rcases lastOccGo_lt_or s c i with he | ⟨h1, _⟩
        · exact absurd h (by omega)
        · exact Or.inr h1

theorem recency_nodup (s : List Sym) : ∀ i, (recency s i).Nodup := by
  intro i
  induction i with
  | zero => exact List.nodup_nil
  | succ i ih =>
    simp only [recency]
    rw [List.nodup_cons]
    exact ⟨fun h => (ih.mem_erase_iff.mp h).1 rfl, ih.erase _⟩

theorem recency_sorted (s : List Sym) :
    ∀ i, i ≤ s.length →
      (recency s i).Pairwise (fun a b => lastOccGo s b i < lastOccGo s a i) := by
  intro i
  induction i with
  | zero =>
    intro _
    exact List.Pairwise.nil
  | succ i ih =>
    intro hi
    simp only [recency]
    rw [List.pairwise_cons]
    constructor
    · intro y hy
      have hym := (recency_nodup s i).mem_erase_iff.mp hy
      have hy2 := (recency_mem s i (by omega) y).mp hym.2
      have h1 : lastOccGo s y (i + 1) = lastOccGo s y i := by
        show (if s.getD i 0 = y then i else lastOccGo s y i) = _
        rw [if_neg (fun h => hym.1 h.symm)]
      have h2 : lastOccGo s (s.getD i 0) (i + 1) = i := by
        show (if s.getD i 0 = s.getD i 0 then i else lastOccGo s (s.getD i 0) i) = i
        rw [if_pos rfl]
      rw [h1, h2]
      omega
    · have hp := (ih (by omega)).sublist (List.erase_sublist (s.getD i 0) (recency s i))
      refine hp.imp_of_mem ?_
      intro a b ha hb hr
      have hane := ((recency_nodup s i).mem_erase_iff.mp ha).1
      have hbne := ((recency_nodup s i).mem_erase_iff.mp hb).1
      have h1 : lastOccGo s a (i + 1) = lastOccGo s a i := by
        show (if s.getD i 0 = a then i else lastOccGo s a i) = _
        rw [if_neg (fun h => hane h.symm)]
      have h2 : lastOccGo s b (i + 1) = lastOccGo s b i := by
        show (if s.getD i 0 = b then i else lastOccGo s b i) = _
        rw [if_neg (fun h => hbne h.symm)]
      rw [h1, h2]
      exact hr

theorem mtfPull_rank (key : Sym → Nat) (c : Sym) :
    ∀ l : List Sym, l.Pairwise (fun a b => key b < key a) → c ∈ l →
      mtfPull c l = some (l.countP (fun d => decide (key c < key d)), l.erase c) := by
  intro l
  induction l with
  | nil =>
    intro _ h
    exact absurd h (List.not_mem_nil c)
  | cons x rest ih =>
    intro hp0 hc
    have hp := List.pairwise_cons.mp hp0
    by_cases hx : x = c
    · subst hx
      simp only [mtfPull, if_pos rfl]
      rw [List.erase_cons_head]
      have hr : (x :: rest).countP (fun d => decide (key x < key d)) = 0 := by
        rw [List.countP_eq_zero]
        intro d hd
        rcases List.mem_cons.mp hd with rfl | hdr
        · simp
        · have := hp.1 d hdr
          simp only [decide_eq_true_eq]
          omega
      rw [hr]
      simp
    · have hcx : ¬ c = x := fun h => hx h.symm
      have hcr : c ∈ rest := (List.mem_cons.mp hc).resolve_left hcx
      have hkx : key c < key x := hp.1 c hcr
      rw [show mtfPull c (x :: rest) = (mtfPull c rest).map (fun r => (r.1 + 1, x :: r.2))
        from by simp only [mtfPull, if_neg hx], ih hp.2 hcr,
        List.erase_cons_tail (by simpa using hx)]
      have hcnt : (x :: rest).countP (fun d => decide (key c < key d)) =
          rest.countP (fun d => decide (key c < key d)) + 1 := by
        rw [List.countP_cons]
        simp only [decide_eq_true_eq, if_pos hkx]
      rw [hcnt]
      rfl

theorem mtfPull_append (c : Sym) :
    ∀ (l₁ l₂ : List Sym) (r : Nat × List Sym), mtfPull c l₁ = some r →
      mtfPull c (l₁ ++ l₂) = some (r.1, r.2 ++ l₂) := by
  intro l₁
  induction l₁ with
  | nil =>
    intro l₂ r h
    exact absurd h (by simp [mtfPull])
  | cons x rest ih =>
    intro l₂ r h
    by_cases hx : x = c
    · simp only [mtfPull, if_pos hx] at h
      rw [show ((x :: rest) ++ l₂ : List Sym) = x :: (rest ++ l₂) from rfl]
      simp only [mtfPull, if_pos hx]
      rw [← Option.some_inj.mp h]
    · simp only [mtfPull, if_neg hx] at h
      rcases Option.map_eq_some'.mp h with ⟨r', hr', hre⟩
      rw [show ((x :: rest) ++ l₂ : List Sym) = x :: (rest ++ l₂) from rfl]
      simp only [mtfPull, if_neg hx]
      rw [ih l₂ r' hr', ← hre]
      rfl

theorem mtfPull_not_mem (c : Sym) :
    ∀ (l₁ l₂ : List Sym), c ∉ l₁ →
      mtfPull c (l₁ ++ l₂) =
        (mtfPull c l₂).map (fun r => (r.1 + l₁.length, l₁ ++ r.2)) := by
  intro l₁
  induction l₁ with
  | nil =>
    intro l₂ _
    show mtfPull c l₂ = _
    cases h : mtfPull c l₂
    · rfl
    · rfl
  | cons x rest ih =>
    intro l₂ hc
    have hxc : x ≠ c := fun h => hc (h ▸ List.mem_cons_self x rest)
    have hcrest : c ∉ rest := fun h => hc (List.mem_cons_of_mem x h)
    rw [show ((x :: rest) ++ l₂ : List Sym) = x :: (rest ++ l₂) from rfl]
    simp only [mtfPull, if_neg hxc]
    rw [ih l₂ hcrest]
    cases h : mtfPull c l₂
    · rfl
    · rename_i a
      show some ((a.1 + rest.length) + 1, x :: (rest ++ a.2)) =
        some (a.1 + (rest.length + 1), (x :: rest) ++ a.2)
      rw [Nat.add_assoc]
      rfl

theorem set_append_length {α : Type} (a : α) :
    ∀ (l₁ l₂ : List α), (l₁ ++ l₂).set l₁.length a = l₁ ++ l₂.set 0 a := by
  intro l₁
  induction l₁ with
  | nil =>
    intro l₂
    rfl
  | cons x rest ih =>
    intro l₂
    show x :: ((rest ++ l₂).set rest.length a) = x :: (rest ++ l₂.set 0 a)
    rw [ih l₂]

theorem occWindow_iff (s : List Sym) (base i : Nat) (hbase : base < i) (hi : i ≤ s.length)
    (d : Sym) :
    (lastOccGo s d i < i ∧ base < lastOccGo s d i) ↔ nextOcc s d (base + 1) < i := by
  constructor
  · rintro ⟨h1, h2⟩
    rcases lastOccGo_lt_or s d i with he | ⟨_, hv⟩
    · omega
    · have := nextOcc_found s d (base + 1) (lastOccGo s d i) (by omega) (by omega) hv
      omega
  · intro h
    have hj : s.getD (nextOcc s d (base + 1)) 0 = d :=
      nextOcc_hit s d (base + 1) (by omega) (by omega)
    have hge := nextOcc_ge s d (base + 1)
    obtain ⟨ha, hb⟩ := lastOccGo_found s d i (nextOcc s d (base + 1)) (by omega) hj
    exact ⟨ha, by omega⟩

theorem recency_rank (s : List Sym) (i : Nat) (hi : i ≤ s.length) (c : Sym)
    (hbase : lastOccGo s c i < i) :
    (recency s i).countP (fun d => decide (lastOccGo s c i < lastOccGo s d i)) =
      distinctIn s (lastOccGo s c i + 1) i := by
  have hperm : (recency s i).Perm
      ((List.finRange 256).filter (fun d => decide (lastOccGo s d i < i))) := by
    rw [List.perm_ext_iff_of_nodup (recency_nodup s i) ((List.nodup_finRange 256).filter _)]
    intro a
    rw [recency_mem s i hi a, List.mem_filter]
    constructor
    · intro h
      exact ⟨List.mem_finRange a, decide_eq_true h⟩
    · intro h
      exact of_decide_eq_true h.2
  rw [hperm.countP_eq, List.countP_filter]
  unfold distinctIn
  apply List.countP_congr
  intro x _
  simp only [Bool.and_eq_true, decide_eq_true_eq]
  constructor
  · rintro ⟨h1, h2⟩
    exact (occWindow_iff s (lastOccGo s c i) i hbase hi x).mp ⟨h2, h1⟩
  · intro h
    obtain ⟨h1, h2⟩ := (occWindow_iff s (lastOccGo s c i) i hbase hi x).mpr h
    exact ⟨h2, h1⟩

theorem distinctIn_pos (s : List Sym) (base i : Nat) (hbase : base < i) (hi : i ≤ s.length) :
    0 < distinctIn s (base + 1) i ↔ base + 1 < i := by
  constructor
  · intro h
    unfold distinctIn at h
    obtain ⟨d, _, hd⟩ := List.countP_pos_iff.mp h
    rw [decide_eq_true_eq] at hd
    have := nextOcc_ge s d (base + 1)
    omega
  · intro h
    unfold distinctIn
    apply List.countP_pos_iff.mpr
    refine ⟨s.getD (base + 1) 0, List.mem_finRange _, ?_⟩
    rw [decide_eq_true_eq, nextOcc_self s _ (base + 1) (by omega) rfl]
    omega

theorem initPos_succ (s : List Sym) (c : Sym) (i : Nat) (hne : nextOcc s c 0 ≠ i) :
    initPos s c (i + 1) = initPos s c i := by
  unfold initPos
  by_cases h1 : nextOcc s c 0 < i
  · rw [if_pos (by omega), if_pos h1]
  · rw [if_neg (by omega), if_neg h1]

theorem slotScan_succ (s : List Sym) (i b : Nat) (hi : i < s.length) (hb : b < s.length) :
    slotScan s (i + 1) b =
      if b = lastOccGo s (s.getD i 0) i ∧ b + 1 < i then
        i - b - 1 - distinctIn s (b + 1) i
      else slotScan s i b := by
  by_cases hj : nextOcc s (s.getD b 0) (b + 1) = i
  · have hbi : b < i := by
      have := nextOcc_ge s (s.getD b 0) (b + 1)
      omega
    have hcs : s.getD i 0 = s.getD b 0 := by
      have := nextOcc_hit s (s.getD b 0) (b + 1) (by omega) (by omega)
      rw [hj] at this
      exact this
    have hbase : lastOccGo s (s.getD i 0) i = b := by
      obtain ⟨h1, h2⟩ := lastOccGo_found s (s.getD i 0) i b hbi (by rw [hcs])
      rcases Nat.eq_or_lt_of_le h2 with he | hlt
      · exact he.symm
      · exfalso
        rcases lastOccGo_lt_or s (s.getD i 0) i with he2 | ⟨_, hv⟩
        · omega
        · have := nextOcc_found s (s.getD b 0) (b + 1) (lastOccGo s (s.getD i 0) i)
            (by omega) (by omega) (by rw [hv, hcs])
          omega
    by_cases hb1 : b + 1 < i
    · rw [if_pos ⟨hbase.symm, hb1⟩]
      unfold slotScan
      rw [if_pos ⟨by omega, by omega⟩, hj]
    · rw [if_neg (by rintro ⟨_, hcon⟩; omega)]
      unfold slotScan
      rw [if_neg (by rintro ⟨_, h2⟩; omega), if_neg (by rintro ⟨h1, _⟩; omega)]
  · have hne2 : ¬ (b = lastOccGo s (s.getD i 0) i ∧ b + 1 < i) := by
      rintro ⟨hbb, hb1⟩
      rcases lastOccGo_lt_or s (s.getD i 0) i with he | ⟨h1, hv⟩
      · omega
      · have hvb : s.getD b 0 = s.getD i 0 := by rw [hbb]; exact hv
        have hstab := nextOcc_stable s (s.getD b 0) (b + 1) i (by omega)
          (fun j hj1 hj2 => by
            rw [hvb]
            exact lastOccGo_after s (s.getD i 0) i j (by omega) hj2)
          (by omega)
        rw [nextOcc_self s (s.getD b 0) i hi hvb.symm] at hstab
        exact hj hstab
    rw [if_neg hne2]
    unfold slotScan
    by_cases hlt : nextOcc s (s.getD b 0) (b + 1) < i
    · by_cases hin : b + 1 < nextOcc s (s.getD b 0) (b + 1)
      · rw [if_pos ⟨by omega, hin⟩, if_pos ⟨hlt, hin⟩]
      · rw [if_neg (by rintro ⟨_, h⟩; exact hin h), if_neg (by rintro ⟨_, h⟩; exact hin h)]
    · rw [if_neg (by rintro ⟨h, _⟩; omega), if_neg (by rintro ⟨h, _⟩; omega)]

theorem dcEncodeStep_eq (n : Nat) (st : DcEncodeState) (i : Nat) (sym : Sym) :
    dcEncodeStep n st (i, sym) =
      if st.last sym.val = n then
        ((⟨st.mtf.symbols.set st.uniq sym⟩ : MTF).encode sym).map (fun r =>
          { st with
            last := fun c => if c = sym.val then i else st.last c
            init := fun c => if c = sym.val then i else st.init c
            mtf := r.2
            uniq := st.uniq + 1 })
      else
        (st.mtf.encode sym).bind (fun r =>
          if r.1 > 0 then
            if st.last sym.val + r.1 + 1 ≤ i then
              some { st with
                dist := st.dist.set (st.last sym.val) (i - st.last sym.val - r.1 - 1)
                last := fun c => if c = sym.val then i else st.last c
                mtf := r.2 }
            else none
          else
            some { st with
              last := fun c => if c = sym.val then i else st.last c
              mtf := r.2 }) := rfl

set_option maxRecDepth 8000 in
theorem dcEncodeStep_inv (s : List Sym) (i : Nat) (hi : i < s.length) (st : DcEncodeState)
    (h : dcEncInv s i st) :
    ∃ st2, dcEncodeStep s.length st (i, s.getD i 0) = some st2 ∧ dcEncInv s (i + 1) st2 := by
  obtain ⟨hu, ⟨pad, hsym, hpadlen⟩, hlast, hinit, hdlen, hdist⟩ := h
  have hlast2 : ∀ c : Sym,
      (if c.val = (s.getD i 0).val then i else st.last c.val) = lastOccGo s c (i + 1) := by
    intro c
    show _ = if s.getD i 0 = c then i else lastOccGo s c i
    by_cases hc : s.getD i 0 = c
    · rw [if_pos (by rw [hc]), if_pos hc]
    · rw [if_neg (fun hv => hc (Fin.val_inj.mp hv).symm), if_neg hc, hlast c]
  rw [dcEncodeStep_eq, hlast (s.getD i 0)]
  by_cases hnew : lastOccGo s (s.getD i 0) i = s.length
  · -- first occurrence of the symbol at position i
    rw [if_pos hnew]
    have hnm : s.getD i 0 ∉ recency s i := by
      intro hmem
      have := (recency_mem s i (by omega) _).mp hmem
      omega
    have hfirst : ∀ j, j < i → s.getD j 0 ≠ s.getD i 0 := by
      intro j hj hcon
      obtain ⟨h1, _⟩ := lastOccGo_found s (s.getD i 0) i j hj hcon
      omega
    have hnz : nextOcc s (s.getD i 0) 0 = i := by
      rw [nextOcc_stable s (s.getD i 0) 0 i (by omega) (fun j h1 h2 => hfirst j h2) (by omega),
        nextOcc_self s _ i hi rfl]
    have hlen256 : (recency s i).length < 256 := by
      have hnd : (s.getD i 0 :: recency s i).Nodup :=
        List.nodup_cons.mpr ⟨hnm, recency_nodup s i⟩
      have := hnd.length_le_card
      rw [Fintype.card_fin] at this
      simp only [List.length_cons] at this
      omega
    obtain ⟨p, prest, hpad⟩ : ∃ p prest, pad = p :: prest := by
      cases pad with
      | nil =>
        simp at hpadlen
        omega
      | cons p prest => exact ⟨p, prest, rfl⟩
    have hset : st.mtf.symbols.set st.uniq (s.getD i 0) =
        recency s i ++ (s.getD i 0 :: prest) := by
      rw [hsym, hu, hpad, set_append_length]
      rfl
    have hpull0 : mtfPull (s.getD i 0) (s.getD i 0 :: prest) = some (0, prest) := by
      simp [mtfPull]
    have hpull : mtfPull (s.getD i 0) (st.mtf.symbols.set st.uniq (s.getD i 0)) =
        some (0 + (recency s i).length, recency s i ++ prest) := by
      rw [hset, mtfPull_not_mem _ _ _ hnm, hpull0]
      rfl
    have henc2 : (⟨st.mtf.symbols.set st.uniq (s.getD i 0)⟩ : MTF).encode (s.getD i 0) =
        some (0 + (recency s i).length, ⟨s.getD i 0 :: (recency s i ++ prest)⟩) := by
      unfold MTF.encode
      show (mtfPull (s.getD i 0) (st.mtf.symbols.set st.uniq (s.getD i 0))).map _ = _
      rw [hpull]
      rfl
    refine ⟨{ st with
        last := fun c => if c = (s.getD i 0).val then i else st.last c
        init := fun c => if c = (s.getD i 0).val then i else st.init c
        mtf := ⟨s.getD i 0 :: (recency s i ++ prest)⟩
        uniq := st.uniq + 1 }, ?_, ?_, ⟨prest, ?_, ?_⟩, hlast2, ?_, hdlen, ?_⟩
    · rw [henc2]
      rfl
    · show st.uniq + 1 = (recency s (i + 1)).length
      rw [hu]
      show _ = (s.getD i 0 :: (recency s i).erase (s.getD i 0)).length
      rw [List.erase_of_not_mem hnm, List.length_cons]
    · show s.getD i 0 :: (recency s i ++ prest) = recency s (i + 1) ++ prest
      show _ = (s.getD i 0 :: (recency s i).erase (s.getD i 0)) ++ prest
      rw [List.erase_of_not_mem hnm]
      rfl
    · show (recency s (i + 1)).length + prest.length = 256
      show (s.getD i 0 :: (recency s i).erase (s.getD i 0)).length + prest.length = 256
      rw [List.erase_of_not_mem hnm, List.length_cons]
      rw [hpad] at hpadlen
      simp only [List.length_cons] at hpadlen
      omega
    · intro c
      show (if c.val = (s.getD i 0).val then i else st.init c.val) = initPos s c (i + 1)
      by_cases hc : s.getD i 0 = c
      · rw [if_pos (by rw [hc]), ← hc]
        unfold initPos
        rw [hnz, if_pos (by omega)]
      · rw [if_neg (fun hv => hc (Fin.val_inj.mp hv).symm), hinit c, initPos_succ]
        intro hcon
        exact hc (by rw [← nextOcc_hit s c 0 (by omega) (by omega), hcon])
    · intro b hb
      show st.dist.getD b 0 = slotScan s (i + 1) b
      rw [hdist b hb, slotScan_succ s i b hi hb, if_neg (by rintro ⟨hbb, _⟩; omega)]
  · -- repeated occurrence
    rw [if_neg hnew]
    rcases lastOccGo_lt_or s (s.getD i 0) i with he | ⟨hblt, hbval⟩
    · exact absurd he hnew
    set base := lastOccGo s (s.getD i 0) i with hbasedef
    have hmem : s.getD i 0 ∈ recency s i := (recency_mem s i (by omega) _).mpr hblt
    have hpull : mtfPull (s.getD i 0) st.mtf.symbols =
        some (distinctIn s (base + 1) i, (recency s i).erase (s.getD i 0) ++ pad) := by
      rw [hsym]
      have hp0 : mtfPull (s.getD i 0) (recency s i) =
          some ((recency s i).countP
            (fun d => decide (lastOccGo s (s.getD i 0) i < lastOccGo s d i)),
            (recency s i).erase (s.getD i 0)) :=
        mtfPull_rank (fun d => lastOccGo s d i) (s.getD i 0) (recency s i)
          (recency_sorted s i (by omega)) hmem
      rw [recency_rank s i (by omega) (s.getD i 0) hblt] at hp0
      exact mtfPull_append _ _ pad _ hp0
    have henc : st.mtf.encode (s.getD i 0) =
        some (distinctIn s (base + 1) i,
          ⟨s.getD i 0 :: ((recency s i).erase (s.getD i 0) ++ pad)⟩) := by
      unfold MTF.encode
      rw [hpull]
      rfl
    have hmtf2 : (s.getD i 0 :: ((recency s i).erase (s.getD i 0) ++ pad) : List Sym) =
        recency s (i + 1) ++ pad := rfl
    have hulen : (recency s (i + 1)).length = (recency s i).length := by
      show (s.getD i 0 :: (recency s i).erase (s.getD i 0)).length = _
      rw [List.length_cons, List.length_erase_of_mem hmem]
      have : 0 < (recency s i).length := List.length_pos.mpr (by
        intro hcon
        rw [hcon] at hmem
        exact List.not_mem_nil _ hmem)
      omega
    have hinit2 : ∀ c : Sym, st.init c.val = initPos s c (i + 1) := by
      intro c
      rw [hinit c, initPos_succ]
      intro hcon
      have hceq : s.getD i 0 = c := by
        rw [← nextOcc_hit s c 0 (by omega) (by omega), hcon]
      have := nextOcc_found s c 0 base (by omega) (by omega) (by rw [← hceq]; exact hbval)
      omega
    by_cases hpos : 0 < distinctIn s (base + 1) i
    · have hb1 : base + 1 < i := (distinctIn_pos s base i hblt (by omega)).mp hpos
      have hle := distinctIn_le s (base + 1) i (by omega) (by omega)
      refine ⟨{ st with
          dist := st.dist.set base (i - base - distinctIn s (base + 1) i - 1)
          last := fun c => if c = (s.getD i 0).val then i else st.last c
          mtf := ⟨s.getD i 0 :: ((recency s i).erase (s.getD i 0) ++ pad)⟩ },
        ?_, ?_, ⟨pad, hmtf2, ?_⟩, hlast2, hinit2, ?_, ?_⟩
      · rw [henc, Option.some_bind]
        simp only []
        rw [if_pos hpos, if_pos (by omega : base + distinctIn s (base + 1) i + 1 ≤ i)]
      · show st.uniq = (recency s (i + 1)).length
        rw [hulen]
        exact hu
      · rw [hulen]
        exact hpadlen
      · show (st.dist.set base (i - base - distinctIn s (base + 1) i - 1)).length = s.length
        rw [List.length_set]
        exact hdlen
      · intro b hb
        show (st.dist.set base (i - base - distinctIn s (base + 1) i - 1)).getD b 0 =
          slotScan s (i + 1) b
        rw [slotScan_succ s i b hi hb]
        by_cases hbb : b = base
        · rw [hbb, getD_set_self_nat _ _ _ (by rw [hdlen]; omega),
            if_pos ⟨rfl, hb1⟩]
          omega
        · rw [getD_set_ne_nat _ _ _ _ (fun hcon => hbb hcon.symm), hdist b hb,
            if_neg (by rintro ⟨hcon, _⟩; exact hbb hcon)]
    · refine ⟨{ st with
          last := fun c => if c = (s.getD i 0).val then i else st.last c
          mtf := ⟨s.getD i 0 :: ((recency s i).erase (s.getD i 0) ++ pad)⟩ },
        ?_, ?_, ⟨pad, hmtf2, ?_⟩, hlast2, hinit2, hdlen, ?_⟩
      · rw [henc, Option.some_bind]
        simp only []
        rw [if_neg hpos]
      · show st.uniq = (recency s (i + 1)).length
        rw [hulen]
        exact hu
      · rw [hulen]
        exact hpadlen
      · intro b hb
        show st.dist.getD b 0 = slotScan s (i + 1) b
        rw [hdist b hb, slotScan_succ s i b hi hb, if_neg ?_]
        rintro ⟨hbb, hcon⟩
        have := (distinctIn_pos s base i hblt (by omega)).mpr (by omega)
        omega

theorem dcEncInv_zero (s : List Sym) :
    dcEncInv s 0 { dist := List.replicate s.length s.length
                   last := fun _ => s.length
                   init := fun _ => s.length
                   mtf := MTF.new
                   uniq := 0 } := by
  refine ⟨rfl, ⟨List.replicate 256 0, rfl, by rw [List.length_replicate]; rfl⟩,
    fun c => rfl, ?_, ?_, ?_⟩
  · intro c
    show s.length = initPos s c 0
    unfold initPos
    rw [if_neg (by omega)]
  · exact List.length_replicate _ _
  · intro b hb
    unfold slotScan
    rw [if_neg (by rintro ⟨h, _⟩; omega)]
    show (List.replicate s.length s.length).getD b 0 = s.length
    rw [List.getD_eq_getElem?_getD, List.getElem?_replicate, if_pos hb]
    rfl

theorem dcEncode_scan (s : List Sym) :
    ∀ (t : List Sym) (i : Nat) (st : DcEncodeState), t = s.drop i → i ≤ s.length →
      dcEncInv s i st →
      ∃ st2, (List.enumFrom i t).foldl
          (fun acc iv => acc.bind (fun st => dcEncodeStep s.length st (iv.1, iv.2)))
          (some st) = some st2 ∧ dcEncInv s s.length st2 := by
  intro t
  induction t with
  | nil =>
    intro i st hdrop hi hinv
    have hlen : i = s.length := by
      have := congrArg List.length hdrop
      rw [List.length_drop] at this
      simp only [List.length_nil] at this
      omega
    subst hlen
    exact ⟨st, rfl, hinv⟩
  | cons x t ih =>
    intro i st hdrop hi hinv
    have hi2 : i < s.length := by
      have := congrArg List.length hdrop
      rw [List.length_drop] at this
      simp only [List.length_cons] at this
      omega
    have hx : s.getD i 0 = x := by
      have h0 : (s.drop i).getD 0 0 = s.getD i 0 := by
        rw [List.getD_eq_getElem?_getD, List.getD_eq_getElem?_getD, List.getElem?_drop]
        rfl
      rw [← hdrop] at h0
      exact h0.symm
    obtain ⟨st2, hstep, hinv2⟩ := dcEncodeStep_inv s i hi2 st hinv
    rw [List.enumFrom_cons, List.foldl_cons]
    rw [hx] at hstep
    simp only [Option.some_bind]
    rw [hstep]
    exact ih (i + 1) st2 (by rw [← List.drop_drop, ← hdrop]; rfl) (by omega) hinv2

theorem dcEncode_eq (input : List Sym) :
    dcEncode input = (input.enum.foldl
      (fun acc iv => acc.bind (fun st => dcEncodeStep input.length st (iv.1, iv.2)))
      (some { dist := List.replicate input.length input.length
              last := fun _ => input.length
              init := fun _ => input.length
              mtf := MTF.new
              uniq := 0 })).bind
      (fun st => (dcSweep input.length st).map (fun dist => (dist, st))) := rfl

theorem dcSweep_eq (n : Nat) (st : DcEncodeState) :
    dcSweep n st = (st.mtf.symbols.take st.uniq).enum.foldl
      (fun acc rs => acc.bind (fun dist =>
        if st.last rs.2.val + rs.1 + 1 ≤ n then
          some (dist.set (st.last rs.2.val) (n - st.last rs.2.val - rs.1 - 1))
        else none))
      (some st.dist) := rfl

theorem slotScan_len (s : List Sym) (b : Nat)
    (hj : nextOcc s (s.getD b 0) (b + 1) < s.length) :
    slotScan s s.length b = slotFinal s b := by
  unfold slotScan slotFinal
  rw [if_pos hj]
  by_cases hin : b + 1 < nextOcc s (s.getD b 0) (b + 1)
  · rw [if_pos ⟨hj, hin⟩, if_pos hin]
  · rw [if_neg (by rintro ⟨_, h⟩; exact hin h), if_neg hin]

theorem dcSweep_go (s : List Sym) (L : Nat → Nat)
    (hL : ∀ c : Sym, L c.val = lastOccGo s c s.length) :
    ∀ (t : List Sym) (r : Nat) (dist : List Nat),
      recency s s.length = (recency s s.length).take r ++ t →
      r + t.length = (recency s s.length).length →
      dist.length = s.length →
      (∀ b, b < s.length → dist.getD b 0 =
        if nextOcc s (s.getD b 0) (b + 1) = s.length ∧ s.getD b 0 ∉ t
        then slotFinal s b else slotScan s s.length b) →
      ∃ dist2, (List.enumFrom r t).foldl
          (fun acc rs => acc.bind (fun dist =>
            if L rs.2.val + rs.1 + 1 ≤ s.length then
              some (dist.set (L rs.2.val) (s.length - L rs.2.val - rs.1 - 1))
            else none))
          (some dist) = some dist2 ∧ dist2.length = s.length ∧
        (∀ b, b < s.length → dist2.getD b 0 =
          if nextOcc s (s.getD b 0) (b + 1) = s.length then slotFinal s b
          else slotScan s s.length b) := by
  intro t
  induction t with
  | nil =>
    intro r dist _ _ hdlen hdist
    refine ⟨dist, rfl, hdlen, ?_⟩
    intro b hb
    rw [hdist b hb]
    by_cases hc : nextOcc s (s.getD b 0) (b + 1) = s.length
    · rw [if_pos ⟨hc, List.not_mem_nil _⟩, if_pos hc]
    · rw [if_neg (by rintro ⟨h, _⟩; exact hc h), if_neg hc]
  | cons c t2 ih =>
    intro r dist hsplit hrlen hdlen hdist
    have hcR : c ∈ recency s s.length := by
      rw [hsplit]
      exact List.mem_append.mpr (Or.inr (List.mem_cons_self c t2))
    have hcocc : lastOccGo s c s.length < s.length :=
      (recency_mem s s.length (le_refl _) c).mp hcR
    have hrle : r ≤ (recency s s.length).length := by
      have h := hrlen
      simp only [List.length_cons] at h
      omega
    have hlentake : ((recency s s.length).take r).length = r := by
      rw [List.length_take]
      omega
    have hsorted := recency_sorted s s.length (le_refl _)
    have hnd := recency_nodup s s.length
    rw [hsplit, List.pairwise_append] at hsorted
    rw [hsplit] at hnd
    have hnd2 : (c :: t2).Nodup := (List.nodup_append.mp hnd).2.1
    have hcnt2 : c ∉ t2 := (List.nodup_cons.mp hnd2).1
    have hcnt : (recency s s.length).countP
        (fun d => decide (lastOccGo s c s.length < lastOccGo s d s.length)) = r := by
      conv_lhs => rw [hsplit]
      rw [List.countP_append]
      have h1 : ((recency s s.length).take r).countP
          (fun d => decide (lastOccGo s c s.length < lastOccGo s d s.length)) = r := by
        have hall : ∀ a ∈ (recency s s.length).take r,
            (fun d => decide (lastOccGo s c s.length < lastOccGo s d s.length)) a := by
          intro a ha
          rw [decide_eq_true_eq]
          exact hsorted.2.2 a ha c (List.mem_cons_self c t2)
        rw [List.countP_eq_length.mpr hall, hlentake]
      have h2 : ((c :: t2).countP
          (fun d => decide (lastOccGo s c s.length < lastOccGo s d s.length))) = 0 := by
        rw [List.countP_eq_zero]
        intro d hd
        rcases List.mem_cons.mp hd with rfl | hd2
        · simp
        · have hlt := (List.pairwise_cons.mp hsorted.2.1).1 d hd2
          simp only [decide_eq_true_eq]
          omega
      rw [h1, h2]
      omega
    have hrank : distinctIn s (lastOccGo s c s.length + 1) s.length = r := by
      rw [← recency_rank s s.length (le_refl _) c hcocc]
      exact hcnt
    rcases lastOccGo_lt_or s c s.length with he | ⟨hblt, hbval⟩
    · omega
    have hnb : nextOcc s c (lastOccGo s c s.length + 1) = s.length := by
      apply (nextOcc_eq_len_iff s c _ (by omega)).mpr
      refine Or.inr ?_
      show lastOcc s c < lastOccGo s c s.length + 1
      unfold lastOcc
      omega
    have hle := distinctIn_le s (lastOccGo s c s.length + 1) s.length (le_refl _) (by omega)
    rw [List.enumFrom_cons, List.foldl_cons]
    simp only [Option.some_bind]
    rw [hL c, if_pos (by omega : lastOccGo s c s.length + r + 1 ≤ s.length)]
    have htake : (recency s s.length).take (r + 1) = (recency s s.length).take r ++ [c] := by
      conv_lhs => rw [hsplit]
      rw [List.take_append_eq_append_take, List.take_of_length_le (by omega), hlentake,
        show r + 1 - r = 1 from by omega]
      rfl
    have hsplit' : recency s s.length = (recency s s.length).take (r + 1) ++ t2 := by
      rw [htake, List.append_assoc]
      exact hsplit
    have hrlen' : (r + 1) + t2.length = (recency s s.length).length := by
      rw [hsplit, List.length_append, hlentake]
      simp only [List.length_cons]
      omega
    refine ih (r + 1) _ hsplit' hrlen' (by rw [List.length_set]; exact hdlen) ?_
    intro b hb
    by_cases hbb : b = lastOccGo s c s.length
    · subst hbb
      rw [getD_set_self_nat _ _ _ (by omega), hbval, if_pos ⟨hnb, hcnt2⟩]
      unfold slotFinal
      rw [hbval, if_neg (by omega)]
      omega
    · rw [getD_set_ne_nat _ _ _ _ (fun hcon => hbb hcon.symm), hdist b hb]
      by_cases hP : nextOcc s (s.getD b 0) (b + 1) = s.length
      · have hbne : s.getD b 0 ≠ c := by
          intro hcon
          obtain ⟨h1, h2⟩ := lastOccGo_found s c s.length b hb hcon
          rw [hcon] at hP
          rcases (nextOcc_eq_len_iff s c (b + 1) (by omega)).mp hP with hA | hA
          · unfold lastOcc at hA
            omega
          · unfold lastOcc at hA
            omega
        by_cases hm : s.getD b 0 ∈ t2
        · rw [if_neg (by rintro ⟨_, hnm⟩; exact hnm (List.mem_cons_of_mem c hm)),
            if_neg (by rintro ⟨_, hnm⟩; exact hnm hm)]
        · have hnm2 : s.getD b 0 ∉ c :: t2 := by
            rw [List.mem_cons]
            rintro (h | h)
            · exact hbne h
            · exact hm h
          rw [if_pos ⟨hP, hnm2⟩, if_pos ⟨hP, hm⟩]
      · rw [if_neg (by rintro ⟨h, _⟩; exact hP h), if_neg (by rintro ⟨h, _⟩; exact hP h)]

theorem dcEncode_spec (s : List Sym) :
    ∃ st, dcEncode s = some ((List.range s.length).map (slotFinal s), st) ∧
      (∀ c : Sym, st.init c.val = nextOcc s c 0) := by
  obtain ⟨st, hfold, hinv⟩ := dcEncode_scan s s 0
    { dist := List.replicate s.length s.length
      last := fun _ => s.length
      init := fun _ => s.length
      mtf := MTF.new
      uniq := 0 } (List.drop_zero s).symm (by omega) (dcEncInv_zero s)
  obtain ⟨hu, ⟨pad, hsym, hpadlen⟩, hlast, hinit, hdlen, hdist⟩ := hinv
  have hinit2 : ∀ c : Sym, st.init c.val = nextOcc s c 0 := by
    intro c
    rw [hinit c]
    unfold initPos
    have := nextOcc_le s c 0 (by omega)
    by_cases h1 : nextOcc s c 0 < s.length
    · rw [if_pos h1]
    · rw [if_neg h1]
      omega
  have htakeu : st.mtf.symbols.take st.uniq = recency s s.length := by
    rw [hsym, hu, List.take_left]
  obtain ⟨dist2, hsfold, hdlen2, hdist2⟩ := dcSweep_go s st.last hlast
    (recency s s.length) 0 st.dist
    (by rw [List.take_zero]; rfl)
    (by rw [Nat.zero_add])
    hdlen
    (by
      intro b hb
      rw [hdist b hb, if_neg ?_]
      rintro ⟨_, hnm⟩
      apply hnm
      apply (recency_mem s s.length (le_refl _) _).mpr
      obtain ⟨h1, _⟩ := lastOccGo_found s (s.getD b 0) s.length b hb rfl
      exact h1)
  have hsweep : dcSweep s.length st = some dist2 := by
    rw [dcSweep_eq, htakeu,
      show (recency s s.length).enum = List.enumFrom 0 (recency s s.length) from rfl]
    exact hsfold
  have hd2 : dist2 = (List.range s.length).map (slotFinal s) := by
    apply List.ext_getElem
    · rw [hdlen2, List.length_map, List.length_range]
    · intro b h1 h2
      have hb : b < s.length := by rwa [hdlen2] at h1
      rw [← List.getD_eq_getElem dist2 0 h1, hdist2 b hb,
        show ((List.range s.length).map (slotFinal s))[b] = slotFinal s b from by
          rw [List.getElem_map, List.getElem_range]]
      by_cases hc : nextOcc s (s.getD b 0) (b + 1) = s.length
      · rw [if_pos hc]
      · rw [if_neg hc]
        exact slotScan_len s b (by
          have := nextOcc_le s (s.getD b 0) (b + 1) (by omega)
          omega)
  refine ⟨st, ?_, hinit2⟩
  rw [dcEncode_eq, show (s.enum : List (Nat × Sym)) = List.enumFrom 0 s from rfl,
    hfold, Option.some_bind, hsweep, hd2]
  rfl

theorem dcEncodeSimple_spec (s : List Sym) :
    dcEncodeSimple s =
      some ((List.range 256).map (fun cv => nextOcc s (byteSym cv) 0) ++ runDists s 0) := by
  obtain ⟨st, henc, hinit⟩ := dcEncode_spec s
  unfold dcEncodeSimple
  rw [henc]
  show some ((List.range 256).map st.init ++
      ((List.range s.length).map (slotFinal s)).filter (fun d => decide (d ≠ s.length))) = _
  rw [slots_filter]
  have hmap : (List.range 256).map st.init =
      (List.range 256).map (fun cv => nextOcc s (byteSym cv) 0) := by
    apply List.map_congr_left
    intro cv hcv
    have hlt : cv < 256 := List.mem_range.mp hcv
    show st.init cv = nextOcc s (byteSym cv) 0
    rw [← hinit (byteSym cv)]
    show st.init cv = st.init (cv % 256)
    rw [Nat.mod_eq_of_lt hlt]
  rw [hmap]

/-- C3: for every byte sequence `s` of length `n`, the Distance Coding
round-trip recovers the input: `dc::decode_simple(n, dc::encode_simple(s))`
returns `s` (the encoder succeeds, and decoding its output with the block
length yields the original block; this covers in particular the byte
sequences `[0..255]` and "abracadabra"). -/
theorem dc_roundtrip (s : List Sym) :
    ∃ D, dcEncodeSimple s = some D ∧ dcDecodeSimple s.length D = some s := by
  refine ⟨_, dcEncodeSimple_spec s, ?_⟩
  unfold dcDecodeSimple
  have hmaplen : ((List.range 256).map (fun cv => nextOcc s (byteSym cv) 0)).length = 256 := by
    rw [List.length_map, List.length_range]
  have hlen : 256 ≤ ((List.range 256).map (fun cv => nextOcc s (byteSym cv) 0) ++
      runDists s 0).length := by
    rw [List.length_append, hmaplen]
    omega
  rw [if_pos hlen]
  have hdrop : ((List.range 256).map (fun cv => nextOcc s (byteSym cv) 0) ++
      runDists s 0).drop 256 = runDists s 0 :=
    List.drop_left' hmaplen
  rw [hdrop]
  have hnext0 : ∀ c : Sym, ((List.range 256).map (fun cv => nextOcc s (byteSym cv) 0) ++
      runDists s 0).getD c.val 0 = nextOcc s c 0 := by
    intro c
    have hc256 : c.val < ((List.range 256).map (fun cv => nextOcc s (byteSym cv) 0)).length := by
      rw [hmaplen]
      exact c.isLt
    rw [List.getD_append]
    · rw [List.getD_eq_getElem _ 0 hc256, List.getElem_map, List.getElem_range, byteSym_val]
    · exact hc256
  rcases le_or_lt (alphaCnt s) 1 with hm | hm
  · exact dcDecode_small s hm _ hnext0
  · exact dcDecode_runs s hm _ hnext0

/-- Witness for C2 at the concrete input `[0, 1]`. -/
theorem bwt_roundtrip_witness :
    ([0, 1] : List Sym) ≠ [] ∧
    ((bwtEncodeSimple [0, 1]).2 < ([0, 1] : List Sym).length ∧
      bwtDecodeSimple (bwtEncodeSimple [0, 1]).1 (bwtEncodeSimple [0, 1]).2 =
        some [0, 1]) :=
  ⟨by decide, bwt_roundtrip [0, 1] (by decide)⟩

end RustCompress
